import Mathlib

/-!
Verification of the CloudAI-CLI `internal/llm` and `internal/state` subsystems:
a shallow embedding of the data redactor (`DataProtector`), the cost governor
(`CostManager`), backend selection (`Router.chooseClient`, `SelectBestAWSModel`)
and the IaC scanner (`IaCProvider.Scan` plus the `scan` command), together with
proofs of the behavioural properties stated for them.

Conventions of the embedding:
* Go strings are modelled as `String` / `List Char` (rune sequences); the
  patterns involved are ASCII, for which rune-level and byte-level matching
  agree.
* Go `float64` amounts (dollar costs) are modelled as exact rationals `ℚ`;
  every comparison appearing in the claims is far from any rounding boundary.
* Go `int` counters are modelled as `ℤ` (or `ℕ` where the source guarantees
  non-negativity).
* File-system effects are modelled by threading an explicit `FS` value through
  the operations that touch the disk; operations whose source performs no I/O
  leave it untouched.
* Go map iteration order is unspecified; theorems about `Unscrub` therefore
  quantify over all permutations of the recorded replacement list.
-/

namespace CloudAI

abbrev Chars := List Char

/-- ASCII digit test, the action of Go regexp `\d` (`[0-9]`). -/
def isDigitChar (c : Char) : Bool := c.isDigit

/-- ASCII word character `[0-9A-Za-zA_]`, the word class underlying Go regexp `\b`. -/
def isWordChar (c : Char) : Bool := c.isAlphanum || c == '_'

/-- Character class of the ARN pattern `arn:[A-Za-z0-9\-_:/.]+` (data_protector). -/
def isArnChar (c : Char) : Bool :=
  c.isAlphanum || c == '-' || c == '_' || c == ':' || c == '/' || c == '.'

/-- Character class of the S3 pattern `s3://[A-Za-z0-9.\-_/]+` (data_protector). -/
def isS3Char (c : Char) : Bool :=
  c.isAlphanum || c == '.' || c == '-' || c == '_' || c == '/'

/-- Fuelled helper for `natChars` (the fuel keeps the recursion structural, so
that the kernel can evaluate it; `natChars_eq` recovers the natural
recurrence). -/
def natCharsAux : ℕ → ℕ → Chars
  | 0, _ => []
  | fuel + 1, n =>
    if n < 10 then [Nat.digitChar n]
    else natCharsAux fuel (n / 10) ++ [Nat.digitChar (n % 10)]

/-- Decimal digit characters of a natural number, as produced by Go
`strconv.Itoa` on the (always positive) placeholder counter. -/
def natChars (n : ℕ) : Chars := natCharsAux (n + 1) n

/-- The Go regexp `\b` condition at a match start whose first matched character
is a word character: the preceding character (if any) must not be a word
character. -/
def boundaryOk : Option Char → Bool
  | none => true
  | some c => !isWordChar c

/-- The Go regexp `\b` condition after a match whose last character is a word
character: the following text must be empty or start with a non-word character. -/
def boundaryAfter : Chars → Bool
  | [] => true
  | c :: _ => !isWordChar c

/-- Match attempt for `arn:[A-Za-z0-9\-_:/.]+` anchored at the head of the text,
returning the (greedy, leftmost-first) match length. -/
def tryArn : Option Char → Chars → Option ℕ
  | _, 'a' :: 'r' :: 'n' :: ':' :: rest =>
    let run := (rest.takeWhile isArnChar).length
    if run = 0 then none else some (4 + run)
  | _, _ => none

/-- Match attempt for `\b\d{12}\b` anchored at the head of the text. -/
def tryAcct (prev : Option Char) (cs : Chars) : Option ℕ :=
  if boundaryOk prev && (cs.take 12).length == 12 && (cs.take 12).all isDigitChar
      && boundaryAfter (cs.drop 12) then some 12 else none

/-- Candidate lengths for one octet `\d{1,3}` at the head of the text, in the
greedy (longest-first) order in which a backtracking matcher tries them. -/
def octLens (cs : Chars) : List ℕ :=
  [3, 2, 1].filter fun k => (cs.take k).length == k && (cs.take k).all isDigitChar

/-- First candidate for which the continuation succeeds (backtracking search). -/
def firstSome : List ℕ → (ℕ → Option ℕ) → Option ℕ
  | [], _ => none
  | k :: ks, f =>
    match f k with
    | some r => some r
    | none => firstSome ks f

/-- Match attempt for the remaining `(\.\d{1,3}){g}\b` part of the IP pattern,
returning the number of characters consumed. -/
def ipGroups : ℕ → Chars → Option ℕ
  | 0, cs => if boundaryAfter cs then some 0 else none
  | _ + 1, [] => none
  | g + 1, c :: rest =>
    if c = '.' then
      firstSome (octLens rest) fun k => (ipGroups g (rest.drop k)).map (fun r => 1 + k + r)
    else none

/-- Match attempt for `\b\d{1,3}(?:\.\d{1,3}){3}\b` anchored at the head of the
text, with Go/RE2 leftmost-first (Perl backtracking) semantics. -/
def tryIp (prev : Option Char) (cs : Chars) : Option ℕ :=
  if boundaryOk prev then
    firstSome (octLens cs) fun k => (ipGroups 3 (cs.drop k)).map (fun r => k + r)
  else none

/-- Match attempt for `s3://[A-Za-z0-9.\-_/]+` anchored at the head of the text. -/
def tryS3 : Option Char → Chars → Option ℕ
  | _, 's' :: '3' :: ':' :: '/' :: '/' :: rest =>
    let run := (rest.takeWhile isS3Char).length
    if run = 0 then none else some (5 + run)
  | _, _ => none

/-- One piece of the decomposition produced by scanning a text for the
successive non-overlapping leftmost matches of one pattern
(`regexp.FindAllStringIndex` + the rebuild loop in `replaceAll`): an unmatched
character, or one whole match. -/
inductive Chunk where
  | raw (c : Char)
  | hit (m : Chars)
deriving DecidableEq

/-- Scan a text for the successive non-overlapping leftmost matches of a
pattern, exactly as `FindAllStringIndex` enumerates them: at each position try
the (leftmost-first) anchored matcher; on a match, resume after its end.
`prev` is the character preceding the current position, used for `\b`. -/
def scanChunksAux (tm : Option Char → Chars → Option ℕ) : ℕ → Option Char → Chars → List Chunk
  | 0, _, _ => []
  | _, _, [] => []
  | fuel + 1, prev, c :: cs =>
    match tm prev (c :: cs) with
    | some n =>
      if n = 0 then Chunk.raw c :: scanChunksAux tm fuel (some c) cs
      else
        Chunk.hit ((c :: cs).take n)
          :: scanChunksAux tm fuel ((c :: cs).take n).getLast? ((c :: cs).drop n)
    | none => Chunk.raw c :: scanChunksAux tm fuel (some c) cs

/-- The scan over a whole text (fuel instantiated with the text length, which
`scanChunksAux_congr` below shows is always enough). -/
def scanChunks (tm : Option Char → Chars → Option ℕ) (prev : Option Char) (cs : Chars) :
    List Chunk :=
  scanChunksAux tm cs.length prev cs

/-- `DataProtector` (data_protector source file): the in-memory
placeholder → original map, kept here as an association list in insertion
order, and the shared strictly-increasing counter. -/
structure DataProtector where
  replacements : List (Chars × Chars)
  nextIndex : ℕ
deriving DecidableEq

/-- `NewDataProtector`. -/
def NewDataProtector : DataProtector := ⟨[], 1⟩

/-- `buildPlaceholder` without the counter increment: `"[[" + tag + "_" + Itoa n + "]]"`. -/
def placeholderChars (tag : Chars) (n : ℕ) : Chars :=
  '[' :: '[' :: (tag ++ '_' :: (natChars n ++ [']', ']']))

/-- The rebuild loop of `replaceAll`: emit unmatched characters verbatim; for
each match allocate the next placeholder, record the mapping, and substitute. -/
def runChunks (p : DataProtector) (tag : Chars) : List Chunk → DataProtector × Chars
  | [] => (p, [])
  | Chunk.raw c :: rest =>
    let r := runChunks p tag rest
    (r.1, c :: r.2)
  | Chunk.hit m :: rest =>
    let ph := placeholderChars tag p.nextIndex
    let r := runChunks ⟨p.replacements ++ [(ph, m)], p.nextIndex + 1⟩ tag rest
    (r.1, ph ++ r.2)

/-- `DataProtector.replaceAll` for one pattern. -/
def runPass (p : DataProtector) (tag : Chars) (tm : Option Char → Chars → Option ℕ)
    (cs : Chars) : DataProtector × Chars :=
  runChunks p tag (scanChunks tm none cs)

/-- The ordered pattern loop of `Scrub`: ARN, ACCOUNT_ID, IP, S3. -/
def scrubPasses (p : DataProtector) (cs : Chars) : DataProtector × Chars :=
  let r1 := runPass p "ARN".data tryArn cs
  let r2 := runPass r1.1 "ACCOUNT_ID".data tryAcct r1.2
  let r3 := runPass r2.1 "IP".data tryIp r2.2
  runPass r3.1 "S3".data tryS3 r3.2

/-- `DataProtector.Scrub`. -/
def DataProtector.Scrub (p : DataProtector) (text : String) : DataProtector × String :=
  if text = "" then (p, text)
  else
    let r := scrubPasses p text.data
    (r.1, String.mk r.2)

/-- Fuelled inner loop of Go `strings.ReplaceAll` for a non-empty pattern
`p0 :: ptl`: replace the successive non-overlapping leftmost occurrences. -/
def replaceCoreAux (p0 : Char) (ptl rep : Chars) : ℕ → Chars → Chars
  | 0, s => s
  | _, [] => []
  | fuel + 1, c :: cs =>
    if (p0 :: ptl) <+: (c :: cs) then rep ++ replaceCoreAux p0 ptl rep fuel (cs.drop ptl.length)
    else c :: replaceCoreAux p0 ptl rep fuel cs

/-- `replaceCoreAux` over a whole text, with adequate fuel. -/
def replaceCore (p0 : Char) (ptl rep s : Chars) : Chars :=
  replaceCoreAux p0 ptl rep s.length s

/-- Go `strings.ReplaceAll s pat rep` (an empty pattern makes Go insert the
replacement before every rune and at the end). -/
def replaceAllList (s pat rep : Chars) : Chars :=
  match pat with
  | [] => rep ++ (s.map (fun c => c :: rep)).flatten
  | p0 :: ptl => replaceCore p0 ptl rep s

/-- The `Unscrub` loop body over a given traversal order of the map. -/
def unscrubWith (entries : List (Chars × Chars)) (t : Chars) : Chars :=
  entries.foldl (fun acc e => replaceAllList acc e.1 e.2) t

/-- `DataProtector.Unscrub` (the traversal order of the Go map is unspecified;
this canonical version uses insertion order, and the theorems below quantify
over all permutations). -/
def DataProtector.Unscrub (p : DataProtector) (text : String) : String :=
  if p.replacements.length = 0 || text = "" then text
  else String.mk (unscrubWith p.replacements text.data)

/-- The fixed pattern tags of `Scrub`, in application order. -/
def TAGS : List Chars := ["ARN".data, "ACCOUNT_ID".data, "IP".data, "S3".data]

/-- Decimal decoding, the left inverse of `natChars`. -/
def decodeDigits (cs : Chars) : ℕ := cs.foldl (fun a c => 10 * a + (c.toNat - 48)) 0

/-- The matched substrings of a chunk decomposition, left to right. -/
def hitsOf : List Chunk → List Chars
  | [] => []
  | Chunk.raw _ :: rest => hitsOf rest
  | Chunk.hit m :: rest => m :: hitsOf rest

/-- The replacement entries one pass records, with the counter starting at `n`. -/
def newEntries (tag : Chars) (n : ℕ) : List Chunk → List (Chars × Chars)
  | [] => []
  | Chunk.raw _ :: rest => newEntries tag n rest
  | Chunk.hit m :: rest => (placeholderChars tag n, m) :: newEntries tag (n + 1) rest

/-- The (tag, counter) pairs of the placeholders one pass allocates. -/
def newMeta (tag : Chars) (n : ℕ) : List Chunk → List (Chars × ℕ)
  | [] => []
  | Chunk.raw _ :: rest => newMeta tag n rest
  | Chunk.hit _ :: rest => (tag, n) :: newMeta tag (n + 1) rest

/-- The output text one pass produces, with the counter starting at `n`. -/
def renderChunks (tag : Chars) (n : ℕ) : List Chunk → Chars
  | [] => []
  | Chunk.raw c :: rest => c :: renderChunks tag n rest
  | Chunk.hit _ :: rest => placeholderChars tag n ++ renderChunks tag (n + 1) rest

/-- Session invariant of the redactor state: every recorded key is a
placeholder of one of the four tags, the embedded counters increase strictly
left to right, and all stay below `nextIndex`, which is at least 1. -/
def DPInv (p : DataProtector) : Prop :=
  1 ≤ p.nextIndex ∧
  ∃ meta : List (Chars × ℕ),
    p.replacements.map Prod.fst = meta.map (fun tm => placeholderChars tm.1 tm.2)
    ∧ (∀ tm ∈ meta, tm.1 ∈ TAGS)
    ∧ List.Chain' (· < ·) (meta.map Prod.snd)
    ∧ ∀ i ∈ meta.map Prod.snd, 1 ≤ i ∧ i < p.nextIndex

/-! ### Ghost decomposition of in-flight redacted text

`Scrub` output interleaves untouched fragments of the original input with
placeholders.  A `Piece` list records that decomposition together with the
original value hidden behind each placeholder; it is the invariant carrier for
the round-trip and containment proofs. -/

/-- One piece of in-flight text: an untouched fragment, or one placeholder
(tag, counter) hiding an original value. -/
inductive Piece where
  | raw (cs : Chars)
  | hole (tag : Chars) (idx : ℕ) (val : Chars)
deriving DecidableEq

/-- Render a piece as the scrubbed text shows it. -/
def Piece.renderPH : Piece → Chars
  | .raw cs => cs
  | .hole tag idx _ => placeholderChars tag idx

/-- Render a piece as the original text had it. -/
def Piece.renderVal : Piece → Chars
  | .raw cs => cs
  | .hole _ _ val => val

/-- Render with the holes selected by `f` already replaced by their values
(the intermediate states of `Unscrub`). -/
def renderSel (f : ℕ → Bool) : Piece → Chars
  | .raw cs => cs
  | .hole tag idx val => if f idx then val else placeholderChars tag idx

/-- The scrubbed text of a decomposition. -/
def flattenPH (ps : List Piece) : Chars := (ps.map Piece.renderPH).flatten

/-- The original text of a decomposition. -/
def flattenVal (ps : List Piece) : Chars := (ps.map Piece.renderVal).flatten

/-- The partially unscrubbed text of a decomposition. -/
def flattenSel (f : ℕ → Bool) (ps : List Piece) : Chars := (ps.map (renderSel f)).flatten

def isHolePiece : Piece → Bool
  | .hole _ _ _ => true
  | .raw _ => false

/-- The placeholder pieces of a decomposition, in text order. -/
def holes (ps : List Piece) : List Piece := ps.filter isHolePiece

/-- The replacement-map entry a hole stands for. -/
def holeEntry : Piece → Chars × Chars
  | .hole tag idx val => (placeholderChars tag idx, val)
  | .raw cs => (cs, cs)

/-- The counter of a hole (0 on raw pieces, on which it is never used). -/
def holeIdx : Piece → ℕ
  | .hole _ idx _ => idx
  | .raw _ => 0

/-- Holes for a list of matched substrings, with counters `n`, `n+1`, …. -/
def holesFromHits (tag : Chars) (n : ℕ) : List Chars → List Piece
  | [] => []
  | m :: rest => .hole tag n m :: holesFromHits tag (n + 1) rest

/-- The pieces contributed by one scanned segment. -/
def chunksToPieces (tag : Chars) (n : ℕ) : List Chunk → List Piece
  | [] => []
  | Chunk.raw c :: rest => .raw [c] :: chunksToPieces tag n rest
  | Chunk.hit m :: rest => .hole tag n m :: chunksToPieces tag (n + 1) rest

/-- The text a chunk came from. -/
def chunkOrig : Chunk → Chars
  | .raw c => [c]
  | .hit m => m

/-- The text a chunk list came from. -/
def joinOrig (chs : List Chunk) : Chars := (chs.map chunkOrig).flatten

/-- The last character of `l`, or `d` if `l` is empty (the `\b` context after
consuming `l`). -/
def lastOr (l : Chars) (d : Option Char) : Option Char :=
  match l.getLast? with
  | some c => some c
  | none => d

/-- Merge adjacent raw pieces and drop empty ones. -/
def normPieces : List Piece → List Piece
  | [] => []
  | .hole t i v :: rest => .hole t i v :: normPieces rest
  | .raw cs :: rest =>
    match normPieces rest with
    | .raw cs' :: rest' =>
      if cs ++ cs' = [] then rest' else .raw (cs ++ cs') :: rest'
    | other => if cs = [] then other else .raw cs :: other

/-- Normal form: no empty raw piece, no two adjacent raw pieces. -/
def Alt (ps : List Piece) : Prop :=
  (∀ cs, Piece.raw cs ∈ ps → cs ≠ [])
  ∧ List.Chain' (fun a b => isHolePiece a || isHolePiece b) ps

/-- Hole tags come from the fixed tag list. -/
def holeTagOk : Piece → Prop
  | .hole t _ _ => t ∈ TAGS
  | .raw _ => True

/-- Characters at which some pattern of `Scrub` can start a match. -/
def startable (c : Char) : Bool := isDigitChar c || c == 'a' || c == 's'

/-- The facts about an anchored matcher on which the decomposition argument
relies; all four `Scrub` matchers satisfy them. -/
structure MatcherOk (tm : Option Char → Chars → Option ℕ) : Prop where
  pos : ∀ prev cs n, tm prev cs = some n → 1 ≤ n
  le_len : ∀ prev cs n, tm prev cs = some n → n ≤ cs.length
  no_bracket : ∀ prev cs n, tm prev cs = some n → ∀ c ∈ cs.take n, c ≠ '[' ∧ c ≠ ']'
  not_startable : ∀ prev c cs, startable c = false → tm prev (c :: cs) = none
  digit_after_word : ∀ w c cs, isWordChar w = true → isDigitChar c = true →
    tm (some w) (c :: cs) = none

/-- Invariant carried through the four passes of `Scrub`: the recorded map is,
up to order, the hole-entry list of the current decomposition; hole counters
are pairwise distinct, positive and below `nextIndex`; hole tags come from the
fixed tag list; hole values (the matched substrings) contain no bracket; and
raw fragments never contain `'['` (they descend from the input text). -/
def ScrubInv (p : DataProtector) (ps : List Piece) : Prop :=
  1 ≤ p.nextIndex
  ∧ List.Perm p.replacements ((holes ps).map holeEntry)
  ∧ ((holes ps).map holeIdx).Nodup
  ∧ (∀ t j v, Piece.hole t j v ∈ ps →
      t ∈ TAGS ∧ 1 ≤ j ∧ j < p.nextIndex ∧ ∀ c ∈ v, c ≠ '[' ∧ c ≠ ']')
  ∧ (∀ cs, Piece.raw cs ∈ ps → ∀ c ∈ cs, c ≠ '[')

/-- `true` on `none` or on a non-word character (the `\b` context test on an
optional neighbouring character). -/
def nonWordOpt : Option Char → Bool
  | none => true
  | some w => !isWordChar w

/-- Every occurrence of `s` in `t` sits between word boundaries. -/
def occWB (s t : Chars) : Prop :=
  ∀ x y, t = x ++ s ++ y → nonWordOpt x.getLast? = true ∧ nonWordOpt y.head? = true

/-- Executable form of `occWB` (the two agree by `occWBcheck_spec`). -/
def occWBcheck (s t : Chars) : Bool :=
  (List.range (t.length + 1)).all fun i =>
    !((t.drop i).take s.length == s)
    || (nonWordOpt (t.take i).getLast? && nonWordOpt (t.drop (i + s.length)).head?)

/-- Length of the longest run of consecutive digit characters, with the current
run and the best run so far as accumulators. -/
def digitRunAux : Chars → ℕ → ℕ → ℕ
  | [], cur, best => max cur best
  | c :: cs, cur, best =>
    if isDigitChar c then digitRunAux cs (cur + 1) best
    else digitRunAux cs 0 (max cur best)

/-- Length of the longest run of consecutive digit characters in a text. -/
def longestDigitRun (cs : Chars) : ℕ := digitRunAux cs 0 0

/-! ### Cost manager (`internal/llm/cost_manager.go`) -/

/-- `ModelCost`: one entry of the static AWS model table. Dollar prices are
per 1000 tokens; speed and quality are relative 1–10 scores. -/
structure ModelCost where
  ModelID : String
  InputTokenCost : ℚ
  OutputTokenCost : ℚ
  Speed : ℤ
  Quality : ℤ
deriving DecidableEq

instance : Inhabited ModelCost := ⟨⟨"", 0, 0, 0, 0⟩⟩

/-- Claude 3 Haiku entry of `ModelCosts`. -/
def haikuModel : ModelCost := ⟨"anthropic.claude-3-haiku-20240307-v1:0", 0.25, 1.25, 9, 7⟩

/-- Claude 3 Sonnet entry of `ModelCosts`. -/
def sonnetModel : ModelCost := ⟨"anthropic.claude-3-sonnet-20240229-v1:0", 3.0, 15.0, 7, 9⟩

/-- Titan Text Express entry of `ModelCosts`. -/
def titanModel : ModelCost := ⟨"amazon.titan-text-express-v1", 0.13, 0.17, 8, 6⟩

/-- Llama 3.2 70B entry of `ModelCosts`. -/
def llamaModel : ModelCost := ⟨"meta.llama3.2-70b-instruct-v1:0", 0.99, 0.99, 6, 8⟩

/-- The static `ModelCosts` table. -/
def ModelCosts : List ModelCost := [haikuModel, sonnetModel, titanModel, llamaModel]

/-- `CostTracker`: the persisted daily usage record. -/
structure CostTracker where
  Date : String
  TotalCost : ℚ
  RequestCount : ℤ
  TokensUsed : ℤ
deriving DecidableEq

/-- `CostManager` (the `configPath` field is represented by the explicit path
argument of the file-system level operations below). -/
structure CostManager where
  DailyLimit : ℚ
  CurrentUsage : CostTracker
deriving DecidableEq

/-- `CostManager.LoadUsage`, with today's date and the persisted file contents
passed explicitly; `none` models both a failed read and malformed JSON, which
the source treats identically (fresh tracker for today). -/
def LoadUsage (today : String) (disk : Option CostTracker) : CostTracker :=
  match disk with
  | none => ⟨today, 0, 0, 0⟩
  | some usage => if usage.Date ≠ today then ⟨today, 0, 0, 0⟩ else usage

/-- `CostManager.CanMakeRequest`. -/
def CostManager.CanMakeRequest (cm : CostManager) (estimatedCost : ℚ) : Bool :=
  decide (cm.CurrentUsage.TotalCost + estimatedCost ≤ cm.DailyLimit)

/-- `CostManager.CalculateCost`: per-1000-token pricing for a known model,
`0.0` for a model absent from the table. -/
def CostManager.CalculateCost (_cm : CostManager) (inputTokens outputTokens : ℤ)
    (modelID : String) : ℚ :=
  match ModelCosts.find? (fun model => model.ModelID == modelID) with
  | some model =>
    (inputTokens : ℚ) / 1000 * model.InputTokenCost + (outputTokens : ℚ) / 1000 * model.OutputTokenCost
  | none => 0

/-- `CostManager.TrackUsage` (the in-memory update; the `SaveUsage` disk write
is modelled at the file-system level). -/
def CostManager.TrackUsage (cm : CostManager) (inputTokens outputTokens : ℤ)
    (modelID : String) : CostManager :=
  let cost := cm.CalculateCost inputTokens outputTokens modelID
  { cm with CurrentUsage :=
    { cm.CurrentUsage with
      TotalCost := cm.CurrentUsage.TotalCost + cost
      RequestCount := cm.CurrentUsage.RequestCount + 1
      TokensUsed := cm.CurrentUsage.TokensUsed + inputTokens + outputTokens } }

/-- `CostManager.GetRemainingBudget`. -/
def CostManager.GetRemainingBudget (cm : CostManager) : ℚ :=
  cm.DailyLimit - cm.CurrentUsage.TotalCost

/-- `GetModelCost`. -/
def GetModelCost (modelID : String) : Option ModelCost :=
  ModelCosts.find? (fun model => model.ModelID == modelID)

/-- The fallback of `SelectBestAWSModel` when no model is affordable and Haiku
were missing from the table: the cheapest model by summed token prices. -/
def cheapestFallback : ModelCost :=
  ModelCosts.foldl
    (fun cheapest model =>
      if model.InputTokenCost + model.OutputTokenCost
          < cheapest.InputTokenCost + cheapest.OutputTokenCost then model else cheapest)
    ModelCosts.headI

/-- `SelectBestAWSModel`. -/
def SelectBestAWSModel (dailyBudget : ℚ) (prioritizeSpeed : Bool) : ModelCost :=
  let avgInputTokens : ℚ := 1000
  let avgOutputTokens : ℚ := 500
  let maxCostPerRequest := dailyBudget / 10
  let affordableModels := ModelCosts.filter fun model =>
    decide (avgInputTokens / 1000 * model.InputTokenCost
      + avgOutputTokens / 1000 * model.OutputTokenCost ≤ maxCostPerRequest)
  match affordableModels with
  | [] =>
    match ModelCosts.find?
        (fun model => model.ModelID == "anthropic.claude-3-haiku-20240307-v1:0") with
    | some model => model
    | none => cheapestFallback
  | first :: _ =>
    match affordableModels.find?
        (fun model => model.ModelID == "anthropic.claude-3-haiku-20240307-v1:0") with
    | some model => model
    | none =>
      affordableModels.foldl
        (fun best model =>
          if prioritizeSpeed then
            if model.Speed > best.Speed ∨ (model.Speed = best.Speed ∧ model.Quality > best.Quality)
            then model else best
          else
            if model.Quality > best.Quality ∨ (model.Quality = best.Quality ∧ model.Speed > best.Speed)
            then model else best)
        first

/-- The affordability filter inside `SelectBestAWSModel`, named so theorems can
speak about the set of affordable models. -/
def affordableModels (dailyBudget : ℚ) : List ModelCost :=
  ModelCosts.filter fun model =>
    decide ((1000 : ℚ) / 1000 * model.InputTokenCost
      + (500 : ℚ) / 1000 * model.OutputTokenCost ≤ dailyBudget / 10)

/-- The selection stage of `SelectBestAWSModel` as a function of the affordable
list (definitionally equal to `SelectBestAWSModel` once the filter is named). -/
def selectFromAffordable (affordable : List ModelCost) (prioritizeSpeed : Bool) : ModelCost :=
  match affordable with
  | [] =>
    match ModelCosts.find?
        (fun model => model.ModelID == "anthropic.claude-3-haiku-20240307-v1:0") with
    | some model => model
    | none => cheapestFallback
  | first :: _ =>
    match affordable.find?
        (fun model => model.ModelID == "anthropic.claude-3-haiku-20240307-v1:0") with
    | some model => model
    | none =>
      affordable.foldl
        (fun best model =>
          if prioritizeSpeed then
            if model.Speed > best.Speed ∨ (model.Speed = best.Speed ∧ model.Quality > best.Quality)
            then model else best
          else
            if model.Quality > best.Quality ∨ (model.Quality = best.Quality ∧ model.Speed > best.Speed)
            then model else best)
        first

/-! ### Client answering and the budget gate (`internal/llm/client.go`) -/

/-- `Client.estimateRequestCost`: ~4 bytes per token on the prompt, assumed 500
output tokens, priced from the model table; `0.01` for an unknown model,
`0.0` when no AWS client is configured. -/
def estimateRequestCost (awsConfigured : Bool) (modelID : String) (prompt : String) : ℚ :=
  if !awsConfigured then 0
  else
    let inputTokens : ℕ := prompt.utf8ByteSize / 4
    let outputTokens : ℕ := 500
    match GetModelCost modelID with
    | none => 0.01
    | some modelCost =>
      (inputTokens : ℚ) / 1000 * modelCost.InputTokenCost
        + (outputTokens : ℚ) / 1000 * modelCost.OutputTokenCost

/-- Errors surfaced by `Client.Answer`; the budget error carries the remaining
budget and the estimated cost that the formatted Go message reports. -/
inductive AnswerError where
  | budgetExceeded (remaining estimated : ℚ)
  | backend (msg : String)
deriving DecidableEq

/-- Observable outcome of one `Client.Answer` call on the AWS path: whether the
backend was invoked, the result, and the cost manager state afterwards. -/
structure AnswerOutcome where
  backendCalled : Bool
  result : Except AnswerError String
  costManager : Option CostManager

/-- `Client.Answer` for `useAWS = true`: the pre-flight budget gate, the
backend call (whose reply is passed in as `backendResponse`), and post-flight
usage tracking. Response post-processing (`cleanAIResponse`) is outside the
scope of the claims and is not modelled. -/
def clientAnswerAWS (costManager : Option CostManager) (modelID : String) (prompt : String)
    (backendResponse : Except String String) : AnswerOutcome :=
  match costManager with
  | some cm =>
    let estimatedCost := estimateRequestCost true modelID prompt
    if !(cm.CanMakeRequest estimatedCost) then
      { backendCalled := false
        result := .error (.budgetExceeded cm.GetRemainingBudget estimatedCost)
        costManager := some cm }
    else
      match backendResponse with
      | .error e => { backendCalled := true, result := .error (.backend e), costManager := some cm }
      | .ok response =>
        let inputTokens : ℤ := (prompt.utf8ByteSize / 4 : ℕ)
        let outputTokens : ℤ := (response.utf8ByteSize / 4 : ℕ)
        { backendCalled := true
          result := .ok response
          costManager := some (cm.TrackUsage inputTokens outputTokens modelID) }
  | none =>
    match backendResponse with
    | .error e => { backendCalled := true, result := .error (.backend e), costManager := none }
    | .ok response => { backendCalled := true, result := .ok response, costManager := none }

/-! ### Router (`router.go` source file) -/

/-- The fixed keyword trigger list of `NewRouter`. -/
def archKeywords : List String :=
  ["architecture", "lambda", "sns", "s3", "vpc", "subnet", "step function",
   "eventbridge", "api gateway", "trigger", "cloudformation"]

/-- Go `strings.Contains` (substring presence; for the ASCII keywords involved,
rune-level and byte-level containment agree). -/
def goContains (s sub : String) : Bool := decide (sub.data <:+: s.data)

/-- Go `strings.ToLower` restricted to its ASCII action (the keyword list is
pure ASCII). -/
def goToLower (s : String) : String := String.mk (s.data.map Char.toLower)

/-- The two backends a router can hold. -/
inductive Backend where
  | arch
  | general
deriving DecidableEq

/-- `Router.chooseClient`; `hasArch` models `r.archClient ≠ nil`. -/
def chooseClient (hasArch : Bool) (lowerQ : String) : Backend :=
  if !hasArch then .general
  else
    match archKeywords.find? (fun kw => goContains lowerQ kw) with
    | some _ => .arch
    | none => .general

/-- The backend selection performed by `Router.Answer`: `chooseClient` on the
lowercased question. -/
def routerChoose (hasArch : Bool) (question : String) : Backend :=
  chooseClient hasArch (goToLower question)

/-! ### File-system model, IaC scanning and the `scan` command
(`internal/state/provider.go`, `internal/state/cache.go`,
`internal/cli/setup_interactive.go`) -/

/-- A file system: a set of existing directories and a path → contents map. -/
structure FS where
  dirs : List String
  files : List (String × String)
deriving DecidableEq

/-- `os.Stat` succeeding: the path exists as a directory or a file. -/
def FS.statOk (fs : FS) (path : String) : Bool :=
  fs.dirs.contains path || fs.files.any (fun f => f.1 == path)

/-- `os.ReadFile`. -/
def FS.readFile (fs : FS) (path : String) : Option String :=
  (fs.files.find? (fun f => f.1 == path)).map Prod.snd

/-- `os.WriteFile` (create or overwrite). -/
def FS.writeFile (fs : FS) (path content : String) : FS :=
  { fs with files := (path, content) :: fs.files.filter (fun f => f.1 ≠ path) }

/-- `os.MkdirAll`. -/
def FS.mkdirAll (fs : FS) (path : String) : FS :=
  if fs.dirs.contains path then fs else { fs with dirs := path :: fs.dirs }

/-- `filepath.Join` of two components. -/
def joinPath (a b : String) : String := a ++ "/" ++ b

/-- One artifact entry of a CDK `manifest.json`. -/
structure CdkArtifact where
  type : String
  templateFile : String
deriving DecidableEq

/-- The decoded fields of a CDK `manifest.json`: named artifacts (Go decodes
them into a map; an association list models one iteration order). -/
structure CdkManifest where
  artifacts : List (String × CdkArtifact)
deriving DecidableEq

/-- `IaCProvider.scanCdk`. JSON decoding (`encoding/json`, a library this
repository only calls) is abstracted into the `parseManifest` / `parseTemplate`
parameters; the template tree type `α` is opaque, as downstream code treats it. -/
def scanCdk {α : Type} (parseManifest : String → Option CdkManifest)
    (parseTemplate : String → Option α) (fs : FS) (cdkOutPath : String) : Except String α :=
  match fs.readFile (joinPath cdkOutPath "manifest.json") with
  | none => .error "could not read cdk manifest.json"
  | some manifestBytes =>
    match parseManifest manifestBytes with
    | none => .error "could not parse cdk manifest.json"
    | some manifest =>
      match manifest.artifacts.find? (fun a => a.2.type == "aws:cloudformation:stack") with
      | some a =>
        let templatePath := joinPath cdkOutPath a.2.templateFile
        match fs.readFile templatePath with
        | none => .error ("could not read template file " ++ templatePath)
        | some templateBytes =>
          match parseTemplate templateBytes with
          | none => .error ("could not parse template file " ++ templatePath)
          | some t => .ok t
      | none => .error "no aws:cloudformation:stack artifact found in cdk manifest"

/-- `IaCProvider.Scan`: only the CDK layout is supported; anything else is a
terminal error. -/
def IaCScan {α : Type} (parseManifest : String → Option CdkManifest)
    (parseTemplate : String → Option α) (fs : FS) (path : String) : Except String α :=
  if fs.statOk (joinPath path "cdk.out") then
    scanCdk parseManifest parseTemplate fs (joinPath path "cdk.out")
  else .error ("no supported IaC files found in " ++ path)

/-- The `output.Result` fields filled in by the scan command. -/
structure ScanResult (α : Type) where
  query : String
  data : Option α
  error : Option String
  success : Bool

/-- `CacheManager.Save` for the project path: `mkdir -p .cloudai` then write
`cache.json`. -/
def cacheSave {α : Type} (serialize : α → String) (fs : FS) (projectPath : String)
    (state : α) : FS :=
  let cacheDir := joinPath projectPath ".cloudai"
  let cacheFile := joinPath (joinPath projectPath ".cloudai") "cache.json"
  (fs.mkdirAll cacheDir).writeFile cacheFile (serialize state)

/-- `scanCmd.RunE`: scan, then save the cache only on success (`filepath.Abs`
is modelled as the identity on the already-absolute scan path). -/
def runScanCmd {α : Type} (parseManifest : String → Option CdkManifest)
    (parseTemplate : String → Option α) (serialize : α → String) (fs : FS)
    (scanPath : String) : FS × ScanResult α :=
  match IaCScan parseManifest parseTemplate fs scanPath with
  | .error e =>
    (fs, { query := "scan " ++ scanPath, data := none, error := some e, success := false })
  | .ok t =>
    (cacheSave serialize fs scanPath t,
     { query := "scan " ++ scanPath, data := some t, error := none, success := true })

/-! ### File-system-threaded semantics of the redactor (frame property)

The `DataProtector` source file imports only `regexp`, `strconv` and `strings`
and performs no I/O; its FS-threaded semantics therefore passes the file
system through every operation untouched.  `SaveUsageFS` below shows the
contrasting shape of an operation that does persist state. -/

/-- FS-threaded `NewDataProtector`. -/
def NewDataProtectorFS (fs : FS) : FS × DataProtector := (fs, NewDataProtector)

/-- FS-threaded `DataProtector.Scrub`. -/
def DataProtector.ScrubFS (p : DataProtector) (fs : FS) (text : String) :
    FS × (DataProtector × String) := (fs, p.Scrub text)

/-- FS-threaded `DataProtector.Unscrub`. -/
def DataProtector.UnscrubFS (p : DataProtector) (fs : FS) (text : String) :
    FS × String := (fs, p.Unscrub text)

/-- `CostManager.SaveUsage`: writes the serialized tracker to the config path. -/
def CostManager.SaveUsageFS (cm : CostManager) (serialize : CostTracker → String)
    (configPath : String) (fs : FS) : FS :=
  fs.writeFile configPath (serialize cm.CurrentUsage)

/-- One simulated day of cost-manager activity: load the persisted tracker on
date `today`, then apply a sequence of `TrackUsage` events
(inputTokens, outputTokens, modelID). -/
def costDay (dailyLimit : ℚ) (today : String) (disk : Option CostTracker)
    (events : List (ℤ × ℤ × String)) : CostManager :=
  events.foldl (fun cm e => cm.TrackUsage e.1 e.2.1 e.2.2) ⟨dailyLimit, LoadUsage today disk⟩

/-! ## Theorems -/

/-- `TrackUsage` never changes the tracker's date. -/
theorem trackUsage_date (cm : CostManager) (i o : ℤ) (m : String) :
    (cm.TrackUsage i o m).CurrentUsage.Date = cm.CurrentUsage.Date := rfl

/-- Folding `TrackUsage` events never changes the tracker's date. -/
theorem costDay_date (dailyLimit : ℚ) (today : String) (disk : Option CostTracker)
    (events : List (ℤ × ℤ × String)) :
    (costDay dailyLimit today disk events).CurrentUsage.Date = today := by
  have base : ∀ (cm : CostManager) (evs : List (ℤ × ℤ × String)),
      (evs.foldl (fun cm e => cm.TrackUsage e.1 e.2.1 e.2.2) cm).CurrentUsage.Date
        = cm.CurrentUsage.Date := by
    intro cm evs
    induction evs generalizing cm with
    | nil => rfl
    | cons e evs ih => simpa [List.foldl_cons] using ih (cm.TrackUsage e.1 e.2.1 e.2.2)
  have hload : (LoadUsage today disk).Date = today := by
    unfold LoadUsage
    match disk with
    | none => rfl
    | some u =>
      by_cases h : u.Date = today
      · simp [h]
      · simp [h]
  simpa [costDay, base] using hload

/-- Claim C3: on load, a persisted record from a different date is reset to
zero counters for today, a record from the same date is resumed unchanged, and
in a two-day scenario the counters of the second day's load are zero, however
much usage the first day accumulated. -/
theorem C3_daily_reset (today : String) :
    (∀ u : CostTracker, u.Date ≠ today → LoadUsage today (some u) = ⟨today, 0, 0, 0⟩)
    ∧ (∀ u : CostTracker, u.Date = today → LoadUsage today (some u) = u)
    ∧ (LoadUsage today none = ⟨today, 0, 0, 0⟩)
    ∧ ∀ (d1 : String) (dailyLimit : ℚ) (disk : Option CostTracker)
        (events : List (ℤ × ℤ × String)), d1 ≠ today →
        LoadUsage today (some (costDay dailyLimit d1 disk events).CurrentUsage)
          = ⟨today, 0, 0, 0⟩ := by
  refine ⟨fun u h => by simp [LoadUsage, h], fun u h => by simp [LoadUsage, h], rfl, ?_⟩
  intro d1 dailyLimit disk events hne
  have hd : (costDay dailyLimit d1 disk events).CurrentUsage.Date = d1 :=
    costDay_date dailyLimit d1 disk events
  simp [LoadUsage, hd, hne]

/-- Witness for C3 at concrete dates. -/
theorem C3_daily_reset_witness :
    LoadUsage "2024-01-02"
      (some (costDay 5 "2024-01-01" none [(100, 50, "m"), (200, 70, "m")]).CurrentUsage)
      = ⟨"2024-01-02", 0, 0, 0⟩ :=
  (C3_daily_reset "2024-01-02").2.2.2 "2024-01-01" 5 none [(100, 50, "m"), (200, 70, "m")]
    (by decide)

/-- Claim C2: with a $5.00 limit and no prior usage, a $0.01 request passes the
budget gate and a $6.00 request does not; in general `Client.Answer` refuses
exactly when the running total plus the estimate exceeds the limit, the refusal
carries the remaining budget and the estimated cost, and a refused request
never reaches the backend. -/
theorem C2_budget_gate :
    ((⟨5, ⟨"2024-01-01", 0, 0, 0⟩⟩ : CostManager).CanMakeRequest 0.01 = true
      ∧ (⟨5, ⟨"2024-01-01", 0, 0, 0⟩⟩ : CostManager).CanMakeRequest 6 = false)
    ∧ ∀ (cm : CostManager) (modelID prompt : String) (resp : Except String String),
        ((clientAnswerAWS (some cm) modelID prompt resp).backendCalled = false
          ↔ cm.DailyLimit < cm.CurrentUsage.TotalCost + estimateRequestCost true modelID prompt)
        ∧ (cm.DailyLimit < cm.CurrentUsage.TotalCost + estimateRequestCost true modelID prompt →
            (clientAnswerAWS (some cm) modelID prompt resp).result
              = .error (.budgetExceeded (cm.DailyLimit - cm.CurrentUsage.TotalCost)
                  (estimateRequestCost true modelID prompt))) := by
  refine ⟨⟨by norm_num [CostManager.CanMakeRequest], by norm_num [CostManager.CanMakeRequest]⟩, ?_⟩
  intro cm modelID prompt resp
  by_cases h : cm.CurrentUsage.TotalCost + estimateRequestCost true modelID prompt ≤ cm.DailyLimit
  · constructor
    · constructor
      · intro hc
        exfalso
        revert hc
        cases resp <;>
          simp [clientAnswerAWS, CostManager.CanMakeRequest, h]
      · intro hlt
        exact absurd h (not_le.mpr hlt)
    · intro hlt
      exact absurd h (not_le.mpr hlt)
  · have hlt : cm.DailyLimit < cm.CurrentUsage.TotalCost + estimateRequestCost true modelID prompt :=
      not_le.mp h
    constructor
    · simp [clientAnswerAWS, CostManager.CanMakeRequest, h, hlt]
    · intro _
      simp [clientAnswerAWS, CostManager.CanMakeRequest, h, CostManager.GetRemainingBudget]

/-- Witness for C2: a $6.00 estimate against a fresh $5.00 budget is refused
with the remaining budget and the estimate, without calling the backend. -/
theorem C2_budget_gate_witness :
    (clientAnswerAWS (some ⟨5, ⟨"2024-01-01", 0, 0, 0⟩⟩)
        "anthropic.claude-3-sonnet-20240229-v1:0" "" (.ok "reply")).backendCalled = false := by
  have h := (C2_budget_gate.2 ⟨5, ⟨"2024-01-01", 0, 0, 0⟩⟩
    "anthropic.claude-3-sonnet-20240229-v1:0" "" (.ok "reply")).1
  refine h.mpr ?_
  have hest : estimateRequestCost true "anthropic.claude-3-sonnet-20240229-v1:0" "" = 15 / 2 := by
    simp only [estimateRequestCost, GetModelCost, ModelCosts, List.find?_cons,
      haikuModel, sonnetModel, titanModel, llamaModel,
      show ("anthropic.claude-3-haiku-20240307-v1:0"
        == "anthropic.claude-3-sonnet-20240229-v1:0") = false from rfl,
      show ("anthropic.claude-3-sonnet-20240229-v1:0"
        == "anthropic.claude-3-sonnet-20240229-v1:0") = true from rfl]
    norm_num [show "".utf8ByteSize = 0 from rfl]
  simp only [hest]
  norm_num

/-- Claim C9: a model identifier absent from the static table is costed at 0,
so tracking usage for it increments the request and token counters but leaves
the accumulated cost unchanged, while the pre-flight estimate for the same
unknown model is the fixed default $0.01. -/
theorem C9_unknown_model (cm : CostManager) (i o : ℤ) (modelID prompt : String)
    (h : GetModelCost modelID = none) :
    cm.CalculateCost i o modelID = 0
    ∧ (cm.TrackUsage i o modelID).CurrentUsage.TotalCost = cm.CurrentUsage.TotalCost
    ∧ (cm.TrackUsage i o modelID).CurrentUsage.RequestCount = cm.CurrentUsage.RequestCount + 1
    ∧ (cm.TrackUsage i o modelID).CurrentUsage.TokensUsed = cm.CurrentUsage.TokensUsed + i + o
    ∧ estimateRequestCost true modelID prompt = 0.01 := by
  have hc : cm.CalculateCost i o modelID = 0 := by
    unfold CostManager.CalculateCost
    rw [show ModelCosts.find? (fun model => model.ModelID == modelID) = none from h]
  refine ⟨hc, ?_, rfl, rfl, ?_⟩
  · simp [CostManager.TrackUsage, hc]
  · simp [estimateRequestCost, h]

/-- Witness for C9 at a concrete unknown model identifier. -/
theorem C9_unknown_model_witness :
    (⟨5, ⟨"2024-01-01", 1, 2, 3⟩⟩ : CostManager).CalculateCost 100 50 "mistral.large" = 0
    ∧ estimateRequestCost true "mistral.large" "hello" = 0.01 := by
  have h := C9_unknown_model ⟨5, ⟨"2024-01-01", 1, 2, 3⟩⟩ 100 50 "mistral.large" "hello"
    (by decide)
  exact ⟨h.1, h.2.2.2.2⟩

/-- Claim C4: with no architecture backend configured the router always picks
the general backend; with one configured it picks the architecture backend
exactly when the lowercased question contains one of the fixed keywords. -/
theorem C4_routing (question : String) :
    routerChoose false question = .general
    ∧ (routerChoose true question = .arch
        ↔ ∃ kw ∈ archKeywords, goContains (goToLower question) kw = true)
    ∧ ((∀ kw ∈ archKeywords, goContains (goToLower question) kw = false) →
        routerChoose true question = .general) := by
  refine ⟨rfl, ?_, ?_⟩
  · rcases hf : archKeywords.find? (fun kw => goContains (goToLower question) kw) with _ | kw
    · have hall := List.find?_eq_none.mp hf
      simp only [routerChoose, chooseClient, hf]
      constructor
      · intro hcontra
        simp at hcontra
      · rintro ⟨kw, hmem, hc⟩
        exact absurd hc (by simpa using hall kw hmem)
    · have hmem := List.mem_of_find?_eq_some hf
      have hp := List.find?_some hf
      simp only [routerChoose, chooseClient, hf]
      constructor
      · intro _
        exact ⟨kw, hmem, hp⟩
      · intro _
        simp
  · intro hnone
    have hf : archKeywords.find? (fun kw => goContains (goToLower question) kw) = none := by
      rw [List.find?_eq_none]
      intro kw hmem
      simp [hnone kw hmem]
    simp [routerChoose, chooseClient, hf]

/-- Witness for C4: "Why did my Lambda fail?" routes to the architecture
backend, and to the general backend when none is configured. -/
theorem C4_routing_witness :
    routerChoose false "Why did my Lambda fail?" = .general
    ∧ routerChoose true "Why did my Lambda fail?" = .arch := by
  have h := C4_routing "Why did my Lambda fail?"
  refine ⟨h.1, h.2.1.mpr ⟨"lambda", by decide, by decide⟩⟩

/-- Claim C6: scanning a project directory with no `cdk.out` returns an error
result, and the file system — in particular any existing cache file — is left
completely unchanged (the cache save only happens after a successful scan). -/
theorem C6_scan_error_no_cache {α : Type} (parseManifest : String → Option CdkManifest)
    (parseTemplate : String → Option α) (serialize : α → String) (fs : FS) (path : String)
    (h : fs.statOk (joinPath path "cdk.out") = false) :
    (runScanCmd parseManifest parseTemplate serialize fs path).1 = fs
    ∧ (runScanCmd parseManifest parseTemplate serialize fs path).2.success = false
    ∧ (runScanCmd parseManifest parseTemplate serialize fs path).2.error
        = some ("no supported IaC files found in " ++ path)
    ∧ (runScanCmd parseManifest parseTemplate serialize fs path).2.data = none := by
  unfold runScanCmd IaCScan
  simp [h]

/-- Witness for C6 on a concrete file system holding an unrelated cache file. -/
theorem C6_scan_error_no_cache_witness :
    (runScanCmd (fun _ => none) (fun s => some s) id
        ⟨[], [(joinPath (joinPath "/proj" ".cloudai") "cache.json", "old")]⟩ "/proj").1
      = ⟨[], [(joinPath (joinPath "/proj" ".cloudai") "cache.json", "old")]⟩ :=
  (C6_scan_error_no_cache (fun _ => none) (fun s => some s) id
    ⟨[], [(joinPath (joinPath "/proj" ".cloudai") "cache.json", "old")]⟩ "/proj" (by decide)).1

/-- `SelectBestAWSModel` is the selection stage applied to the affordability
filter. -/
theorem select_eq_selectFromAffordable (b : ℚ) (flag : Bool) :
    SelectBestAWSModel b flag = selectFromAffordable (affordableModels b) flag := rfl

/-- Closed form of the affordability filter: each model is kept exactly when
its reference-request cost is at most a tenth of the budget. -/
theorem affordable_char (b : ℚ) :
    affordableModels b
      = (if (7/8 : ℚ) ≤ b/10 then [haikuModel] else [])
        ++ (if (21/2 : ℚ) ≤ b/10 then [sonnetModel] else [])
        ++ (if (43/200 : ℚ) ≤ b/10 then [titanModel] else [])
        ++ (if (297/200 : ℚ) ≤ b/10 then [llamaModel] else []) := by
  unfold affordableModels ModelCosts
  by_cases h1 : (7/8 : ℚ) ≤ b/10 <;> by_cases h2 : (21/2 : ℚ) ≤ b/10 <;>
    by_cases h3 : (43/200 : ℚ) ≤ b/10 <;> by_cases h4 : (297/200 : ℚ) ≤ b/10 <;>
    norm_num [List.filter_cons, h1, h2, h3, h4, haikuModel, sonnetModel, titanModel, llamaModel]

/-- Closed form of `SelectBestAWSModel`: Haiku whenever it is affordable, else
Titan if affordable, else Haiku as the no-affordable-model fallback — for
either value of the speed flag. -/
theorem select_char (b : ℚ) (flag : Bool) :
    SelectBestAWSModel b flag
      = if (7/8 : ℚ) ≤ b/10 then haikuModel
        else if (43/200 : ℚ) ≤ b/10 then titanModel else haikuModel := by
  rw [select_eq_selectFromAffordable, affordable_char]
  by_cases h1 : (7/8 : ℚ) ≤ b/10
  · simp only [h1, if_true]
    simp [selectFromAffordable, List.find?_cons, haikuModel]
  · have h2 : ¬ (21/2 : ℚ) ≤ b/10 := by intro h; exact h1 (by linarith)
    have h4 : ¬ (297/200 : ℚ) ≤ b/10 := by intro h; exact h1 (by linarith)
    by_cases h3 : (43/200 : ℚ) ≤ b/10
    · simp only [h1, h2, h3, h4, if_true, if_false]
      cases flag <;>
        simp [selectFromAffordable, List.find?_cons, titanModel, cheapestFallback]
    · simp only [h1, h2, h3, h4, if_true, if_false]
      simp [selectFromAffordable, ModelCosts, List.find?_cons, haikuModel]

/-- Claim C5: whenever more than one model is affordable for a tenth of the
daily budget, speed-first selection returns an affordable model whose speed
score beats every other affordable model's, with quality as the tie-breaker. -/
theorem C5_speed_selection (b : ℚ) (hlen : 1 < (affordableModels b).length) :
    SelectBestAWSModel b true ∈ affordableModels b
    ∧ ∀ m ∈ affordableModels b, m ≠ SelectBestAWSModel b true →
        m.Speed < (SelectBestAWSModel b true).Speed
        ∨ (m.Speed = (SelectBestAWSModel b true).Speed
            ∧ m.Quality < (SelectBestAWSModel b true).Quality) := by
  have h1 : (7/8 : ℚ) ≤ b/10 := by
    by_contra h1
    have h2 : ¬ (21/2 : ℚ) ≤ b/10 := by intro h; exact h1 (by linarith)
    have h4 : ¬ (297/200 : ℚ) ≤ b/10 := by intro h; exact h1 (by linarith)
    rw [affordable_char] at hlen
    by_cases h3 : (43/200 : ℚ) ≤ b/10 <;> simp [h1, h2, h3, h4] at hlen
  have hsel : SelectBestAWSModel b true = haikuModel := by rw [select_char]; simp [h1]
  rw [hsel]
  constructor
  · rw [affordable_char]
    simp [h1]
  · intro m hm hne
    rw [affordable_char] at hm
    simp only [List.mem_append, List.mem_singleton] at hm
    have : m = haikuModel ∨ m = sonnetModel ∨ m = titanModel ∨ m = llamaModel := by
      rcases hm with ((h | h) | h) | h
      · split at h <;> simp_all
      · split at h <;> simp_all
      · split at h <;> simp_all
      · split at h <;> simp_all
    rcases this with h | h | h | h
    · exact absurd h hne
    · subst h; left; decide
    · subst h; left; decide
    · subst h; left; decide

/-- Witness for C5 at a $30 budget (Haiku, Titan and Llama are affordable). -/
theorem C5_speed_selection_witness :
    SelectBestAWSModel 30 true ∈ affordableModels 30
    ∧ ∀ m ∈ affordableModels 30, m ≠ SelectBestAWSModel 30 true →
        m.Speed < (SelectBestAWSModel 30 true).Speed
        ∨ (m.Speed = (SelectBestAWSModel 30 true).Speed
            ∧ m.Quality < (SelectBestAWSModel 30 true).Quality) := by
  refine C5_speed_selection 30 ?_
  rw [affordable_char]
  norm_num

/-- Claim C10: `SelectBestAWSModel` always yields an entry of the static table;
with no affordable model it yields the Claude 3 Haiku descriptor, and whenever
Haiku is affordable it is returned regardless of the speed flag. -/
theorem C10_select_total (b : ℚ) (flag : Bool) :
    SelectBestAWSModel b flag ∈ ModelCosts
    ∧ (affordableModels b = [] → SelectBestAWSModel b flag = haikuModel)
    ∧ (haikuModel ∈ affordableModels b → SelectBestAWSModel b flag = haikuModel) := by
  rw [select_char]
  refine ⟨?_, ?_, ?_⟩
  · by_cases h1 : (7/8 : ℚ) ≤ b/10 <;> by_cases h3 : (43/200 : ℚ) ≤ b/10 <;>
      simp [h1, h3, ModelCosts]
  · intro hempty
    rw [affordable_char] at hempty
    by_cases h1 : (7/8 : ℚ) ≤ b/10
    · simp [h1] at hempty
    · by_cases h3 : (43/200 : ℚ) ≤ b/10
      · simp [h1, h3] at hempty
      · simp [h1, h3]
  · intro hmem
    rw [affordable_char] at hmem
    have h1 : (7/8 : ℚ) ≤ b/10 := by
      by_contra h1
      have h2 : ¬ (21/2 : ℚ) ≤ b/10 := by intro h; exact h1 (by linarith)
      have h4 : ¬ (297/200 : ℚ) ≤ b/10 := by intro h; exact h1 (by linarith)
      by_cases h3 : (43/200 : ℚ) ≤ b/10 <;>
        simp [h1, h2, h3, h4, haikuModel, titanModel] at hmem
    simp [h1]

/-- Witness for C10 at a zero budget (nothing affordable) and either flag. -/
theorem C10_select_total_witness :
    SelectBestAWSModel 0 true = haikuModel ∧ SelectBestAWSModel 0 false = haikuModel := by
  have ha : affordableModels 0 = [] := by rw [affordable_char]; norm_num
  exact ⟨(C10_select_total 0 true).2.1 ha, (C10_select_total 0 false).2.1 ha⟩

/-- Claim C8: no redactor operation touches the file system: construction,
`Scrub` and `Unscrub` leave every directory and every file — and hence never
write the placeholder map or any original value — exactly as they were. -/
theorem C8_redactor_no_persistence (fs : FS) (p : DataProtector) (text : String) :
    (NewDataProtectorFS fs).1 = fs
    ∧ (p.ScrubFS fs text).1 = fs
    ∧ (p.UnscrubFS fs text).1 = fs := ⟨rfl, rfl, rfl⟩

/-! ### Fuel adequacy: the fuelled recursions satisfy their recurrences -/

/-- The fuel argument of `natCharsAux` is irrelevant once large enough. -/
theorem natCharsAux_congr (n : ℕ) : ∀ f1 f2 : ℕ, n < f1 → n < f2 →
    natCharsAux f1 n = natCharsAux f2 n := by
  induction n using Nat.strong_induction_on with
  | _ n ih =>
    intro f1 f2 h1 h2
    match f1, f2 with
    | g1 + 1, g2 + 1 =>
      show natCharsAux (g1 + 1) n = natCharsAux (g2 + 1) n
      by_cases h : n < 10
      · simp only [natCharsAux, if_pos h]
      · simp only [natCharsAux, if_neg h]
        have hd : n / 10 < n := Nat.div_lt_self (by omega) (by omega)
        rw [ih (n / 10) hd g1 g2 (by omega) (by omega)]

/-- The natural recurrence of `natChars`. -/
theorem natChars_eq (n : ℕ) :
    natChars n
      = if n < 10 then [Nat.digitChar n]
        else natChars (n / 10) ++ [Nat.digitChar (n % 10)] := by
  show natCharsAux (n + 1) n = _
  by_cases h : n < 10
  · simp only [natCharsAux, if_pos h]
  · simp only [natCharsAux, if_neg h]
    have hd : n / 10 < n := Nat.div_lt_self (by omega) (by omega)
    rw [natCharsAux_congr (n / 10) n (n / 10 + 1) (by omega) (by omega)]
    rfl

/-- The fuel argument of `scanChunksAux` is irrelevant once it reaches the text
length. -/
theorem scanChunksAux_congr (tm : Option Char → Chars → Option ℕ) (f1 : ℕ) :
    ∀ (f2 : ℕ) (prev : Option Char) (cs : Chars), cs.length ≤ f1 → cs.length ≤ f2 →
      scanChunksAux tm f1 prev cs = scanChunksAux tm f2 prev cs := by
  induction f1 with
  | zero =>
    intro f2 prev cs h1 _
    have : cs = [] := List.length_eq_zero.mp (by omega)
    subst this
    cases f2 <;> rfl
  | succ g1 ih =>
    intro f2 prev cs h1 h2
    cases cs with
    | nil => cases f2 <;> rfl
    | cons c cs' =>
      cases f2 with
      | zero => simp at h2
      | succ g2 =>
        simp only [List.length_cons] at h1 h2
        rcases htm : tm prev (c :: cs') with _ | n
        · simp only [scanChunksAux, htm]
          rw [ih g2 (some c) cs' (by omega) (by omega)]
        · simp only [scanChunksAux, htm]
          by_cases hn : n = 0
          · rw [if_pos hn, if_pos hn, ih g2 (some c) cs' (by omega) (by omega)]
          · rw [if_neg hn, if_neg hn,
              ih g2 ((c :: cs').take n).getLast? ((c :: cs').drop n)
                (by simp [List.length_drop]; omega) (by simp [List.length_drop]; omega)]

/-- `scanChunks` on the empty text. -/
theorem scanChunks_nil (tm : Option Char → Chars → Option ℕ) (prev : Option Char) :
    scanChunks tm prev [] = [] := rfl

/-- The natural recurrence of `scanChunks`. -/
theorem scanChunks_cons (tm : Option Char → Chars → Option ℕ) (prev : Option Char)
    (c : Char) (cs : Chars) :
    scanChunks tm prev (c :: cs)
      = match tm prev (c :: cs) with
        | some n =>
          if n = 0 then Chunk.raw c :: scanChunks tm (some c) cs
          else Chunk.hit ((c :: cs).take n)
            :: scanChunks tm ((c :: cs).take n).getLast? ((c :: cs).drop n)
        | none => Chunk.raw c :: scanChunks tm (some c) cs := by
  show scanChunksAux tm (cs.length + 1) prev (c :: cs) = _
  rcases htm : tm prev (c :: cs) with _ | n
  · simp only [scanChunksAux, htm]
    rfl
  · simp only [scanChunksAux, htm]
    by_cases hn : n = 0
    · simp only [if_pos hn]
      rfl
    · simp only [if_neg hn]
      have := scanChunksAux_congr tm cs.length (((c :: cs).drop n).length)
        ((c :: cs).take n).getLast? ((c :: cs).drop n)
        (by simp [List.length_drop]; omega) (le_refl _)
      rw [this]
      rfl

/-- The fuel argument of `replaceCoreAux` is irrelevant once it reaches the
text length. -/
theorem replaceCoreAux_congr (p0 : Char) (ptl rep : Chars) (f1 : ℕ) :
    ∀ (f2 : ℕ) (cs : Chars), cs.length ≤ f1 → cs.length ≤ f2 →
      replaceCoreAux p0 ptl rep f1 cs = replaceCoreAux p0 ptl rep f2 cs := by
  induction f1 with
  | zero =>
    intro f2 cs h1 _
    have : cs = [] := List.length_eq_zero.mp (by omega)
    subst this
    cases f2 <;> rfl
  | succ g1 ih =>
    intro f2 cs h1 h2
    cases cs with
    | nil => cases f2 <;> rfl
    | cons c cs' =>
      cases f2 with
      | zero => simp at h2
      | succ g2 =>
        simp only [List.length_cons] at h1 h2
        by_cases hp : (p0 :: ptl) <+: (c :: cs')
        · simp only [replaceCoreAux, if_pos hp]
          rw [ih g2 (cs'.drop ptl.length) (by simp [List.length_drop]; omega)
            (by simp [List.length_drop]; omega)]
        · simp only [replaceCoreAux, if_neg hp]
          rw [ih g2 cs' (by omega) (by omega)]

/-- `replaceCore` on the empty text. -/
theorem replaceCore_nil (p0 : Char) (ptl rep : Chars) : replaceCore p0 ptl rep [] = [] := rfl

/-- The natural recurrence of `replaceCore`. -/
theorem replaceCore_cons (p0 : Char) (ptl rep : Chars) (c : Char) (cs : Chars) :
    replaceCore p0 ptl rep (c :: cs)
      = if (p0 :: ptl) <+: (c :: cs)
        then rep ++ replaceCore p0 ptl rep (cs.drop ptl.length)
        else c :: replaceCore p0 ptl rep cs := by
  show replaceCoreAux p0 ptl rep (cs.length + 1) (c :: cs) = _
  by_cases hp : (p0 :: ptl) <+: (c :: cs)
  · simp only [replaceCoreAux, if_pos hp]
    rw [replaceCoreAux_congr p0 ptl rep cs.length ((cs.drop ptl.length).length)
      (cs.drop ptl.length) (by simp [List.length_drop]) (le_refl _)]
    rfl
  · simp only [replaceCoreAux, if_neg hp]
    rfl

/-! ### Placeholder counters: decimal rendering facts -/

/-- `Nat.digitChar` below 10 is the ASCII digit `48 + m`. -/
theorem digitChar_toNat (m : ℕ) (h : m < 10) : (Nat.digitChar m).toNat = 48 + m := by
  interval_cases m <;> rfl

/-- Decoding after appending one digit character. -/
theorem decodeDigits_append_singleton (xs : Chars) (c : Char) :
    decodeDigits (xs ++ [c]) = 10 * decodeDigits xs + (c.toNat - 48) := by
  simp [decodeDigits, List.foldl_append]

/-- `decodeDigits` inverts `natChars`. -/
theorem natChars_decode (n : ℕ) : decodeDigits (natChars n) = n := by
  induction n using Nat.strong_induction_on with
  | _ n ih =>
    rw [natChars_eq]
    by_cases h : n < 10
    · rw [if_pos h]
      simp [decodeDigits, digitChar_toNat n h]
    · rw [if_neg h]
      rw [decodeDigits_append_singleton, ih (n / 10) (Nat.div_lt_self (by omega) (by omega)),
        digitChar_toNat (n % 10) (Nat.mod_lt _ (by omega))]
      omega

/-- `natChars` is injective. -/
theorem natChars_inj {m n : ℕ} (h : natChars m = natChars n) : m = n := by
  have hc := congrArg decodeDigits h
  rwa [natChars_decode, natChars_decode] at hc

/-- Every character of `natChars` is an ASCII digit. -/
theorem natChars_digits (n : ℕ) : ∀ c ∈ natChars n, isDigitChar c = true := by
  induction n using Nat.strong_induction_on with
  | _ n ih =>
    rw [natChars_eq]
    by_cases h : n < 10
    · rw [if_pos h]
      intro c hc
      simp only [List.mem_singleton] at hc
      subst hc
      interval_cases n <;> decide
    · rw [if_neg h]
      intro c hc
      rcases List.mem_append.mp hc with hc | hc
      · exact ih (n / 10) (Nat.div_lt_self (by omega) (by omega)) c hc
      · simp only [List.mem_singleton] at hc
        subst hc
        have h10 : n % 10 < 10 := Nat.mod_lt _ (by omega)
        set m := n % 10 with hm
        clear_value m
        interval_cases m <;> decide

/-- `natChars` is never empty. -/
theorem natChars_ne_nil (n : ℕ) : natChars n ≠ [] := by
  rw [natChars_eq]
  by_cases h : n < 10
  · rw [if_pos h]; simp
  · rw [if_neg h]; simp

/-- Placeholders determine their tag (among the four fixed tags) and counter. -/
theorem placeholderChars_inj {t1 t2 : Chars} (h1 : t1 ∈ TAGS) (h2 : t2 ∈ TAGS) {i j : ℕ}
    (h : placeholderChars t1 i = placeholderChars t2 j) : t1 = t2 ∧ i = j := by
  have ta : ("ARN".data : Chars) = ['A', 'R', 'N'] := rfl
  have tb : ("ACCOUNT_ID".data : Chars) = ['A', 'C', 'C', 'O', 'U', 'N', 'T', '_', 'I', 'D'] := rfl
  have tc : ("IP".data : Chars) = ['I', 'P'] := rfl
  have td : ("S3".data : Chars) = ['S', '3'] := rfl
  simp only [TAGS, List.mem_cons, List.mem_singleton, List.not_mem_nil, or_false] at h1 h2
  rcases h1 with h1 | h1 | h1 | h1 <;> rcases h2 with h2 | h2 | h2 | h2 <;>
    subst h1 <;> subst h2 <;>
    simp only [placeholderChars, ta, tb, tc, td, List.cons_append, List.nil_append,
      List.cons.injEq, true_and] at h <;>
    first
      | exact ⟨rfl, natChars_inj (List.append_cancel_right h)⟩
      | (exfalso; tauto)

/-! ### One redaction pass: state evolution -/

/-- What `runChunks` does to state and output, in closed form. -/
theorem runChunks_spec (p : DataProtector) (tag : Chars) (chunks : List Chunk) :
    (runChunks p tag chunks).1.replacements = p.replacements ++ newEntries tag p.nextIndex chunks
    ∧ (runChunks p tag chunks).1.nextIndex = p.nextIndex + (hitsOf chunks).length
    ∧ (runChunks p tag chunks).2 = renderChunks tag p.nextIndex chunks := by
  induction chunks generalizing p with
  | nil => simp [runChunks, newEntries, hitsOf, renderChunks]
  | cons ch rest ih =>
    cases ch with
    | raw c =>
      have hr := ih p
      simp [runChunks, newEntries, hitsOf, renderChunks, hr.1, hr.2.1, hr.2.2]
    | hit m =>
      have hr := ih ⟨p.replacements ++ [(placeholderChars tag p.nextIndex, m)], p.nextIndex + 1⟩
      refine ⟨?_, ?_, ?_⟩ <;>
        simp only [runChunks, newEntries, hitsOf, renderChunks, List.length_cons,
          hr.1, hr.2.1, hr.2.2] <;>
        first
          | simp
          | omega

/-- Keys added by one pass, as placeholders of the allocated metadata. -/
theorem newEntries_keys (tag : Chars) (n : ℕ) (chunks : List Chunk) :
    (newEntries tag n chunks).map Prod.fst
      = (newMeta tag n chunks).map (fun tm => placeholderChars tm.1 tm.2) := by
  induction chunks generalizing n with
  | nil => rfl
  | cons ch rest ih => cases ch <;> simp [newEntries, newMeta, ih]

/-- All tags allocated by one pass are that pass's tag. -/
theorem newMeta_tags (tag : Chars) (n : ℕ) (chunks : List Chunk) :
    ∀ tm ∈ newMeta tag n chunks, tm.1 = tag := by
  induction chunks generalizing n with
  | nil => simp [newMeta]
  | cons ch rest ih =>
    cases ch with
    | raw c => simpa [newMeta] using ih n
    | hit m =>
      intro tm htm
      rcases List.mem_cons.mp htm with htm | htm
      · rw [htm]
      · exact ih (n + 1) tm htm

/-- Counters allocated by one pass lie in `[n, n + #hits)`. -/
theorem newMeta_idx_bounds (tag : Chars) (n : ℕ) (chunks : List Chunk) :
    ∀ i ∈ (newMeta tag n chunks).map Prod.snd, n ≤ i ∧ i < n + (hitsOf chunks).length := by
  induction chunks generalizing n with
  | nil => simp [newMeta]
  | cons ch rest ih =>
    cases ch with
    | raw c => simpa [newMeta, hitsOf] using ih n
    | hit m =>
      intro i hi
      simp only [newMeta, hitsOf, List.map_cons, List.mem_cons, List.length_cons] at hi ⊢
      rcases hi with hi | hi
      · omega
      · have := ih (n + 1) i hi
        omega

/-- Counters allocated by one pass increase strictly left to right. -/
theorem newMeta_chain (tag : Chars) (n : ℕ) (chunks : List Chunk) :
    List.Chain' (· < ·) ((newMeta tag n chunks).map Prod.snd) := by
  induction chunks generalizing n with
  | nil => simp [newMeta]
  | cons ch rest ih =>
    cases ch with
    | raw c => simpa [newMeta] using ih n
    | hit m =>
      simp only [newMeta, List.map_cons]
      refine List.chain'_cons'.mpr ⟨?_, ih (n + 1)⟩
      intro y hy
      have hmem : y ∈ (newMeta tag (n + 1) rest).map Prod.snd := List.mem_of_mem_head? hy
      have := newMeta_idx_bounds tag (n + 1) rest y hmem
      omega

/-- One pass preserves the session invariant and advances the counter. -/
theorem runPass_inv (p : DataProtector) (tag : Chars) (htag : tag ∈ TAGS)
    (tm : Option Char → Chars → Option ℕ) (cs : Chars) (hp : DPInv p) :
    DPInv (runPass p tag tm cs).1 ∧ p.nextIndex ≤ (runPass p tag tm cs).1.nextIndex := by
  obtain ⟨hn, meta, hkeys, htags, hchain, hbounds⟩ := hp
  set chunks := scanChunks tm none cs with hchunks
  have hspec := runChunks_spec p tag chunks
  have hnext : (runPass p tag tm cs).1.nextIndex = p.nextIndex + (hitsOf chunks).length := by
    simpa [runPass, hchunks] using hspec.2.1
  refine ⟨⟨by omega, meta ++ newMeta tag p.nextIndex chunks, ?_, ?_, ?_, ?_⟩, by omega⟩
  · have : (runPass p tag tm cs).1.replacements
        = p.replacements ++ newEntries tag p.nextIndex chunks := by
      simpa [runPass, hchunks] using hspec.1
    rw [this, List.map_append, hkeys, newEntries_keys, List.map_append]
  · intro tmeta htm
    rcases List.mem_append.mp htm with htm | htm
    · exact htags tmeta htm
    · rw [newMeta_tags tag p.nextIndex chunks tmeta htm]; exact htag
  · rw [List.map_append]
    rw [List.chain'_append]
    refine ⟨hchain, newMeta_chain tag p.nextIndex chunks, ?_⟩
    intro x hx y hy
    have hxm : x ∈ meta.map Prod.snd := List.mem_of_mem_getLast? hx
    have hym : y ∈ (newMeta tag p.nextIndex chunks).map Prod.snd := List.mem_of_mem_head? hy
    have h1 := hbounds x hxm
    have h2 := newMeta_idx_bounds tag p.nextIndex chunks y hym
    omega
  · intro i hi
    rw [List.map_append] at hi
    rcases List.mem_append.mp hi with hi | hi
    · have := hbounds i hi
      omega
    · have := newMeta_idx_bounds tag p.nextIndex chunks i hi
      omega

/-- The four-pass loop preserves the session invariant and never decreases the
counter. -/
theorem scrubPasses_inv (p : DataProtector) (cs : Chars) (hp : DPInv p) :
    DPInv (scrubPasses p cs).1 ∧ p.nextIndex ≤ (scrubPasses p cs).1.nextIndex := by
  set a1 := runPass p "ARN".data tryArn cs with ha1
  set a2 := runPass a1.1 "ACCOUNT_ID".data tryAcct a1.2 with ha2
  set a3 := runPass a2.1 "IP".data tryIp a2.2 with ha3
  set a4 := runPass a3.1 "S3".data tryS3 a3.2 with ha4
  have hfold : scrubPasses p cs = a4 := rfl
  rw [hfold]
  have h1 := runPass_inv p "ARN".data (by simp [TAGS]) tryArn cs hp
  rw [← ha1] at h1
  have h2 := runPass_inv a1.1 "ACCOUNT_ID".data (by simp [TAGS]) tryAcct a1.2 h1.1
  rw [← ha2] at h2
  have h3 := runPass_inv a2.1 "IP".data (by simp [TAGS]) tryIp a2.2 h2.1
  rw [← ha3] at h3
  have h4 := runPass_inv a3.1 "S3".data (by simp [TAGS]) tryS3 a3.2 h3.1
  rw [← ha4] at h4
  exact ⟨h4.1, le_trans h1.2 (le_trans h2.2 (le_trans h3.2 h4.2))⟩

/-- `Scrub` preserves the session invariant and never decreases the counter. -/
theorem scrub_inv (p : DataProtector) (text : String) (hp : DPInv p) :
    DPInv (p.Scrub text).1 ∧ p.nextIndex ≤ (p.Scrub text).1.nextIndex := by
  by_cases h : text = ""
  · have : p.Scrub text = (p, text) := by rw [DataProtector.Scrub, if_pos h]
    rw [this]
    exact ⟨hp, le_refl _⟩
  · have : p.Scrub text
        = ((scrubPasses p text.data).1, String.mk (scrubPasses p text.data).2) := by
      rw [DataProtector.Scrub, if_neg h]
    rw [this]
    exact scrubPasses_inv p text.data hp

/-- The fresh protector satisfies the session invariant. -/
theorem newDataProtector_inv : DPInv NewDataProtector := by
  refine ⟨le_refl 1, [], ?_, ?_, ?_, ?_⟩ <;> simp [NewDataProtector]

/-- The session invariant yields pairwise-distinct keys. -/
theorem dpinv_nodup (p : DataProtector) (hp : DPInv p) :
    (p.replacements.map Prod.fst).Nodup := by
  obtain ⟨-, meta, hkeys, htags, hchain, -⟩ := hp
  rw [hkeys]
  have hpw : List.Pairwise (· < ·) (meta.map Prod.snd) :=
    List.chain'_iff_pairwise.mp hchain
  have hmeta : List.Pairwise (fun a b : Chars × ℕ => a.2 < b.2) meta :=
    List.pairwise_map.mp hpw
  have hne : List.Pairwise
      (fun a b : Chars × ℕ => placeholderChars a.1 a.2 ≠ placeholderChars b.1 b.2) meta := by
    refine hmeta.imp_of_mem ?_
    intro a b ha hb hlt heq
    obtain ⟨-, hij⟩ := placeholderChars_inj (htags a ha) (htags b hb) heq
    omega
  exact List.Pairwise.map _ (fun a b h => h) hne

/-- Claim C7: across any sequence of `Scrub` calls on one protector, the
recorded placeholder keys are pairwise distinct, each being `[[TAG_i]]` for one
of the four tags with counters strictly increasing across the whole session. -/
theorem C7_placeholder_uniqueness (texts : List String) :
    ((texts.foldl (fun p t => (p.Scrub t).1) NewDataProtector).replacements.map
      Prod.fst).Nodup
    ∧ ∃ meta : List (Chars × ℕ),
        (texts.foldl (fun p t => (p.Scrub t).1) NewDataProtector).replacements.map Prod.fst
          = meta.map (fun tm => placeholderChars tm.1 tm.2)
        ∧ (∀ tm ∈ meta, tm.1 ∈ TAGS)
        ∧ List.Chain' (· < ·) (meta.map Prod.snd) := by
  have hinv : DPInv (texts.foldl (fun p t => (p.Scrub t).1) NewDataProtector) := by
    have : ∀ (p : DataProtector), DPInv p →
        DPInv (texts.foldl (fun p t => (p.Scrub t).1) p) := by
      induction texts with
      | nil => intro p hp; exact hp
      | cons t rest ih =>
        intro p hp
        exact ih (p.Scrub t).1 (scrub_inv p t hp).1
    exact this NewDataProtector newDataProtector_inv
  obtain ⟨hn, meta, hkeys, htags, hchain, hbounds⟩ := hinv
  exact ⟨dpinv_nodup _ ⟨hn, meta, hkeys, htags, hchain, hbounds⟩,
    meta, hkeys, htags, hchain⟩

/-! ### Claim C1: the claim as stated fails; decomposition machinery for the
amended statement -/

/-- Claim C1 as stated is false on the code, on two concrete inputs:
(a) in `"a123456789012"` the 12-digit sequence is embedded in a longer word, so
`\b\d{12}\b` does not fire and `Scrub` returns the input unchanged, 12-digit
sequence included; (b) for `"999999999999 [[ACCOUNT_ID_1]]"`, which already
contains text of placeholder shape, the sequence is scrubbed but unscrubbing
the output does not restore the original (the recorded map has exactly one
entry, so this is independent of Go's map iteration order). -/
theorem C1_counterexample :
    ("123456789012".data <:+: "a123456789012".data
      ∧ (NewDataProtector.Scrub "a123456789012").2 = "a123456789012"
      ∧ "123456789012".data <:+: ((NewDataProtector.Scrub "a123456789012").2).data)
    ∧ ("999999999999".data <:+: "999999999999 [[ACCOUNT_ID_1]]".data
      ∧ (NewDataProtector.Scrub "999999999999 [[ACCOUNT_ID_1]]").1.replacements.length = 1
      ∧ (NewDataProtector.Scrub "999999999999 [[ACCOUNT_ID_1]]").1.Unscrub
          ((NewDataProtector.Scrub "999999999999 [[ACCOUNT_ID_1]]").2)
        ≠ "999999999999 [[ACCOUNT_ID_1]]") := by
  exact ⟨⟨by decide, by decide, by decide⟩, by decide, by decide, by decide⟩

theorem flattenPH_nil : flattenPH [] = [] := rfl

theorem flattenPH_cons (pc : Piece) (ps : List Piece) :
    flattenPH (pc :: ps) = pc.renderPH ++ flattenPH ps := by simp [flattenPH]

theorem flattenPH_append (ps qs : List Piece) :
    flattenPH (ps ++ qs) = flattenPH ps ++ flattenPH qs := by simp [flattenPH]

theorem flattenVal_nil : flattenVal [] = [] := rfl

theorem flattenVal_cons (pc : Piece) (ps : List Piece) :
    flattenVal (pc :: ps) = pc.renderVal ++ flattenVal ps := by simp [flattenVal]

theorem flattenVal_append (ps qs : List Piece) :
    flattenVal (ps ++ qs) = flattenVal ps ++ flattenVal qs := by simp [flattenVal]

theorem flattenSel_nil (f : ℕ → Bool) : flattenSel f [] = [] := rfl

theorem flattenSel_cons (f : ℕ → Bool) (pc : Piece) (ps : List Piece) :
    flattenSel f (pc :: ps) = renderSel f pc ++ flattenSel f ps := by simp [flattenSel]

theorem flattenSel_append (f : ℕ → Bool) (ps qs : List Piece) :
    flattenSel f (ps ++ qs) = flattenSel f ps ++ flattenSel f qs := by simp [flattenSel]

theorem holes_nil : holes [] = [] := rfl

theorem holes_cons_raw (cs : Chars) (ps : List Piece) :
    holes (Piece.raw cs :: ps) = holes ps := by simp [holes, isHolePiece]

theorem holes_cons_hole (t : Chars) (i : ℕ) (v : Chars) (ps : List Piece) :
    holes (Piece.hole t i v :: ps) = Piece.hole t i v :: holes ps := by
  simp [holes, isHolePiece]

theorem holes_append (ps qs : List Piece) : holes (ps ++ qs) = holes ps ++ holes qs := by
  simp [holes]

theorem mem_holes (pc : Piece) (ps : List Piece) (h : pc ∈ holes ps) : pc ∈ ps :=
  List.mem_of_mem_filter h

theorem hole_mem_holes (t : Chars) (i : ℕ) (v : Chars) (ps : List Piece)
    (h : Piece.hole t i v ∈ ps) : Piece.hole t i v ∈ holes ps := by
  exact List.mem_filter.mpr ⟨h, rfl⟩

theorem joinOrig_nil : joinOrig [] = [] := rfl

theorem joinOrig_cons (ch : Chunk) (chs : List Chunk) :
    joinOrig (ch :: chs) = chunkOrig ch ++ joinOrig chs := by simp [joinOrig]

theorem hitsOf_append (a b : List Chunk) : hitsOf (a ++ b) = hitsOf a ++ hitsOf b := by
  induction a with
  | nil => rfl
  | cons ch rest ih => cases ch <;> simp [hitsOf, ih]

theorem renderChunks_append (tag : Chars) (n : ℕ) (a b : List Chunk) :
    renderChunks tag n (a ++ b)
      = renderChunks tag n a ++ renderChunks tag (n + (hitsOf a).length) b := by
  induction a generalizing n with
  | nil => simp [renderChunks, hitsOf]
  | cons ch rest ih =>
    cases ch with
    | raw c => simp [renderChunks, hitsOf, ih]
    | hit m =>
      simp only [List.cons_append, List.append_eq, renderChunks, hitsOf, List.length_cons,
        ih (n + 1), List.append_assoc]
      have harith : n + 1 + (hitsOf rest).length = n + ((hitsOf rest).length + 1) := by omega
      rw [harith]

theorem holesFromHits_append (tag : Chars) (n : ℕ) (ms1 ms2 : List Chars) :
    holesFromHits tag n (ms1 ++ ms2)
      = holesFromHits tag n ms1 ++ holesFromHits tag (n + ms1.length) ms2 := by
  induction ms1 generalizing n with
  | nil => simp [holesFromHits]
  | cons m rest ih =>
    simp only [List.cons_append, List.append_eq, holesFromHits, ih (n + 1), List.length_cons]
    have harith : n + 1 + rest.length = n + (rest.length + 1) := by omega
    rw [harith]

theorem newEntries_eq_holesFromHits (tag : Chars) (n : ℕ) (chunks : List Chunk) :
    newEntries tag n chunks = (holesFromHits tag n (hitsOf chunks)).map holeEntry := by
  induction chunks generalizing n with
  | nil => rfl
  | cons ch rest ih =>
    cases ch with
    | raw c => simp [newEntries, hitsOf, ih]
    | hit m => simp [newEntries, hitsOf, holesFromHits, holeEntry, ih]

theorem holesFromHits_mem (tag : Chars) (n : ℕ) (ms : List Chars) :
    ∀ pc ∈ holesFromHits tag n ms, ∃ i v, pc = Piece.hole tag i v ∧ v ∈ ms
      ∧ n ≤ i ∧ i < n + ms.length := by
  induction ms generalizing n with
  | nil => simp [holesFromHits]
  | cons m rest ih =>
    intro pc hpc
    rcases List.mem_cons.mp hpc with hpc | hpc
    · exact ⟨n, m, hpc, List.mem_cons_self _ _, le_refl _, by simp⟩
    · obtain ⟨i, v, heq, hv, hlo, hhi⟩ := ih (n + 1) pc hpc
      exact ⟨i, v, heq, List.mem_cons_of_mem _ hv, by omega, by simp; omega⟩

theorem holesFromHits_idx_nodup (tag : Chars) (n : ℕ) (ms : List Chars) :
    ((holesFromHits tag n ms).map holeIdx).Nodup := by
  induction ms generalizing n with
  | nil => simp [holesFromHits]
  | cons m rest ih =>
    simp only [holesFromHits, List.map_cons, List.nodup_cons]
    refine ⟨?_, ih (n + 1)⟩
    intro hmem
    rcases List.mem_map.mp hmem with ⟨pc, hpc, hidx⟩
    obtain ⟨i, v, heq, -, hlo, -⟩ := holesFromHits_mem tag (n + 1) rest pc hpc
    rw [heq] at hidx
    simp [holeIdx] at hidx
    omega

theorem chunksToPieces_flattenPH (tag : Chars) (n : ℕ) (chs : List Chunk) :
    flattenPH (chunksToPieces tag n chs) = renderChunks tag n chs := by
  induction chs generalizing n with
  | nil => rfl
  | cons ch rest ih =>
    cases ch with
    | raw c => simp [chunksToPieces, renderChunks, flattenPH_cons, ih, Piece.renderPH]
    | hit m => simp [chunksToPieces, renderChunks, flattenPH_cons, ih, Piece.renderPH]

theorem chunksToPieces_flattenVal (tag : Chars) (n : ℕ) (chs : List Chunk) :
    flattenVal (chunksToPieces tag n chs) = joinOrig chs := by
  induction chs generalizing n with
  | nil => rfl
  | cons ch rest ih =>
    cases ch with
    | raw c => simp [chunksToPieces, joinOrig_cons, flattenVal_cons, ih, Piece.renderVal, chunkOrig]
    | hit m => simp [chunksToPieces, joinOrig_cons, flattenVal_cons, ih, Piece.renderVal, chunkOrig]

theorem chunksToPieces_holes (tag : Chars) (n : ℕ) (chs : List Chunk) :
    holes (chunksToPieces tag n chs) = holesFromHits tag n (hitsOf chs) := by
  induction chs generalizing n with
  | nil => rfl
  | cons ch rest ih =>
    cases ch with
    | raw c => simp [chunksToPieces, hitsOf, holes_cons_raw, ih]
    | hit m => simp [chunksToPieces, hitsOf, holesFromHits, holes_cons_hole, ih]

theorem chunksToPieces_raws (tag : Chars) (n : ℕ) (chs : List Chunk) :
    ∀ cs, Piece.raw cs ∈ chunksToPieces tag n chs → ∃ c, cs = [c] ∧ Chunk.raw c ∈ chs := by
  induction chs generalizing n with
  | nil => simp [chunksToPieces]
  | cons ch rest ih =>
    cases ch with
    | raw c =>
      intro cs hcs
      rcases List.mem_cons.mp hcs with hcs | hcs
      · exact ⟨c, by injection hcs, List.mem_cons_self _ _⟩
      · obtain ⟨c', hc', hmem⟩ := ih n cs hcs
        exact ⟨c', hc', List.mem_cons_of_mem _ hmem⟩
    | hit m =>
      intro cs hcs
      rcases List.mem_cons.mp hcs with hcs | hcs
      · exact absurd hcs (by simp)
      · obtain ⟨c', hc', hmem⟩ := ih (n + 1) cs hcs
        exact ⟨c', hc', List.mem_cons_of_mem _ hmem⟩

theorem lastOr_nil (d : Option Char) : lastOr [] d = d := rfl

theorem lastOr_cons (c : Char) (cs : Chars) (d : Option Char) :
    lastOr (c :: cs) d = lastOr cs (some c) := by
  cases cs with
  | nil => rfl
  | cons c' cs' =>
    simp only [lastOr, List.getLast?_cons_cons]
    rcases h : (c' :: cs').getLast? with _ | x
    · simp at h
    · simp only [h]

theorem lastOr_append (a b : Chars) (d : Option Char) :
    lastOr (a ++ b) d = lastOr b (lastOr a d) := by
  induction a generalizing d with
  | nil => simp [lastOr_nil]
  | cons c a' ih => simp [lastOr_cons, ih]

theorem normPieces_hole_eq (t : Chars) (i : ℕ) (v : Chars) (rest : List Piece) :
    normPieces (Piece.hole t i v :: rest) = Piece.hole t i v :: normPieces rest := rfl

theorem normPieces_raw_eq (cs : Chars) (rest : List Piece) :
    normPieces (Piece.raw cs :: rest)
      = match normPieces rest with
        | Piece.raw cs' :: rest' =>
          if cs ++ cs' = [] then rest' else Piece.raw (cs ++ cs') :: rest'
        | other => if cs = [] then other else Piece.raw cs :: other := rfl

theorem normPieces_raw_of_nil (cs : Chars) (rest : List Piece) (h : normPieces rest = []) :
    normPieces (Piece.raw cs :: rest) = if cs = [] then [] else [Piece.raw cs] := by
  rw [normPieces_raw_eq, h]

theorem normPieces_raw_of_raw (cs cs' : Chars) (rest rest' : List Piece)
    (h : normPieces rest = Piece.raw cs' :: rest') :
    normPieces (Piece.raw cs :: rest)
      = if cs ++ cs' = [] then rest' else Piece.raw (cs ++ cs') :: rest' := by
  rw [normPieces_raw_eq, h]

theorem normPieces_raw_of_hole (cs t : Chars) (i : ℕ) (v : Chars) (rest rest' : List Piece)
    (h : normPieces rest = Piece.hole t i v :: rest') :
    normPieces (Piece.raw cs :: rest)
      = if cs = [] then Piece.hole t i v :: rest'
        else Piece.raw cs :: Piece.hole t i v :: rest' := by
  rw [normPieces_raw_eq, h]

theorem normPieces_flattenPH (ps : List Piece) :
    flattenPH (normPieces ps) = flattenPH ps := by
  induction ps with
  | nil => rfl
  | cons pc rest ih =>
    cases pc with
    | hole t i v => simp [normPieces_hole_eq, flattenPH_cons, ih]
    | raw cs =>
      rcases hnr : normPieces rest with _ | ⟨pc', rest'⟩
      · rw [hnr] at ih
        rw [normPieces_raw_of_nil cs rest hnr]
        by_cases hcs : cs = [] <;>
          simp [hcs, flattenPH_cons, Piece.renderPH, ← ih, flattenPH_nil]
      · cases pc' with
        | raw cs' =>
          rw [hnr] at ih
          rw [normPieces_raw_of_raw cs cs' rest rest' hnr]
          by_cases hne : cs ++ cs' = []
          · rw [if_pos hne]
            have h1 : cs = [] := (List.append_eq_nil.mp hne).1
            have h2 : cs' = [] := (List.append_eq_nil.mp hne).2
            rw [flattenPH_cons, ← ih, flattenPH_cons]
            simp [Piece.renderPH, h1, h2]
          · rw [if_neg hne]
            rw [flattenPH_cons, flattenPH_cons, ← ih, flattenPH_cons]
            simp [Piece.renderPH]
        | hole t' i' v' =>
          rw [hnr] at ih
          rw [normPieces_raw_of_hole cs t' i' v' rest rest' hnr]
          by_cases hcs : cs = [] <;>
            simp [hcs, flattenPH_cons, Piece.renderPH, ← ih]

theorem normPieces_flattenVal (ps : List Piece) :
    flattenVal (normPieces ps) = flattenVal ps := by
  induction ps with
  | nil => rfl
  | cons pc rest ih =>
    cases pc with
    | hole t i v => simp [normPieces_hole_eq, flattenVal_cons, ih]
    | raw cs =>
      rcases hnr : normPieces rest with _ | ⟨pc', rest'⟩
      · rw [hnr] at ih
        rw [normPieces_raw_of_nil cs rest hnr]
        by_cases hcs : cs = [] <;>
          simp [hcs, flattenVal_cons, Piece.renderVal, ← ih, flattenVal_nil]
      · cases pc' with
        | raw cs' =>
          rw [hnr] at ih
          rw [normPieces_raw_of_raw cs cs' rest rest' hnr]
          by_cases hne : cs ++ cs' = []
          · rw [if_pos hne]
            have h1 : cs = [] := (List.append_eq_nil.mp hne).1
            have h2 : cs' = [] := (List.append_eq_nil.mp hne).2
            rw [flattenVal_cons, ← ih, flattenVal_cons]
            simp [Piece.renderVal, h1, h2]
          · rw [if_neg hne]
            rw [flattenVal_cons, flattenVal_cons, ← ih, flattenVal_cons]
            simp [Piece.renderVal]
        | hole t' i' v' =>
          rw [hnr] at ih
          rw [normPieces_raw_of_hole cs t' i' v' rest rest' hnr]
          by_cases hcs : cs = [] <;>
            simp [hcs, flattenVal_cons, Piece.renderVal, ← ih]

theorem normPieces_holes (ps : List Piece) : holes (normPieces ps) = holes ps := by
  induction ps with
  | nil => rfl
  | cons pc rest ih =>
    cases pc with
    | hole t i v => simp [normPieces_hole_eq, holes_cons_hole, ih]
    | raw cs =>
      rw [holes_cons_raw]
      rcases hnr : normPieces rest with _ | ⟨pc', rest'⟩
      · rw [hnr] at ih
        rw [normPieces_raw_of_nil cs rest hnr]
        by_cases hcs : cs = [] <;> simp [hcs, holes_cons_raw, holes_nil] <;> rw [← ih] <;> rfl
      · cases pc' with
        | raw cs' =>
          rw [hnr] at ih
          rw [holes_cons_raw] at ih
          rw [normPieces_raw_of_raw cs cs' rest rest' hnr]
          by_cases hne : cs ++ cs' = []
          · rw [if_pos hne]
            exact ih
          · rw [if_neg hne, holes_cons_raw]
            exact ih
        | hole t' i' v' =>
          rw [hnr] at ih
          rw [normPieces_raw_of_hole cs t' i' v' rest rest' hnr]
          by_cases hcs : cs = []
          · rw [if_pos hcs]
            exact ih
          · rw [if_neg hcs, holes_cons_raw]
            exact ih

theorem normPieces_raws (ps : List Piece) :
    ∀ cs, Piece.raw cs ∈ normPieces ps → ∀ c ∈ cs, ∃ cs0, Piece.raw cs0 ∈ ps ∧ c ∈ cs0 := by
  induction ps with
  | nil => simp [normPieces]
  | cons pc rest ih =>
    cases pc with
    | hole t i v =>
      intro cs hcs c hc
      rw [normPieces_hole_eq] at hcs
      rcases List.mem_cons.mp hcs with hcs | hcs
      · exact absurd hcs (by simp)
      · obtain ⟨cs0, hm, hc0⟩ := ih cs hcs c hc
        exact ⟨cs0, List.mem_cons_of_mem _ hm, hc0⟩
    | raw cs1 =>
      intro cs hcs c hc
      rcases hnr : normPieces rest with _ | ⟨pc', rest'⟩ <;> rw [hnr] at ih
      · rw [normPieces_raw_of_nil cs1 rest hnr] at hcs
        by_cases h1 : cs1 = []
        · rw [if_pos h1] at hcs
          simp at hcs
        · rw [if_neg h1] at hcs
          rcases List.mem_cons.mp hcs with hcs | hcs
          · injection hcs with hq
            subst hq
            exact ⟨cs, List.mem_cons_self _ _, hc⟩
          · simp at hcs
      · cases pc' with
        | raw cs' =>
          rw [normPieces_raw_of_raw cs1 cs' rest rest' hnr] at hcs
          by_cases hne : cs1 ++ cs' = []
          · rw [if_pos hne] at hcs
            obtain ⟨cs0, hm, hc0⟩ := ih cs (List.mem_cons_of_mem _ hcs) c hc
            exact ⟨cs0, List.mem_cons_of_mem _ hm, hc0⟩
          · rw [if_neg hne] at hcs
            rcases List.mem_cons.mp hcs with hcs | hcs
            · injection hcs with hq
              subst hq
              rcases List.mem_append.mp hc with hc | hc
              · exact ⟨cs1, List.mem_cons_self _ _, hc⟩
              · obtain ⟨cs0, hm, hc0⟩ := ih cs' (List.mem_cons_self _ _) c hc
                exact ⟨cs0, List.mem_cons_of_mem _ hm, hc0⟩
            · obtain ⟨cs0, hm, hc0⟩ := ih cs (List.mem_cons_of_mem _ hcs) c hc
              exact ⟨cs0, List.mem_cons_of_mem _ hm, hc0⟩
        | hole t' i' v' =>
          rw [normPieces_raw_of_hole cs1 t' i' v' rest rest' hnr] at hcs
          by_cases h1 : cs1 = []
          · rw [if_pos h1] at hcs
            obtain ⟨cs0, hm, hc0⟩ := ih cs hcs c hc
            exact ⟨cs0, List.mem_cons_of_mem _ hm, hc0⟩
          · rw [if_neg h1] at hcs
            rcases List.mem_cons.mp hcs with hcs | hcs
            · injection hcs with hq
              subst hq
              exact ⟨cs, List.mem_cons_self _ _, hc⟩
            · obtain ⟨cs0, hm, hc0⟩ := ih cs hcs c hc
              exact ⟨cs0, List.mem_cons_of_mem _ hm, hc0⟩

theorem normPieces_alt (ps : List Piece) : Alt (normPieces ps) := by
  induction ps with
  | nil => exact ⟨by simp [normPieces], by simp [normPieces]⟩
  | cons pc rest ih =>
    obtain ⟨ihne, ihch⟩ := ih
    cases pc with
    | hole t i v =>
      rw [normPieces_hole_eq]
      refine ⟨?_, ?_⟩
      · intro cs hcs
        rcases List.mem_cons.mp hcs with hcs | hcs
        · exact absurd hcs (by simp)
        · exact ihne cs hcs
      · refine List.chain'_cons'.mpr ⟨?_, ihch⟩
        intro y _
        simp [isHolePiece]
    | raw cs1 =>
      rcases hnr : normPieces rest with _ | ⟨pc', rest'⟩ <;> rw [hnr] at ihne ihch
      · rw [normPieces_raw_of_nil cs1 rest hnr]
        by_cases h1 : cs1 = []
        · rw [if_pos h1]
          exact ⟨by simp, List.chain'_nil⟩
        · rw [if_neg h1]
          refine ⟨?_, ?_⟩
          · intro cs hcs
            rcases List.mem_cons.mp hcs with hcs | hcs
            · injection hcs with hq
              subst hq
              exact h1
            · simp at hcs
          · simp
      · cases pc' with
        | raw cs' =>
          rw [normPieces_raw_of_raw cs1 cs' rest rest' hnr]
          by_cases hne : cs1 ++ cs' = []
          · rw [if_pos hne]
            refine ⟨?_, (List.chain'_cons'.mp ihch).2⟩
            intro cs hcs
            exact ihne cs (List.mem_cons_of_mem _ hcs)
          · rw [if_neg hne]
            refine ⟨?_, ?_⟩
            · intro cs hcs
              rcases List.mem_cons.mp hcs with hcs | hcs
              · injection hcs with hq
                subst hq
                exact hne
              · exact ihne cs (List.mem_cons_of_mem _ hcs)
            · refine List.chain'_cons'.mpr ⟨?_, (List.chain'_cons'.mp ihch).2⟩
              intro y hy
              have hpair := (List.chain'_cons'.mp ihch).1 y hy
              simpa [isHolePiece] using hpair
        | hole t' i' v' =>
          rw [normPieces_raw_of_hole cs1 t' i' v' rest rest' hnr]
          by_cases h1 : cs1 = []
          · rw [if_pos h1]
            exact ⟨ihne, ihch⟩
          · rw [if_neg h1]
            refine ⟨?_, ?_⟩
            · intro cs hcs
              rcases List.mem_cons.mp hcs with hcs | hcs
              · injection hcs with hq
                subst hq
                exact h1
              · exact ihne cs hcs
            · refine List.chain'_cons'.mpr ⟨?_, ihch⟩
              intro y hy
              simp only [List.head?_cons, Option.mem_def, Option.some.injEq] at hy
              subst hy
              simp [isHolePiece]

/-! ### The four matchers satisfy the matcher contract -/

theorem tryArn_cases (prev : Option Char) (cs : Chars) :
    tryArn prev cs = none
    ∨ ∃ rest, cs = 'a' :: 'r' :: 'n' :: ':' :: rest
        ∧ 1 ≤ (rest.takeWhile isArnChar).length
        ∧ tryArn prev cs = some (4 + (rest.takeWhile isArnChar).length) := by
  unfold tryArn
  split
  · next rest =>
    by_cases h : (rest.takeWhile isArnChar).length = 0
    · left
      simp [h]
    · right
      exact ⟨rest, rfl, by omega, by simp [h]⟩
  · left
    rfl

theorem tryS3_cases (prev : Option Char) (cs : Chars) :
    tryS3 prev cs = none
    ∨ ∃ rest, cs = 's' :: '3' :: ':' :: '/' :: '/' :: rest
        ∧ 1 ≤ (rest.takeWhile isS3Char).length
        ∧ tryS3 prev cs = some (5 + (rest.takeWhile isS3Char).length) := by
  unfold tryS3
  split
  · next rest =>
    by_cases h : (rest.takeWhile isS3Char).length = 0
    · left
      simp [h]
    · right
      exact ⟨rest, rfl, by omega, by simp [h]⟩
  · left
    rfl

theorem tryAcct_some (prev : Option Char) (cs : Chars) (n : ℕ)
    (h : tryAcct prev cs = some n) :
    n = 12 ∧ boundaryOk prev = true ∧ (cs.take 12).length = 12
    ∧ (cs.take 12).all isDigitChar = true ∧ boundaryAfter (cs.drop 12) = true := by
  unfold tryAcct at h
  by_cases hc : boundaryOk prev && (cs.take 12).length == 12 && (cs.take 12).all isDigitChar
      && boundaryAfter (cs.drop 12)
  · rw [if_pos hc] at h
    simp only [Bool.and_eq_true, beq_iff_eq] at hc
    injection h with h
    exact ⟨h.symm, hc.1.1.1, hc.1.1.2, hc.1.2, hc.2⟩
  · rw [if_neg hc] at h
    cases h

theorem firstSome_some (l : List ℕ) (f : ℕ → Option ℕ) (r : ℕ)
    (h : firstSome l f = some r) : ∃ k ∈ l, f k = some r := by
  induction l with
  | nil => cases h
  | cons k ks ih =>
    unfold firstSome at h
    rcases hk : f k with _ | r'
    · rw [hk] at h
      obtain ⟨k', hk', hf⟩ := ih h
      exact ⟨k', List.mem_cons_of_mem _ hk', hf⟩
    · rw [hk] at h
      injection h with h
      subst h
      exact ⟨k, List.mem_cons_self _ _, hk⟩

theorem octLens_mem (cs : Chars) (k : ℕ) (h : k ∈ octLens cs) :
    1 ≤ k ∧ (cs.take k).length = k ∧ (cs.take k).all isDigitChar = true := by
  unfold octLens at h
  have hm := List.mem_filter.mp h
  have hk3 : k = 3 ∨ k = 2 ∨ k = 1 := by simpa using hm.1
  have hp := hm.2
  simp only [Bool.and_eq_true, beq_iff_eq] at hp
  exact ⟨by omega, hp.1, hp.2⟩

theorem ipGroups_some (g : ℕ) (cs : Chars) (r : ℕ) (h : ipGroups g cs = some r) :
    r ≤ cs.length ∧ (∀ c ∈ cs.take r, isDigitChar c = true ∨ c = '.')
      ∧ boundaryAfter (cs.drop r) = true := by
  induction g generalizing cs r with
  | zero =>
    unfold ipGroups at h
    by_cases hb : boundaryAfter cs = true
    · rw [if_pos hb] at h
      injection h with h
      subst h
      exact ⟨Nat.zero_le _, by simp, hb⟩
    · rw [if_neg (by simpa using hb)] at h
      cases h
  | succ g ih =>
    cases cs with
    | nil => simp [ipGroups] at h
    | cons c rest =>
      unfold ipGroups at h
      by_cases hc : c = '.'
      · rw [if_pos hc] at h
        obtain ⟨k, hkmem, hf⟩ := firstSome_some _ _ _ h
        obtain ⟨hk1, hklen, hkdig⟩ := octLens_mem rest k hkmem
        rcases hrg : ipGroups g (rest.drop k) with _ | r'
        · rw [hrg] at hf
          cases hf
        · rw [hrg] at hf
          injection hf with hf
          obtain ⟨hle, hcls, hbd⟩ := ih (rest.drop k) r' hrg
          have hr : r = 1 + k + r' := by simpa using hf.symm
          subst hr
          subst hc
          have hklen' : k ≤ rest.length := by
            have hlt := List.length_take k rest
            omega
          have hdroplen : (rest.drop k).length = rest.length - k := List.length_drop k rest
          refine ⟨?_, ?_, ?_⟩
          · simp only [List.length_cons]
            omega
          · intro d hdmem
            have h1 : (1 + k + r') = (k + r') + 1 := by omega
            rw [h1, List.take_succ_cons] at hdmem
            rcases List.mem_cons.mp hdmem with hceq | hcmem2
            · exact Or.inr hceq
            · rw [List.take_add] at hcmem2
              rcases List.mem_append.mp hcmem2 with hc2 | hc2
              · exact Or.inl (List.all_eq_true.mp hkdig d hc2)
              · exact hcls d hc2
          · have h2 : ('.' :: rest).drop (1 + k + r') = (rest.drop k).drop r' := by
              have h1 : (1 + k + r') = (k + r') + 1 := by omega
              rw [h1, List.drop_succ_cons, List.drop_drop]
            rw [h2]
            exact hbd
      · rw [if_neg hc] at h
        cases h


theorem isArnChar_not_bracket {c : Char} (h : isArnChar c = true) : c ≠ '[' ∧ c ≠ ']' := by
  constructor <;> rintro rfl <;> exact absurd h (by decide)

theorem isS3Char_not_bracket {c : Char} (h : isS3Char c = true) : c ≠ '[' ∧ c ≠ ']' := by
  constructor <;> rintro rfl <;> exact absurd h (by decide)

theorem isDigitChar_not_bracket {c : Char} (h : isDigitChar c = true) : c ≠ '[' ∧ c ≠ ']' := by
  constructor <;> rintro rfl <;> exact absurd h (by decide)

theorem isDigitChar_word {c : Char} (h : isDigitChar c = true) : isWordChar c = true := by
  simp only [isDigitChar, Char.isDigit] at h
  simp [isWordChar, Char.isAlphanum, Char.isDigit, h]

/-- `take` up to the `takeWhile` length is the `takeWhile` prefix. -/
theorem take_takeWhile_length (q : Char → Bool) (l : Chars) :
    l.take ((l.takeWhile q).length) = l.takeWhile q := by
  obtain ⟨t, ht⟩ := List.takeWhile_prefix (l := l) (p := q)
  calc l.take ((l.takeWhile q).length)
      = (l.takeWhile q ++ t).take ((l.takeWhile q).length) := by rw [ht]
    _ = l.takeWhile q := List.take_left _ _

theorem mem_take_head (c : Char) (cs : Chars) (k : ℕ) (hk : 1 ≤ k) :
    c ∈ (c :: cs).take k := by
  cases k with
  | zero => omega
  | succ j => simp [List.take_succ_cons]

/-- The ARN matcher satisfies the matcher contract. -/
theorem tryArn_ok : MatcherOk tryArn := by
  refine ⟨?_, ?_, ?_, ?_, ?_⟩
  · intro prev cs n h
    rcases tryArn_cases prev cs with hn | ⟨rest, hcs, hrun, hsome⟩
    · rw [hn] at h
      cases h
    · rw [hsome] at h
      injection h with h
      omega
  · intro prev cs n h
    rcases tryArn_cases prev cs with hn | ⟨rest, hcs, hrun, hsome⟩
    · rw [hn] at h
      cases h
    · rw [hsome] at h
      injection h with h
      subst hcs
      have hle := (List.takeWhile_prefix (l := rest) (p := isArnChar)).length_le
      simp only [List.length_cons]
      omega
  · intro prev cs n h c hc
    rcases tryArn_cases prev cs with hn | ⟨rest, hcs, hrun, hsome⟩
    · rw [hn] at h
      cases h
    · rw [hsome] at h
      injection h with h
      subst hcs
      subst h
      have htk : ('a' :: 'r' :: 'n' :: ':' :: rest).take (4 + (rest.takeWhile isArnChar).length)
          = 'a' :: 'r' :: 'n' :: ':' :: rest.take ((rest.takeWhile isArnChar).length) := by
        have h4 : 4 + (rest.takeWhile isArnChar).length
            = (((rest.takeWhile isArnChar).length + 1) + 1 + 1) + 1 := by omega
        rw [h4]
        simp [List.take_succ_cons]
      rw [htk, take_takeWhile_length] at hc
      rcases List.mem_cons.mp hc with rfl | hc
      · exact ⟨by decide, by decide⟩
      rcases List.mem_cons.mp hc with rfl | hc
      · exact ⟨by decide, by decide⟩
      rcases List.mem_cons.mp hc with rfl | hc
      · exact ⟨by decide, by decide⟩
      rcases List.mem_cons.mp hc with rfl | hc
      · exact ⟨by decide, by decide⟩
      exact isArnChar_not_bracket (List.mem_takeWhile_imp hc)
  · intro prev c cs hc
    rcases tryArn_cases prev (c :: cs) with hn | ⟨rest, hcs, -, -⟩
    · exact hn
    · injection hcs with h1 _
      subst h1
      exact absurd hc (by decide)
  · intro w c cs hw hdig
    rcases tryArn_cases (some w) (c :: cs) with hn | ⟨rest, hcs, -, -⟩
    · exact hn
    · injection hcs with h1 _
      subst h1
      exact absurd hdig (by decide)

/-- The S3 matcher satisfies the matcher contract. -/
theorem tryS3_ok : MatcherOk tryS3 := by
  refine ⟨?_, ?_, ?_, ?_, ?_⟩
  · intro prev cs n h
    rcases tryS3_cases prev cs with hn | ⟨rest, hcs, hrun, hsome⟩
    · rw [hn] at h
      cases h
    · rw [hsome] at h
      injection h with h
      omega
  · intro prev cs n h
    rcases tryS3_cases prev cs with hn | ⟨rest, hcs, hrun, hsome⟩
    · rw [hn] at h
      cases h
    · rw [hsome] at h
      injection h with h
      subst hcs
      have hle := (List.takeWhile_prefix (l := rest) (p := isS3Char)).length_le
      simp only [List.length_cons]
      omega
  · intro prev cs n h c hc
    rcases tryS3_cases prev cs with hn | ⟨rest, hcs, hrun, hsome⟩
    · rw [hn] at h
      cases h
    · rw [hsome] at h
      injection h with h
      subst hcs
      subst h
      have htk : ('s' :: '3' :: ':' :: '/' :: '/' :: rest).take
            (5 + (rest.takeWhile isS3Char).length)
          = 's' :: '3' :: ':' :: '/' :: '/' :: rest.take ((rest.takeWhile isS3Char).length) := by
        have h5 : 5 + (rest.takeWhile isS3Char).length
            = ((((rest.takeWhile isS3Char).length + 1) + 1 + 1) + 1) + 1 := by omega
        rw [h5]
        simp [List.take_succ_cons]
      rw [htk, take_takeWhile_length] at hc
      rcases List.mem_cons.mp hc with rfl | hc
      · exact ⟨by decide, by decide⟩
      rcases List.mem_cons.mp hc with rfl | hc
      · exact ⟨by decide, by decide⟩
      rcases List.mem_cons.mp hc with rfl | hc
      · exact ⟨by decide, by decide⟩
      rcases List.mem_cons.mp hc with rfl | hc
      · exact ⟨by decide, by decide⟩
      rcases List.mem_cons.mp hc with rfl | hc
      · exact ⟨by decide, by decide⟩
      exact isS3Char_not_bracket (List.mem_takeWhile_imp hc)
  · intro prev c cs hc
    rcases tryS3_cases prev (c :: cs) with hn | ⟨rest, hcs, -, -⟩
    · exact hn
    · injection hcs with h1 _
      subst h1
      exact absurd hc (by decide)
  · intro w c cs hw hdig
    rcases tryS3_cases (some w) (c :: cs) with hn | ⟨rest, hcs, -, -⟩
    · exact hn
    · injection hcs with h1 _
      subst h1
      exact absurd hdig (by decide)

/-- The account-id matcher satisfies the matcher contract. -/
theorem tryAcct_ok : MatcherOk tryAcct := by
  refine ⟨?_, ?_, ?_, ?_, ?_⟩
  · intro prev cs n h
    obtain ⟨h12, -, -, -, -⟩ := tryAcct_some prev cs n h
    omega
  · intro prev cs n h
    obtain ⟨h12, -, hlen, -, -⟩ := tryAcct_some prev cs n h
    have := List.length_take 12 cs
    omega
  · intro prev cs n h c hc
    obtain ⟨h12, -, -, hdig, -⟩ := tryAcct_some prev cs n h
    subst h12
    exact isDigitChar_not_bracket (List.all_eq_true.mp hdig c hc)
  · intro prev c cs hc
    unfold tryAcct
    rw [if_neg]
    intro hcond
    simp only [Bool.and_eq_true, beq_iff_eq] at hcond
    have hdig := hcond.1.2
    have hmem : c ∈ (c :: cs).take 12 := mem_take_head c cs 12 (by omega)
    have hcd := List.all_eq_true.mp hdig c hmem
    have hcdf : isDigitChar c = false := by
      rcases hdd : isDigitChar c with _ | _
      · rfl
      · exact absurd (by simp [startable, hdd] : startable c = true) (by simp [hc])
    rw [hcdf] at hcd
    cases hcd
  · intro w c cs hw hdig
    unfold tryAcct
    rw [if_neg]
    intro hcond
    simp only [Bool.and_eq_true] at hcond
    have hb := hcond.1.1.1
    rw [show boundaryOk (some w) = !isWordChar w from rfl, hw] at hb
    cases hb

/-- No octet candidates start at a non-digit. -/
theorem octLens_nil_of_not_digit (c : Char) (cs : Chars) (hc : isDigitChar c = false) :
    octLens (c :: cs) = [] := by
  rw [List.eq_nil_iff_forall_not_mem]
  intro k hk
  obtain ⟨hk1, hklen, hkdig⟩ := octLens_mem (c :: cs) k hk
  have hmem : c ∈ (c :: cs).take k := mem_take_head c cs k hk1
  have hall := List.all_eq_true.mp hkdig c hmem
  rw [hc] at hall
  cases hall

/-- The IP matcher satisfies the matcher contract. -/
theorem tryIp_ok : MatcherOk tryIp := by
  have hcases : ∀ prev cs n, tryIp prev cs = some n →
      boundaryOk prev = true ∧ ∃ k ∈ octLens cs, ∃ r,
        ipGroups 3 (cs.drop k) = some r ∧ n = k + r := by
    intro prev cs n h
    unfold tryIp at h
    by_cases hb : boundaryOk prev = true
    · rw [if_pos hb] at h
      obtain ⟨k, hkmem, hf⟩ := firstSome_some _ _ _ h
      rcases hrg : ipGroups 3 (cs.drop k) with _ | r
      · rw [hrg] at hf
        cases hf
      · rw [hrg] at hf
        injection hf with hf
        exact ⟨hb, k, hkmem, r, hrg, by simpa using hf.symm⟩
    · rw [if_neg (by simpa using hb)] at h
      cases h
  refine ⟨?_, ?_, ?_, ?_, ?_⟩
  · intro prev cs n h
    obtain ⟨-, k, hkmem, r, -, hn⟩ := hcases prev cs n h
    obtain ⟨hk1, -, -⟩ := octLens_mem cs k hkmem
    omega
  · intro prev cs n h
    obtain ⟨-, k, hkmem, r, hrg, hn⟩ := hcases prev cs n h
    obtain ⟨hk1, hklen, -⟩ := octLens_mem cs k hkmem
    obtain ⟨hle, -, -⟩ := ipGroups_some 3 (cs.drop k) r hrg
    have h1 := List.length_take k cs
    have h2 := List.length_drop k cs
    omega
  · intro prev cs n h c hc
    obtain ⟨-, k, hkmem, r, hrg, hn⟩ := hcases prev cs n h
    obtain ⟨hk1, hklen, hkdig⟩ := octLens_mem cs k hkmem
    obtain ⟨-, hcls, -⟩ := ipGroups_some 3 (cs.drop k) r hrg
    subst hn
    rw [List.take_add] at hc
    rcases List.mem_append.mp hc with hc | hc
    · exact isDigitChar_not_bracket (List.all_eq_true.mp hkdig c hc)
    · rcases hcls c hc with hd | hdot
      · exact isDigitChar_not_bracket hd
      · subst hdot
        exact ⟨by decide, by decide⟩
  · intro prev c cs hc
    unfold tryIp
    by_cases hb : boundaryOk prev = true
    · rw [if_pos hb]
      have hdig : isDigitChar c = false := by
        rcases hdd : isDigitChar c with _ | _
        · rfl
        · exact absurd (by simp [startable, hdd] : startable c = true) (by simp [hc])
      rw [octLens_nil_of_not_digit c cs hdig]
      rfl
    · rw [if_neg (by simpa using hb)]
  · intro w c cs hw hdig
    unfold tryIp
    rw [if_neg]
    rw [show boundaryOk (some w) = !isWordChar w from rfl, hw]
    simp


/-! ### Scans skip placeholders -/

theorem scanChunks_cons_none (tm : Option Char → Chars → Option ℕ) (prev : Option Char)
    (c : Char) (cs : Chars) (h : tm prev (c :: cs) = none) :
    scanChunks tm prev (c :: cs) = Chunk.raw c :: scanChunks tm (some c) cs := by
  rw [scanChunks_cons, h]

theorem scanChunks_cons_some (tm : Option Char → Chars → Option ℕ) (prev : Option Char)
    (c : Char) (cs : Chars) (n : ℕ) (h : tm prev (c :: cs) = some n) (hn : n ≠ 0) :
    scanChunks tm prev (c :: cs)
      = Chunk.hit ((c :: cs).take n)
          :: scanChunks tm ((c :: cs).take n).getLast? ((c :: cs).drop n) := by
  rw [scanChunks_cons, h]
  simp [hn]

/-- A scan walks straight through a stretch at which the matcher always
fails. -/
theorem scan_skip (tm : Option Char → Chars → Option ℕ) (h rest : Chars) :
    ∀ prev : Option Char,
    (∀ x c y, h = x ++ c :: y → tm (lastOr x prev) (c :: (y ++ rest)) = none) →
    scanChunks tm prev (h ++ rest) = h.map Chunk.raw ++ scanChunks tm (lastOr h prev) rest := by
  induction h with
  | nil => intro prev _; simp [lastOr_nil]
  | cons c h' ih =>
    intro prev hfail
    have h0 : tm prev (c :: (h' ++ rest)) = none := by
      have := hfail [] c h' rfl
      rwa [lastOr_nil] at this
    rw [List.cons_append, scanChunks_cons_none tm prev c (h' ++ rest) h0]
    rw [ih (some c) ?hf]
    · simp [lastOr_cons]
    case hf =>
      intro x d y hxy
      have := hfail (c :: x) d y (by rw [hxy, List.cons_append])
      rwa [lastOr_cons] at this

/-- Decompositions of a "safe" character stretch: every position either starts
with a non-startable character or is a digit preceded by a word character. -/
theorem split_safety (h : Chars)
    (h1 : ∀ c ∈ h, startable c = true → isDigitChar c = true)
    (h2 : ∀ c, h.head? = some c → startable c = false)
    (h3 : List.Chain' (fun a b => isDigitChar b = true → isWordChar a = true) h) :
    ∀ x c y, h = x ++ c :: y →
      startable c = false
      ∨ (isDigitChar c = true ∧ ∃ w, x.getLast? = some w ∧ isWordChar w = true) := by
  intro x c y hxy
  rcases List.eq_nil_or_concat x with rfl | ⟨x', w, rfl⟩
  · left
    exact h2 c (by rw [hxy]; rfl)
  · by_cases hs : startable c = true
    · right
      have hcmem : c ∈ h := by
        rw [hxy]
        exact List.mem_append.mpr (Or.inr (List.mem_cons_self _ _))
      have hdig : isDigitChar c = true := h1 c hcmem hs
      refine ⟨hdig, w, by simp, ?_⟩
      have hshape : h = x' ++ (w :: c :: y) := by
        rw [hxy]
        simp [List.concat_eq_append]
      rw [hshape] at h3
      have hc2 := (List.chain'_append.mp h3).2.1
      exact (List.chain'_cons.mp hc2).1 hdig
    · left
      simpa using hs

/-- A list of digit characters satisfies the digit-after-word chain. -/
theorem chain_digits (l : Chars) (hl : ∀ c ∈ l, isDigitChar c = true) :
    List.Chain' (fun a b => isDigitChar b = true → isWordChar a = true) l := by
  induction l with
  | nil => exact List.chain'_nil
  | cons c rest ih =>
    refine List.chain'_cons'.mpr ⟨?_, ih (fun d hd => hl d (List.mem_cons_of_mem _ hd))⟩
    intro y _ _
    exact isDigitChar_word (hl c (List.mem_cons_self _ _))

/-- Placeholder text satisfies the three safety conditions. -/
theorem placeholder_safety (t : Chars) (htag : t ∈ TAGS) (i : ℕ) :
    (∀ c ∈ placeholderChars t i, startable c = true → isDigitChar c = true)
    ∧ (∀ c, (placeholderChars t i).head? = some c → startable c = false)
    ∧ List.Chain' (fun a b => isDigitChar b = true → isWordChar a = true)
        (placeholderChars t i) := by
  have hdigs := natChars_digits i
  have hne := natChars_ne_nil i
  refine ⟨?_, ?_, ?_⟩
  · intro c hc hs
    simp only [placeholderChars, List.mem_cons, List.mem_append] at hc
    rcases hc with rfl | rfl | hc | hc
    · exact absurd hs (by decide)
    · exact absurd hs (by decide)
    · have : ∀ t0 ∈ TAGS, ∀ c0 ∈ t0, startable c0 = true → isDigitChar c0 = true := by decide
      exact this t htag c hc hs
    · rcases hc with rfl | hc | rfl | rfl | hc
      · exact absurd hs (by decide)
      · exact hdigs c hc
      · exact absurd hs (by decide)
      · exact absurd hs (by decide)
      · cases hc
  · intro c hc
    injection hc with hc
    rw [← hc]
    decide
  · have hA : List.Chain' (fun a b => isDigitChar b = true → isWordChar a = true)
        ('[' :: '[' :: (t ++ ['_'])) := by
      have hvac : ∀ l : Chars, (∀ c ∈ l, isDigitChar c = false) →
          List.Chain' (fun a b => isDigitChar b = true → isWordChar a = true) l := by
        intro l
        induction l with
        | nil => intro _; exact List.chain'_nil
        | cons c rest ih =>
          intro hl
          refine List.chain'_cons'.mpr ⟨?_, ih (fun d hd => hl d (List.mem_cons_of_mem _ hd))⟩
          intro y hy hd
          have hy1 : y ∈ rest := List.mem_of_mem_head? hy
          have hy2 := hl y (List.mem_cons_of_mem _ hy1)
          rw [hd] at hy2
          cases hy2
      simp only [TAGS, List.mem_cons, List.not_mem_nil, or_false] at htag
      rcases htag with rfl | rfl | rfl | rfl
      · exact hvac _ (by decide)
      · exact hvac _ (by decide)
      · exact hvac _ (by decide)
      · refine List.chain'_cons.mpr ⟨fun hd => absurd hd (by decide), ?_⟩
        refine List.chain'_cons.mpr ⟨fun hd => absurd hd (by decide), ?_⟩
        refine List.chain'_cons.mpr ⟨fun _ => by decide, ?_⟩
        refine List.chain'_cons.mpr ⟨fun hd => absurd hd (by decide), ?_⟩
        exact List.chain'_singleton _
    have hN : List.Chain' (fun a b => isDigitChar b = true → isWordChar a = true)
        (natChars i ++ [']', ']']) := by
      rw [List.chain'_append]
      refine ⟨chain_digits (natChars i) hdigs,
        List.chain'_cons.mpr ⟨fun hd => absurd hd (by decide), List.chain'_singleton _⟩, ?_⟩
      intro x _ y hy
      injection hy with hy
      rw [← hy]
      intro hd
      exact absurd hd (by decide)
    have hshape : placeholderChars t i
        = ('[' :: '[' :: (t ++ ['_'])) ++ (natChars i ++ [']', ']']) := by
      simp [placeholderChars]
    rw [hshape, List.chain'_append]
    refine ⟨hA, hN, ?_⟩
    intro x hx y hy hd
    have hxw : x = '_' := by
      have : ('[' :: '[' :: (t ++ ['_'])).getLast? = some '_' := by
        have h1 : ('[' :: '[' :: (t ++ ['_'])) = ('[' :: '[' :: t) ++ ['_'] := by simp
        rw [h1, List.getLast?_concat]
      rw [this] at hx
      injection hx with hx
      exact hx.symm
    rw [hxw]
    decide

/-- The scan leaves placeholder text untouched: character by character, every
match attempt inside it fails. -/
theorem placeholder_skip (tm : Option Char → Chars → Option ℕ) (hok : MatcherOk tm)
    (t : Chars) (htag : t ∈ TAGS) (i : ℕ) (prev : Option Char) (rest : Chars) :
    scanChunks tm prev (placeholderChars t i ++ rest)
      = (placeholderChars t i).map Chunk.raw ++ scanChunks tm (some ']') rest := by
  obtain ⟨h1, h2, h3⟩ := placeholder_safety t htag i
  have hlast : lastOr (placeholderChars t i) prev = some ']' := by
    have hshape : placeholderChars t i
        = ('[' :: '[' :: (t ++ '_' :: natChars i ++ [']'])) ++ [']'] := by
      simp [placeholderChars]
    rw [hshape, lastOr_append]
    rfl
  rw [scan_skip tm (placeholderChars t i) rest prev ?hfail, hlast]
  case hfail =>
    intro x c y hxy
    rcases split_safety (placeholderChars t i) h1 h2 h3 x c y hxy with hns | ⟨hdig, w, hw, hword⟩
    · exact hok.not_startable _ c _ hns
    · have hlx : lastOr x prev = some w := by
        unfold lastOr
        rw [hw]
      rw [hlx]
      exact hok.digit_after_word w c _ hword hdig


theorem lastOr_of_ne_nil (l : Chars) (hl : l ≠ []) (d : Option Char) :
    lastOr l d = l.getLast? := by
  unfold lastOr
  rcases hg : l.getLast? with _ | x
  · exact absurd (List.getLast?_eq_none_iff.mp hg) hl
  · rfl

theorem take_ne_nil_of (l : Chars) (n : ℕ) (hn : 1 ≤ n) (hl : l ≠ []) : l.take n ≠ [] := by
  cases l with
  | nil => exact absurd rfl hl
  | cons c cs =>
    cases n with
    | zero => omega
    | succ m => simp

/-- Consuming the first `n` characters moves the `\b` context to the last
consumed character. -/
theorem lastOr_take_drop (l : Chars) (n : ℕ) (hn : 1 ≤ n) (hl : l ≠ []) (prev : Option Char) :
    lastOr (l.drop n) ((l.take n).getLast?) = lastOr l prev := by
  conv_rhs => rw [← List.take_append_drop n l]
  rw [lastOr_append, lastOr_of_ne_nil (l.take n) (take_ne_nil_of l n hn hl) prev]

/-- A scan across a raw stretch whose continuation is empty or starts with
`'['` decomposes: matches never extend into the continuation. -/
theorem scan_raw (tm : Option Char → Chars → Option ℕ) (hok : MatcherOk tm) :
    ∀ (len : ℕ) (cs : Chars), cs.length ≤ len →
    ∀ (T : Chars), (T = [] ∨ ∃ ys, T = '[' :: ys) → ∀ (prev : Option Char),
    ∃ rchunks : List Chunk,
      scanChunks tm prev (cs ++ T) = rchunks ++ scanChunks tm (lastOr cs prev) T
      ∧ joinOrig rchunks = cs := by
  intro len
  induction len with
  | zero =>
    intro cs hlen T hT prev
    have hcs : cs = [] := List.length_eq_zero.mp (by omega)
    subst hcs
    exact ⟨[], by simp [lastOr_nil], rfl⟩
  | succ l ih =>
    intro cs hlen T hT prev
    cases cs with
    | nil => exact ⟨[], by simp [lastOr_nil], rfl⟩
    | cons c cs' =>
      rcases htm : tm prev (c :: cs' ++ T) with _ | n
      · have hsc := scanChunks_cons_none tm prev c (cs' ++ T) htm
        obtain ⟨rchunks, hscan, hjoin⟩ := ih cs' (by simp at hlen; omega) T hT (some c)
        refine ⟨Chunk.raw c :: rchunks, ?_, ?_⟩
        · rw [List.cons_append, hsc, hscan, lastOr_cons]
          simp
        · simp [joinOrig_cons, chunkOrig, hjoin]
      · have hn1 : 1 ≤ n := hok.pos _ _ _ htm
        have hnb : n ≤ (c :: cs').length := by
          rcases hT with rfl | ⟨ys, rfl⟩
          · have := hok.le_len _ _ _ htm
            simpa using this
          · by_contra hgt
            push_neg at hgt
            have hmem : '[' ∈ (c :: cs' ++ '[' :: ys).take n := by
              rw [List.take_append_eq_append_take]
              refine List.mem_append.mpr (Or.inr ?_)
              have h1 : (c :: cs').length + 1 ≤ n := hgt
              have h2 : 1 ≤ n - (c :: cs').length := by omega
              exact mem_take_head '[' ys (n - (c :: cs').length) h2
            have := hok.no_bracket _ _ _ htm '[' hmem
            exact absurd rfl this.1
        have hsc := scanChunks_cons_some tm prev c (cs' ++ T) n htm (by omega)
        have htake : ((c :: cs') ++ T).take n = (c :: cs').take n := by
          rw [List.take_append_eq_append_take]
          have hz : n - (c :: cs').length = 0 := by omega
          rw [hz]
          simp
        have hdrop : ((c :: cs') ++ T).drop n = (c :: cs').drop n ++ T := by
          rw [List.drop_append_eq_append_drop]
          have hz : n - (c :: cs').length = 0 := by omega
          rw [hz]
          simp
        obtain ⟨rchunks, hscan, hjoin⟩ := ih ((c :: cs').drop n)
          (by simp only [List.length_drop, List.length_cons] at *; omega) T hT
          (((c :: cs').take n).getLast?)
        refine ⟨Chunk.hit ((c :: cs').take n) :: rchunks, ?_, ?_⟩
        · rw [List.cons_append] at htake hdrop ⊢
          rw [hsc, htake, hdrop, hscan,
            lastOr_take_drop (c :: cs') n hn1 (by simp) prev]
          simp
        · rw [joinOrig_cons]
          simp only [chunkOrig, hjoin]
          exact List.take_append_drop n (c :: cs')


/-! ### Scan bookkeeping: origins and hit facts -/

theorem scanChunks_cons_zero (tm : Option Char → Chars → Option ℕ) (prev : Option Char)
    (c : Char) (cs : Chars) (h : tm prev (c :: cs) = some 0) :
    scanChunks tm prev (c :: cs) = Chunk.raw c :: scanChunks tm (some c) cs := by
  rw [scanChunks_cons, h]
  simp

theorem joinOrig_append (a b : List Chunk) : joinOrig (a ++ b) = joinOrig a ++ joinOrig b := by
  simp [joinOrig]

theorem joinOrig_map_raw (l : Chars) : joinOrig (l.map Chunk.raw) = l := by
  induction l with
  | nil => rfl
  | cons c cs ih => simp [joinOrig_cons, chunkOrig, ih]

theorem hitsOf_map_raw (l : Chars) : hitsOf (l.map Chunk.raw) = [] := by
  induction l with
  | nil => rfl
  | cons c cs ih => simpa [hitsOf] using ih

theorem renderChunks_map_raw (tag : Chars) (n : ℕ) (l : Chars) :
    renderChunks tag n (l.map Chunk.raw) = l := by
  induction l with
  | nil => rfl
  | cons c cs ih => simpa [renderChunks] using ih

theorem raw_mem_joinOrig (c : Char) (chs : List Chunk) (h : Chunk.raw c ∈ chs) :
    c ∈ joinOrig chs := by
  induction chs with
  | nil => cases h
  | cons ch rest ih =>
    rw [joinOrig_cons]
    rcases List.mem_cons.mp h with rfl | h
    · simp [chunkOrig]
    · exact List.mem_append.mpr (Or.inr (ih h))

/-- A scan decomposes its input: the chunk origins concatenate back to it. -/
theorem joinOrig_scan (tm : Option Char → Chars → Option ℕ) :
    ∀ (len : ℕ) (cs : Chars), cs.length ≤ len → ∀ prev,
    joinOrig (scanChunks tm prev cs) = cs := by
  intro len
  induction len with
  | zero =>
    intro cs hlen prev
    have hcs : cs = [] := List.length_eq_zero.mp (by omega)
    subst hcs
    simp [scanChunks_nil, joinOrig]
  | succ l ih =>
    intro cs hlen prev
    cases cs with
    | nil => simp [scanChunks_nil, joinOrig]
    | cons c cs' =>
      rcases htm : tm prev (c :: cs') with _ | n
      · rw [scanChunks_cons_none tm prev c cs' htm, joinOrig_cons]
        simp only [chunkOrig]
        rw [ih cs' (by simp at hlen; omega) (some c)]
        rfl
      · by_cases hn : n = 0
        · subst hn
          rw [scanChunks_cons_zero tm prev c cs' htm, joinOrig_cons]
          simp only [chunkOrig]
          rw [ih cs' (by simp at hlen; omega) (some c)]
          rfl
        · rw [scanChunks_cons_some tm prev c cs' n htm hn, joinOrig_cons]
          simp only [chunkOrig]
          rw [ih ((c :: cs').drop n)
            (by simp only [List.length_drop, List.length_cons] at *; omega) _]
          exact List.take_append_drop n (c :: cs')

theorem joinOrig_scanChunks (tm : Option Char → Chars → Option ℕ) (prev : Option Char)
    (cs : Chars) : joinOrig (scanChunks tm prev cs) = cs :=
  joinOrig_scan tm cs.length cs le_rfl prev

/-- Every hit of a scan is the `take` of a successful match attempt. -/
theorem scan_hits_matches (tm : Option Char → Chars → Option ℕ) :
    ∀ (len : ℕ) (cs : Chars), cs.length ≤ len → ∀ prev m,
    m ∈ hitsOf (scanChunks tm prev cs) →
    ∃ prev' c' cs' n, tm prev' (c' :: cs') = some n ∧ 1 ≤ n ∧ m = (c' :: cs').take n := by
  intro len
  induction len with
  | zero =>
    intro cs hlen prev m hm
    have hcs : cs = [] := List.length_eq_zero.mp (by omega)
    subst hcs
    simp [scanChunks_nil, hitsOf] at hm
  | succ l ih =>
    intro cs hlen prev m hm
    cases cs with
    | nil => simp [scanChunks_nil, hitsOf] at hm
    | cons c cs' =>
      rcases htm : tm prev (c :: cs') with _ | n
      · rw [scanChunks_cons_none tm prev c cs' htm] at hm
        exact ih cs' (by simp at hlen; omega) (some c) m (by simpa [hitsOf] using hm)
      · by_cases hn : n = 0
        · subst hn
          rw [scanChunks_cons_zero tm prev c cs' htm] at hm
          exact ih cs' (by simp at hlen; omega) (some c) m (by simpa [hitsOf] using hm)
        · rw [scanChunks_cons_some tm prev c cs' n htm hn] at hm
          simp only [hitsOf, List.mem_cons] at hm
          rcases hm with rfl | hm
          · exact ⟨prev, c, cs', n, htm, by omega, rfl⟩
          · exact ih ((c :: cs').drop n)
              (by simp only [List.length_drop, List.length_cons] at *; omega) _ m hm

/-- Hits of a well-behaved matcher are nonempty and bracket-free. -/
theorem scan_hits_facts (tm : Option Char → Chars → Option ℕ) (hok : MatcherOk tm)
    (prev : Option Char) (cs : Chars) :
    ∀ m ∈ hitsOf (scanChunks tm prev cs), m ≠ [] ∧ ∀ c ∈ m, c ≠ '[' ∧ c ≠ ']' := by
  intro m hm
  obtain ⟨prev', c', cs', n, htm, hn1, rfl⟩ :=
    scan_hits_matches tm cs.length cs le_rfl prev m hm
  refine ⟨?_, fun c hc => hok.no_bracket _ _ _ htm c hc⟩
  cases n with
  | zero => omega
  | succ k => simp [List.take_succ_cons]

/-- Hits of a matcher whose matches are at least `k` long are at least `k`
long. -/
theorem scan_hits_len (tm : Option Char → Chars → Option ℕ) (hok : MatcherOk tm) (k : ℕ)
    (hmin : ∀ prev cs n, tm prev cs = some n → k ≤ n) (prev : Option Char) (cs : Chars) :
    ∀ m ∈ hitsOf (scanChunks tm prev cs), k ≤ m.length := by
  intro m hm
  obtain ⟨prev', c', cs', n, htm, hn1, rfl⟩ :=
    scan_hits_matches tm cs.length cs le_rfl prev m hm
  have hk := hmin _ _ _ htm
  have hlen := hok.le_len _ _ _ htm
  rw [List.length_take]
  omega

/-- Numbers below `10 ^ D` print with at most `max D 1` digits. -/
theorem natChars_len_le (n : ℕ) : ∀ D, n < 10 ^ D → (natChars n).length ≤ max D 1 := by
  induction n using Nat.strong_induction_on with
  | _ n ih =>
    intro D h
    rw [natChars_eq]
    by_cases h10 : n < 10
    · rw [if_pos h10]
      simp only [List.length_cons, List.length_nil]
      omega
    · rw [if_neg h10]
      have hD : 2 ≤ D := by
        by_contra hD
        push_neg at hD
        have : (10 : ℕ) ^ D ≤ 10 ^ 1 := Nat.pow_le_pow_right (by norm_num) (by omega)
        simp at this
        omega
      have hdiv : n / 10 < 10 ^ (D - 1) := by
        have hpow : (10 : ℕ) ^ D = 10 ^ (D - 1) * 10 := by
          rw [← pow_succ]
          congr 1
          omega
        rw [Nat.div_lt_iff_lt_mul (by norm_num)]
        omega
      have ih' := ih (n / 10) (Nat.div_lt_self (by omega) (by norm_num)) (D - 1) hdiv
      simp only [List.length_append, List.length_cons, List.length_nil]
      omega

/-- Master refinement of one scan over a decomposed text: scanning the rendered
text of an alternating decomposition leaves every old placeholder intact and
splits each raw fragment into untouched characters and new matches. -/
theorem scan_flatten (tm : Option Char → Chars → Option ℕ) (hok : MatcherOk tm) (tag : Chars) :
    ∀ (ps : List Piece), Alt ps → (∀ t j v, Piece.hole t j v ∈ ps → t ∈ TAGS) →
    ∀ (prev : Option Char) (n : ℕ),
    ∃ qs : List Piece,
      renderChunks tag n (scanChunks tm prev (flattenPH ps)) = flattenPH qs
      ∧ flattenVal qs = flattenVal ps
      ∧ List.Perm (holes qs)
          (holes ps ++ holesFromHits tag n (hitsOf (scanChunks tm prev (flattenPH ps))))
      ∧ (∀ cs', Piece.raw cs' ∈ qs → ∀ c ∈ cs', ∃ cs0, Piece.raw cs0 ∈ ps ∧ c ∈ cs0) := by
  intro ps
  induction ps with
  | nil =>
    intro _ _ prev n
    exact ⟨[], by simp [flattenPH, scanChunks_nil, renderChunks],
      rfl, by simp [holes, scanChunks_nil, hitsOf, holesFromHits], by simp⟩
  | cons pc rest ih =>
    intro hAlt htags prev n
    obtain ⟨hne, hch⟩ := hAlt
    have hAltRest : Alt rest :=
      ⟨fun cs h => hne cs (List.mem_cons_of_mem _ h), (List.chain'_cons'.mp hch).2⟩
    have htagsRest : ∀ t j v, Piece.hole t j v ∈ rest → t ∈ TAGS :=
      fun t j v h => htags t j v (List.mem_cons_of_mem _ h)
    cases pc with
    | hole t j v =>
      have htag : t ∈ TAGS := htags t j v (List.mem_cons_self _ _)
      obtain ⟨qs, hrender, hval, hperm, hraws⟩ := ih hAltRest htagsRest (some ']') n
      have hflat : flattenPH (Piece.hole t j v :: rest)
          = placeholderChars t j ++ flattenPH rest := by
        rw [flattenPH_cons]
        rfl
      have hscan : scanChunks tm prev (flattenPH (Piece.hole t j v :: rest))
          = (placeholderChars t j).map Chunk.raw
            ++ scanChunks tm (some ']') (flattenPH rest) := by
        rw [hflat]
        exact placeholder_skip tm hok t htag j prev (flattenPH rest)
      refine ⟨Piece.hole t j v :: qs, ?_, ?_, ?_, ?_⟩
      · rw [hscan, renderChunks_append, hitsOf_map_raw, renderChunks_map_raw,
          flattenPH_cons]
        simp only [List.length_nil, Nat.add_zero, hrender]
        rfl
      · rw [flattenVal_cons, flattenVal_cons, hval]
      · rw [hscan, hitsOf_append, hitsOf_map_raw, List.nil_append,
          holes_cons_hole, holes_cons_hole, List.cons_append]
        exact List.Perm.cons _ hperm
      · intro cs' hcs' c hc
        rcases List.mem_cons.mp hcs' with heq | hcs'
        · cases heq
        · obtain ⟨cs0, hm, hc0⟩ := hraws cs' hcs' c hc
          exact ⟨cs0, List.mem_cons_of_mem _ hm, hc0⟩
    | raw cs1 =>
      have hT : flattenPH rest = [] ∨ ∃ ys, flattenPH rest = '[' :: ys := by
        cases rest with
        | nil => exact Or.inl rfl
        | cons pc2 rest2 =>
          have hpair := (List.chain'_cons'.mp hch).1 pc2 (by simp)
          cases pc2 with
          | raw cs2 => simp [isHolePiece] at hpair
          | hole t2 j2 v2 =>
            refine Or.inr
              ⟨('[' :: (t2 ++ '_' :: (natChars j2 ++ [']', ']']))) ++ flattenPH rest2, ?_⟩
            rw [flattenPH_cons]
            rfl
      obtain ⟨rchunks, hscan0, hjoin⟩ :=
        scan_raw tm hok cs1.length cs1 le_rfl (flattenPH rest) hT prev
      obtain ⟨qs, hrender, hval, hperm, hraws⟩ :=
        ih hAltRest htagsRest (lastOr cs1 prev) (n + (hitsOf rchunks).length)
      have hflat : flattenPH (Piece.raw cs1 :: rest) = cs1 ++ flattenPH rest := by
        rw [flattenPH_cons]
        rfl
      have hscan : scanChunks tm prev (flattenPH (Piece.raw cs1 :: rest))
          = rchunks ++ scanChunks tm (lastOr cs1 prev) (flattenPH rest) := by
        rw [hflat, hscan0]
      refine ⟨chunksToPieces tag n rchunks ++ qs, ?_, ?_, ?_, ?_⟩
      · rw [hscan, renderChunks_append, flattenPH_append, chunksToPieces_flattenPH, hrender]
      · rw [flattenVal_append, chunksToPieces_flattenVal, hjoin, flattenVal_cons, hval]
        rfl
      · rw [hscan, hitsOf_append, holesFromHits_append, holes_append, chunksToPieces_holes,
          holes_cons_raw]
        have h1 : List.Perm
            (holesFromHits tag n (hitsOf rchunks) ++ holes qs)
            (holesFromHits tag n (hitsOf rchunks)
              ++ (holes rest
                ++ holesFromHits tag (n + (hitsOf rchunks).length)
                    (hitsOf (scanChunks tm (lastOr cs1 prev) (flattenPH rest))))) :=
          List.Perm.append_left _ hperm
        refine h1.trans ?_
        rw [← List.append_assoc, ← List.append_assoc]
        exact List.Perm.append_right _ List.perm_append_comm
      · intro cs' hcs' c hc
        rcases List.mem_append.mp hcs' with hcs' | hcs'
        · obtain ⟨c0, hceq, hcm⟩ := chunksToPieces_raws tag n rchunks cs' hcs'
          subst hceq
          have : c = c0 := by simpa using hc
          subst this
          have hcj : c ∈ joinOrig rchunks := raw_mem_joinOrig c rchunks hcm
          rw [hjoin] at hcj
          exact ⟨cs1, List.mem_cons_self _ _, hcj⟩
        · obtain ⟨cs0, hm, hc0⟩ := hraws cs' hcs' c hc
          exact ⟨cs0, List.mem_cons_of_mem _ hm, hc0⟩

theorem holes_shape (ps : List Piece) (pc : Piece) (h : pc ∈ holes ps) :
    ∃ t j v, pc = Piece.hole t j v ∧ Piece.hole t j v ∈ ps := by
  have hm := List.mem_filter.mp h
  cases pc with
  | raw cs => simp [isHolePiece] at hm
  | hole t j v => exact ⟨t, j, v, rfl, hm.1⟩

/-- One `replaceAll` pass preserves the session invariant: its output is again
the rendering of an alternating decomposition of the same original text. -/
theorem runPass_flatten (tm : Option Char → Chars → Option ℕ) (hok : MatcherOk tm)
    (tag : Chars) (htag : tag ∈ TAGS) (p : DataProtector) (ps : List Piece)
    (hSI : ScrubInv p ps) (hAlt : Alt ps) :
    ∃ qs : List Piece,
      (runPass p tag tm (flattenPH ps)).2 = flattenPH qs
      ∧ ScrubInv (runPass p tag tm (flattenPH ps)).1 qs
      ∧ Alt qs
      ∧ flattenVal qs = flattenVal ps := by
  obtain ⟨hidx1, hpermP, hnodup, hholeP, hrawP⟩ := hSI
  obtain ⟨qs0, hrender, hval, hperm, hraws⟩ :=
    scan_flatten tm hok tag ps hAlt (fun t j v h => (hholeP t j v h).1) none p.nextIndex
  obtain ⟨hrepl, hnext, hout⟩ :=
    runChunks_spec p tag (scanChunks tm none (flattenPH ps))
  have hhits := scan_hits_facts tm hok none (flattenPH ps)
  refine ⟨normPieces qs0, ?_, ⟨?_, ?_, ?_, ?_, ?_⟩, normPieces_alt qs0, ?_⟩
  · rw [runPass, hout, hrender, normPieces_flattenPH]
  · rw [runPass, hnext]
    omega
  · rw [runPass, hrepl, normPieces_holes]
    have h1 : List.Perm (p.replacements ++ newEntries tag p.nextIndex
        (scanChunks tm none (flattenPH ps)))
        ((holes ps).map holeEntry ++ newEntries tag p.nextIndex
          (scanChunks tm none (flattenPH ps))) :=
      List.Perm.append_right _ hpermP
    have h2 : List.Perm ((holes qs0).map holeEntry)
        ((holes ps).map holeEntry ++ newEntries tag p.nextIndex
          (scanChunks tm none (flattenPH ps))) := by
      rw [newEntries_eq_holesFromHits, ← List.map_append]
      exact List.Perm.map holeEntry hperm
    exact h1.trans h2.symm
  · rw [normPieces_holes]
    have hpermIdx : List.Perm ((holes qs0).map holeIdx)
        (((holes ps).map holeIdx) ++ ((holesFromHits tag p.nextIndex
          (hitsOf (scanChunks tm none (flattenPH ps)))).map holeIdx)) := by
      rw [← List.map_append]
      exact List.Perm.map holeIdx hperm
    rw [hpermIdx.nodup_iff]
    rw [List.nodup_append]
    refine ⟨hnodup, holesFromHits_idx_nodup _ _ _, ?_⟩
    intro a ha hb
    obtain ⟨pc, hpc, hpcidx⟩ := List.mem_map.mp ha
    obtain ⟨t0, j0, v0, rfl, hmem0⟩ := holes_shape ps pc hpc
    obtain ⟨pc2, hpc2, hpc2idx⟩ := List.mem_map.mp hb
    obtain ⟨i2, v2, rfl, -, hlo2, -⟩ := holesFromHits_mem _ _ _ pc2 hpc2
    have hj0 : j0 < p.nextIndex := (hholeP t0 j0 v0 hmem0).2.2.1
    simp only [holeIdx] at hpcidx hpc2idx
    omega
  · intro t j v hmem
    have hmem2 : Piece.hole t j v ∈ holes qs0 := by
      have h0 := hole_mem_holes t j v _ hmem
      rwa [normPieces_holes] at h0
    rw [hperm.mem_iff] at hmem2
    rw [runPass, hnext]
    rcases List.mem_append.mp hmem2 with hmem2 | hmem2
    · obtain ⟨t', j', v', heq, hmem3⟩ := holes_shape ps _ hmem2
      injection heq with h1 h2 h3
      subst h1; subst h2; subst h3
      obtain ⟨ht, hj1, hj2, hbr⟩ := hholeP t j v hmem3
      exact ⟨ht, hj1, by omega, hbr⟩
    · obtain ⟨i2, v2, heq, hv2, hlo2, hhi2⟩ := holesFromHits_mem _ _ _ _ hmem2
      injection heq with h1 h2 h3
      subst h1; subst h2; subst h3
      exact ⟨htag, by omega, by omega, (hhits v hv2).2⟩
  · intro cs hcs c hc
    obtain ⟨cs0, hm0, hc0⟩ := normPieces_raws qs0 cs hcs c hc
    obtain ⟨cs1, hm1, hc1⟩ := hraws cs0 hm0 c hc0
    exact hrawP cs1 hm1 c hc1
  · rw [normPieces_flattenVal, hval]

/-- The four passes of `Scrub` preserve the session invariant. -/
theorem scrubPasses_flatten (p : DataProtector) (ps : List Piece)
    (hSI : ScrubInv p ps) (hAlt : Alt ps) :
    ∃ qs : List Piece,
      (scrubPasses p (flattenPH ps)).2 = flattenPH qs
      ∧ ScrubInv (scrubPasses p (flattenPH ps)).1 qs
      ∧ flattenVal qs = flattenVal ps := by
  obtain ⟨qs1, ho1, hsi1, halt1, hv1⟩ :=
    runPass_flatten tryArn tryArn_ok "ARN".data (by simp [TAGS]) p ps hSI hAlt
  obtain ⟨qs2, ho2, hsi2, halt2, hv2⟩ :=
    runPass_flatten tryAcct tryAcct_ok "ACCOUNT_ID".data (by simp [TAGS])
      (runPass p "ARN".data tryArn (flattenPH ps)).1 qs1 hsi1 halt1
  obtain ⟨qs3, ho3, hsi3, halt3, hv3⟩ :=
    runPass_flatten tryIp tryIp_ok "IP".data (by simp [TAGS])
      (runPass (runPass p "ARN".data tryArn (flattenPH ps)).1 "ACCOUNT_ID".data tryAcct
        (flattenPH qs1)).1 qs2 hsi2 halt2
  obtain ⟨qs4, ho4, hsi4, halt4, hv4⟩ :=
    runPass_flatten tryS3 tryS3_ok "S3".data (by simp [TAGS])
      (runPass (runPass (runPass p "ARN".data tryArn (flattenPH ps)).1 "ACCOUNT_ID".data
        tryAcct (flattenPH qs1)).1 "IP".data tryIp (flattenPH qs2)).1 qs3 hsi3 halt3
  refine ⟨qs4, ?_, ?_, ?_⟩
  · show (runPass (runPass (runPass (runPass p "ARN".data tryArn (flattenPH ps)).1
      "ACCOUNT_ID".data tryAcct (runPass p "ARN".data tryArn (flattenPH ps)).2).1
      "IP".data tryIp _).1 "S3".data tryS3 _).2 = flattenPH qs4
    rw [ho1, ho2, ho3]
    exact ho4
  · show ScrubInv (runPass (runPass (runPass (runPass p "ARN".data tryArn (flattenPH ps)).1
      "ACCOUNT_ID".data tryAcct (runPass p "ARN".data tryArn (flattenPH ps)).2).1
      "IP".data tryIp _).1 "S3".data tryS3 _).1 qs4
    rw [ho1, ho2, ho3]
    exact hsi4
  · rw [hv4, hv3, hv2, hv1]

/-- The fresh decomposition of an input text with no `'['`. -/
theorem scrubInv_init (text : Chars) (hbr : ∀ c ∈ text, c ≠ '[') :
    ScrubInv NewDataProtector (normPieces [Piece.raw text])
    ∧ Alt (normPieces [Piece.raw text])
    ∧ flattenVal (normPieces [Piece.raw text]) = text
    ∧ flattenPH (normPieces [Piece.raw text]) = text := by
  have hph : flattenPH [Piece.raw text] = text := by
    simp [flattenPH, Piece.renderPH]
  have hpv : flattenVal [Piece.raw text] = text := by
    simp [flattenVal, Piece.renderVal]
  have hholes : holes (normPieces [Piece.raw text]) = [] := by
    rw [normPieces_holes]
    simp [holes, isHolePiece]
  refine ⟨⟨by simp [NewDataProtector], ?_, ?_, ?_, ?_⟩, normPieces_alt _, ?_, ?_⟩
  · rw [hholes]
    simp [NewDataProtector]
  · rw [hholes]
    simp
  · intro t j v hmem
    have := hole_mem_holes t j v _ hmem
    rw [hholes] at this
    cases this
  · intro cs hcs c hc
    obtain ⟨cs0, hm0, hc0⟩ := normPieces_raws _ cs hcs c hc
    have hct : cs0 = text := by
      rcases List.mem_cons.mp hm0 with heq | heq
      · injection heq
      · cases heq
    subst hct
    exact hbr c hc0
  · rw [normPieces_flattenVal, hpv]
  · rw [normPieces_flattenPH, hph]

/-- `Scrub` on a fresh protector yields a decomposition of the input. -/
theorem scrub_flatten (text : String) (hbr : ∀ c ∈ text.data, c ≠ '[') :
    ∃ qs : List Piece,
      (NewDataProtector.Scrub text).2.data = flattenPH qs
      ∧ ScrubInv (NewDataProtector.Scrub text).1 qs
      ∧ flattenVal qs = text.data := by
  by_cases hempty : text = ""
  · subst hempty
    refine ⟨[], by simp [DataProtector.Scrub, flattenPH], ?_, by simp [flattenVal]⟩
    simp only [DataProtector.Scrub, if_pos rfl]
    refine ⟨by simp [NewDataProtector], by simp [holes, NewDataProtector], ?_, ?_, ?_⟩
    · simp [holes]
    · intro t j v hmem
      cases hmem
    · intro cs hcs
      cases hcs
  · obtain ⟨hsi0, halt0, hval0, hph0⟩ := scrubInv_init text.data hbr
    obtain ⟨qs, ho, hsi, hv⟩ := scrubPasses_flatten NewDataProtector _ hsi0 halt0
    rw [hph0] at ho hsi
    refine ⟨qs, ?_, ?_, by rw [hv, hval0]⟩
    · show (DataProtector.Scrub NewDataProtector text).2.data = flattenPH qs
      rw [DataProtector.Scrub, if_neg hempty]
      exact ho
    · show ScrubInv (DataProtector.Scrub NewDataProtector text).1 qs
      rw [DataProtector.Scrub, if_neg hempty]
      exact hsi

/-! ### Unscrub: placeholder occurrences in redacted text -/

/-- Two digit strings followed by `']'` can only align if they are equal. -/
theorem digits_bracket_align : ∀ (a b u v : Chars), (∀ c ∈ a, isDigitChar c = true) →
    (∀ c ∈ b, isDigitChar c = true) →
    (a ++ ']' :: u) <+: (b ++ ']' :: v) → a = b := by
  intro a
  induction a with
  | nil =>
    intro b u v _ hb hpre
    cases b with
    | nil => rfl
    | cons d b' =>
      obtain ⟨w, hw⟩ := hpre
      simp only [List.nil_append, List.cons_append, List.append_assoc] at hw
      injection hw with h1 _
      have hd := hb d (List.mem_cons_self _ _)
      rw [← h1] at hd
      exact absurd hd (by decide)
  | cons c a' ih =>
    intro b u v ha hb hpre
    cases b with
    | nil =>
      obtain ⟨w, hw⟩ := hpre
      simp only [List.nil_append, List.cons_append, List.append_assoc] at hw
      injection hw with h1 _
      have hc := ha c (List.mem_cons_self _ _)
      rw [h1] at hc
      exact absurd hc (by decide)
    | cons d b' =>
      obtain ⟨w, hw⟩ := hpre
      simp only [List.nil_append, List.cons_append, List.append_assoc] at hw
      injection hw with h1 h2
      subst h1
      rw [ih b' u v (fun z hz => ha z (List.mem_cons_of_mem _ hz))
        (fun z hz => hb z (List.mem_cons_of_mem _ hz))
        ⟨w, by simp only [List.cons_append, List.append_assoc]; exact h2⟩]

/-- A placeholder is a prefix of a placeholder-headed text only for the same
tag and counter. -/
theorem ph_determines {t1 t2 : Chars} (h1 : t1 ∈ TAGS) (h2 : t2 ∈ TAGS) (i j : ℕ) (s : Chars)
    (h : placeholderChars t1 i <+: placeholderChars t2 j ++ s) : t1 = t2 ∧ i = j := by
  have ta : ("ARN".data : Chars) = ['A', 'R', 'N'] := rfl
  have tb : ("ACCOUNT_ID".data : Chars)
      = ['A', 'C', 'C', 'O', 'U', 'N', 'T', '_', 'I', 'D'] := rfl
  have tc : ("IP".data : Chars) = ['I', 'P'] := rfl
  have td : ("S3".data : Chars) = ['S', '3'] := rfl
  obtain ⟨u, hu⟩ := h
  simp only [TAGS, List.mem_cons, List.not_mem_nil, or_false] at h1 h2
  rcases h1 with rfl | rfl | rfl | rfl <;> rcases h2 with rfl | rfl | rfl | rfl <;>
    first
    | (refine ⟨rfl, ?_⟩
       simp only [placeholderChars, List.cons_append, List.append_assoc, List.nil_append,
         List.cons.injEq, eq_self_iff_true, true_and] at hu
       exact natChars_inj (digits_bracket_align (natChars i) (natChars j) (']' :: u)
         (']' :: s) (natChars_digits i) (natChars_digits j) ⟨[], by simpa using hu⟩))
    | (exfalso
       simp only [placeholderChars, ta, tb, tc, td, List.cons_append, List.append_assoc,
         List.nil_append] at hu
       injection hu with g1 hu
       injection hu with g2 hu
       injection hu with g3 hu
       first
       | exact absurd g3 (by decide)
       | (injection hu with g4 hu
          exact absurd g4 (by decide)))

/-- `replaceCore` copies verbatim a stretch in which no occurrence of the
pattern starts. -/
theorem replaceCore_skip (p0 : Char) (ptl rep : Chars) :
    ∀ (a b : Chars),
    (∀ x c y, a = x ++ c :: y → ¬((p0 :: ptl) <+: (c :: (y ++ b)))) →
    replaceCore p0 ptl rep (a ++ b) = a ++ replaceCore p0 ptl rep b := by
  intro a
  induction a with
  | nil => intro b _; simp
  | cons c a' ih =>
    intro b hno
    rw [List.cons_append, replaceCore_cons]
    have h0 : ¬((p0 :: ptl) <+: (c :: (a' ++ b))) := hno [] c a' rfl
    have htail : ∀ x d y, a' = x ++ d :: y → ¬((p0 :: ptl) <+: (d :: (y ++ b))) := by
      intro x d y hxy
      exact hno (c :: x) d y (by rw [hxy, List.cons_append])
    rw [if_neg h0, ih b htail, List.cons_append]

/-- `replaceCore` substitutes an occurrence of the pattern at the head. -/
theorem replaceCore_head (p0 : Char) (ptl rep b : Chars) :
    replaceCore p0 ptl rep ((p0 :: ptl) ++ b) = rep ++ replaceCore p0 ptl rep b := by
  rw [List.cons_append, replaceCore_cons, if_pos ?hp]
  · rw [List.drop_left]
  case hp => exact ⟨b, by rw [List.cons_append]⟩

/-- `ReplaceAll` with a placeholder pattern, in `replaceCore` form. -/
theorem replaceAll_ph (s rep : Chars) (t : Chars) (i : ℕ) :
    replaceAllList s (placeholderChars t i) rep
      = replaceCore '[' ('[' :: (t ++ '_' :: (natChars i ++ [']', ']']))) rep s := rfl

theorem renderSel_raw (f : ℕ → Bool) (cs : Chars) : renderSel f (Piece.raw cs) = cs := rfl

theorem renderSel_hole_true (f : ℕ → Bool) (t : Chars) (j : ℕ) (v : Chars)
    (hf : f j = true) : renderSel f (Piece.hole t j v) = v := by
  simp [renderSel, hf]

theorem renderSel_hole_false (f : ℕ → Bool) (t : Chars) (j : ℕ) (v : Chars)
    (hf : f j = false) : renderSel f (Piece.hole t j v) = placeholderChars t j := by
  simp [renderSel, hf]

/-- No occurrence of the placeholder `[[t_i]]` starts inside the rendering of
a piece, unless that piece is the unreplaced hole `i` itself. -/
theorem piece_no_start (t : Chars) (ht : t ∈ TAGS) (i : ℕ) (f : ℕ → Bool) (pc : Piece)
    (hgraw : ∀ cs, pc = Piece.raw cs → ∀ c ∈ cs, c ≠ '[')
    (hghole : ∀ t' j v', pc = Piece.hole t' j v' →
      t' ∈ TAGS ∧ (∀ c ∈ v', c ≠ '[') ∧ (f j = false → j ≠ i))
    (b x : Chars) (c : Char) (y : Chars) (hxy : renderSel f pc = x ++ c :: y) :
    ¬ placeholderChars t i <+: (c :: (y ++ b)) := by
  have ta : ("ARN".data : Chars) = ['A', 'R', 'N'] := rfl
  have tb : ("ACCOUNT_ID".data : Chars)
      = ['A', 'C', 'C', 'O', 'U', 'N', 'T', '_', 'I', 'D'] := rfl
  have tc : ("IP".data : Chars) = ['I', 'P'] := rfl
  have td : ("S3".data : Chars) = ['S', '3'] := rfl
  intro hpre
  have hc : c = '[' := by
    obtain ⟨u, hu⟩ := hpre
    simp only [placeholderChars, List.cons_append] at hu
    injection hu with h1 _
    exact h1.symm
  subst hc
  cases pc with
  | raw cs =>
    have hmem : '[' ∈ cs := by
      rw [renderSel_raw] at hxy
      rw [hxy]
      simp
    exact hgraw cs rfl '[' hmem rfl
  | hole t' j v' =>
    obtain ⟨ht', hv', hji⟩ := hghole t' j v' rfl
    by_cases hf : f j = true
    · rw [renderSel_hole_true f t' j v' hf] at hxy
      exact hv' '[' (by rw [hxy]; simp) rfl
    · have hfF : f j = false := by simpa using hf
      rw [renderSel_hole_false f t' j v' hfF] at hxy
      cases x with
      | nil =>
        rw [List.nil_append] at hxy
        have hyb : '[' :: (y ++ b) = placeholderChars t' j ++ b := by
          rw [hxy]
          rfl
        rw [hyb] at hpre
        obtain ⟨-, hieq⟩ := ph_determines ht ht' i j b hpre
        exact hji hfF hieq.symm
      | cons x0 x' =>
        rw [List.cons_append] at hxy
        rw [placeholderChars] at hxy
        injection hxy with hx0 hxy
        cases x' with
        | nil =>
          rw [List.nil_append] at hxy
          injection hxy with _ hy
          obtain ⟨u, hu⟩ := hpre
          simp only [placeholderChars, List.cons_append, List.append_assoc] at hu
          injection hu with _ hu
          rw [← hy] at hu
          simp only [TAGS, List.mem_cons, List.not_mem_nil, or_false] at ht'
          rcases ht' with rfl | rfl | rfl | rfl <;>
            (simp only [ta, tb, tc, td, List.cons_append, List.append_assoc,
               List.nil_append] at hu
             injection hu with hbad _
             exact absurd hbad (by decide))
        | cons x1 x'' =>
          rw [List.cons_append] at hxy
          injection hxy with hx1 hxy
          have hmem : '[' ∈ t' ++ '_' :: (natChars j ++ [']', ']']) := by
            rw [hxy]
            simp
          rcases List.mem_append.mp hmem with hmem | hmem
          · simp only [TAGS, List.mem_cons, List.not_mem_nil, or_false] at ht'
            rcases ht' with rfl | rfl | rfl | rfl <;> exact absurd hmem (by decide)
          · rcases List.mem_cons.mp hmem with heq | hmem
            · exact absurd heq (by decide)
            · rcases List.mem_append.mp hmem with hmem | hmem
              · exact absurd (natChars_digits j '[' hmem) (by decide)
              · rcases List.mem_cons.mp hmem with heq | hmem
                · exact absurd heq (by decide)
                · rcases List.mem_cons.mp hmem with heq | hmem
                  · exact absurd heq (by decide)
                  · cases hmem

theorem flattenSel_congr (f g : ℕ → Bool) : ∀ ps : List Piece,
    (∀ t j v, Piece.hole t j v ∈ ps → f j = g j) →
    flattenSel f ps = flattenSel g ps := by
  intro ps
  induction ps with
  | nil => intro _; rfl
  | cons pc rest ih =>
    intro h
    rw [flattenSel_cons, flattenSel_cons,
      ih (fun t j v hm => h t j v (List.mem_cons_of_mem _ hm))]
    congr 1
    cases pc with
    | raw cs => rfl
    | hole t j v =>
      have hagree := h t j v (List.mem_cons_self _ _)
      simp [renderSel, hagree]

theorem flattenSel_false (ps : List Piece) : flattenSel (fun _ => false) ps = flattenPH ps := by
  induction ps with
  | nil => rfl
  | cons pc rest ih =>
    have hpc : renderSel (fun _ => false) pc = Piece.renderPH pc := by
      cases pc with
      | raw cs => rfl
      | hole t j v => rfl
    rw [flattenSel_cons, flattenPH_cons, ih, hpc]

theorem flattenSel_true_eq_val (f : ℕ → Bool) : ∀ ps : List Piece,
    (∀ t j v, Piece.hole t j v ∈ ps → f j = true) →
    flattenSel f ps = flattenVal ps := by
  intro ps
  induction ps with
  | nil => intro _; rfl
  | cons pc rest ih =>
    intro h
    rw [flattenSel_cons, flattenVal_cons,
      ih (fun t j v hm => h t j v (List.mem_cons_of_mem _ hm))]
    congr 1
    cases pc with
    | raw cs => rfl
    | hole t j v =>
      rw [renderSel_hole_true f t j v (h t j v (List.mem_cons_self _ _))]
      rfl

theorem unscrubWith_cons (e : Chars × Chars) (es : List (Chars × Chars)) (t : Chars) :
    unscrubWith (e :: es) t = unscrubWith es (replaceAllList t e.1 e.2) := rfl

theorem unscrubWith_nil (t : Chars) : unscrubWith [] t = t := rfl

/-- `ReplaceAll` with the placeholder of a hole that is absent (or already
replaced) leaves a rendering unchanged. -/
theorem replaceAll_flatten_skip (t : Chars) (ht : t ∈ TAGS) (i : ℕ) (rep : Chars) :
    ∀ (ps : List Piece) (f : ℕ → Bool),
    (∀ cs, Piece.raw cs ∈ ps → ∀ c ∈ cs, c ≠ '[') →
    (∀ t' j v', Piece.hole t' j v' ∈ ps →
      t' ∈ TAGS ∧ (∀ c ∈ v', c ≠ '[') ∧ (f j = false → j ≠ i)) →
    replaceAllList (flattenSel f ps) (placeholderChars t i) rep = flattenSel f ps := by
  intro ps
  induction ps with
  | nil => intro f _ _; rfl
  | cons pc rest ih =>
    intro f hraw hhole
    rw [flattenSel_cons, replaceAll_ph]
    rw [replaceCore_skip '[' ('[' :: (t ++ '_' :: (natChars i ++ [']', ']']))) rep
      (renderSel f pc) (flattenSel f rest) ?hno]
    · rw [← replaceAll_ph,
        ih f (fun cs hcs => hraw cs (List.mem_cons_of_mem _ hcs))
          (fun t' j v' hm => hhole t' j v' (List.mem_cons_of_mem _ hm))]
    case hno =>
      intro x c y hxy
      exact piece_no_start t ht i f pc
        (fun cs hcs => hraw cs (by rw [← hcs]; exact List.mem_cons_self pc rest))
        (fun t' j v' hpcq => hhole t' j v' (by rw [← hpcq]; exact List.mem_cons_self pc rest))
        (flattenSel f rest) x c y hxy

/-- `ReplaceAll` with the placeholder of the unique unreplaced hole `i`
substitutes exactly that hole. -/
theorem replaceAll_flatten_step (t : Chars) (ht : t ∈ TAGS) (i : ℕ) (v : Chars) :
    ∀ (ps : List Piece) (f : ℕ → Bool),
    (∀ cs, Piece.raw cs ∈ ps → ∀ c ∈ cs, c ≠ '[') →
    (∀ t' j v', Piece.hole t' j v' ∈ ps → t' ∈ TAGS ∧ (∀ c ∈ v', c ≠ '[')) →
    ((holes ps).map holeIdx).Nodup →
    Piece.hole t i v ∈ ps →
    f i = false →
    replaceAllList (flattenSel f ps) (placeholderChars t i) v
      = flattenSel (fun j => if j = i then true else f j) ps := by
  intro ps
  induction ps with
  | nil => intro f _ _ _ hmem _; cases hmem
  | cons pc rest ih =>
    intro f hraw hhole hnodup hmem hfi
    rcases List.mem_cons.mp hmem with heq | hmemR
    · subst heq
      have hni : i ∉ (holes rest).map holeIdx := by
        simp only [holes_cons_hole, List.map_cons, List.nodup_cons, holeIdx] at hnodup
        exact hnodup.1
      have hnI : ∀ t' j v', Piece.hole t' j v' ∈ rest → j ≠ i := by
        intro t' j v' hm hji
        exact hni (List.mem_map.mpr
          ⟨Piece.hole t' j v', hole_mem_holes t' j v' rest hm, by simp [holeIdx, hji]⟩)
      rw [flattenSel_cons, renderSel_hole_false f t i v hfi, replaceAll_ph]
      have hph : placeholderChars t i
          = '[' :: ('[' :: (t ++ '_' :: (natChars i ++ [']', ']']))) := rfl
      rw [hph, replaceCore_head '[' ('[' :: (t ++ '_' :: (natChars i ++ [']', ']']))) v
        (flattenSel f rest)]
      rw [← replaceAll_ph, replaceAll_flatten_skip t ht i v rest f
        (fun cs hcs => hraw cs (List.mem_cons_of_mem _ hcs))
        (fun t' j v' hm => ⟨(hhole t' j v' (List.mem_cons_of_mem _ hm)).1,
          (hhole t' j v' (List.mem_cons_of_mem _ hm)).2,
          fun _ => hnI t' j v' hm⟩)]
      rw [flattenSel_cons, renderSel_hole_true _ t i v (by simp)]
      congr 1
      exact flattenSel_congr f (fun j => if j = i then true else f j) rest
        (fun t' j v' hm => by simp [hnI t' j v' hm])
    · have hpcne : ∀ t'' j'' v'', pc = Piece.hole t'' j'' v'' → j'' ≠ i := by
        intro t'' j'' v'' hpc hji
        subst hpc
        simp only [holes_cons_hole, List.map_cons, List.nodup_cons, holeIdx] at hnodup
        apply hnodup.1
        rw [hji]
        exact List.mem_map.mpr
          ⟨Piece.hole t i v, hole_mem_holes t i v rest hmemR, by simp [holeIdx]⟩
      have hnodupR : ((holes rest).map holeIdx).Nodup := by
        cases pc with
        | raw cs => simpa [holes_cons_raw] using hnodup
        | hole a b c2 =>
          simp only [holes_cons_hole, List.map_cons, List.nodup_cons] at hnodup
          exact hnodup.2
      rw [flattenSel_cons, replaceAll_ph, replaceCore_skip '['
        ('[' :: (t ++ '_' :: (natChars i ++ [']', ']']))) v
        (renderSel f pc) (flattenSel f rest) ?hno, ← replaceAll_ph]
      · rw [ih f (fun cs hcs => hraw cs (List.mem_cons_of_mem _ hcs))
          (fun t' j v' hm => hhole t' j v' (List.mem_cons_of_mem _ hm))
          hnodupR hmemR hfi]
        rw [flattenSel_cons]
        congr 1
        cases pc with
        | raw cs => rfl
        | hole t'' j'' v'' =>
          have hne := hpcne t'' j'' v'' rfl
          simp [renderSel, hne]
      case hno =>
        intro x c y hxy
        exact piece_no_start t ht i f pc
          (fun cs hcs => hraw cs (by rw [← hcs]; exact List.mem_cons_self pc rest))
          (fun t' j v' hpcq =>
            ⟨(hhole t' j v' (by rw [← hpcq]; exact List.mem_cons_self pc rest)).1,
              (hhole t' j v' (by rw [← hpcq]; exact List.mem_cons_self pc rest)).2,
              fun _ => hpcne t' j v' hpcq⟩)
          (flattenSel f rest) x c y hxy

/-- Folding any enumeration of the hole entries over the rendered text
restores the original text. -/
theorem unscrub_fold_aux (ps : List Piece)
    (hraw : ∀ cs, Piece.raw cs ∈ ps → ∀ c ∈ cs, c ≠ '[')
    (hhole : ∀ t j v, Piece.hole t j v ∈ ps → t ∈ TAGS ∧ ∀ c ∈ v, c ≠ '[' ∧ c ≠ ']')
    (hnodup : ((holes ps).map holeIdx).Nodup) :
    ∀ (entries : List (Chars × Chars)) (hs : List Piece) (f : ℕ → Bool),
    hs.Subperm (holes ps) →
    List.Perm entries (hs.map holeEntry) →
    (∀ t j v, Piece.hole t j v ∈ holes ps → (f j = false ↔ Piece.hole t j v ∈ hs)) →
    unscrubWith entries (flattenSel f ps) = flattenVal ps := by
  intro entries
  induction entries with
  | nil =>
    intro hs f hsub hperm hf
    have hhs : hs.map holeEntry = [] := hperm.symm.eq_nil
    have hhs2 : hs = [] := by
      cases hs with
      | nil => rfl
      | cons a l => simp at hhs
    subst hhs2
    rw [unscrubWith_nil]
    apply flattenSel_true_eq_val
    intro t j v hm
    have hiff := hf t j v (hole_mem_holes t j v ps hm)
    cases hfv : f j with
    | false => exact absurd (hiff.mp hfv) (List.not_mem_nil _)
    | true => rfl
  | cons e entries' ih =>
    intro hs f hsub hperm hf
    have hemem : e ∈ hs.map holeEntry := hperm.subset (List.mem_cons_self _ _)
    obtain ⟨pc, hpc, hpce⟩ := List.mem_map.mp hemem
    have hpcH : pc ∈ holes ps := hsub.subset hpc
    obtain ⟨t, i, v, rfl, hmemPs⟩ := holes_shape ps pc hpcH
    have hhp := hhole t i v hmemPs
    have hfi : f i = false := (hf t i v hpcH).mpr hpc
    have hnodupHs : (hs.map holeIdx).Nodup := by
      obtain ⟨l', hl'perm, hl'sub⟩ := hsub
      have h1 : (l'.map holeIdx).Sublist ((holes ps).map holeIdx) := hl'sub.map holeIdx
      have h2 : (l'.map holeIdx).Nodup := h1.nodup hnodup
      exact ((hl'perm.map holeIdx).nodup_iff).mp h2
    have hnodupHsL : hs.Nodup := List.Nodup.of_map _ hnodupHs
    rw [unscrubWith_cons, ← hpce]
    rw [show (holeEntry (Piece.hole t i v)).1 = placeholderChars t i from rfl,
      show (holeEntry (Piece.hole t i v)).2 = v from rfl]
    rw [replaceAll_flatten_step t hhp.1 i v ps f hraw
      (fun t' j v' hm => ⟨(hhole t' j v' hm).1, fun c hc => ((hhole t' j v' hm).2 c hc).1⟩)
      hnodup hmemPs hfi]
    apply ih (hs.erase (Piece.hole t i v)) (fun j => if j = i then true else f j)
    · exact (List.erase_subperm _ _).trans hsub
    · have h1 : List.Perm hs (Piece.hole t i v :: hs.erase (Piece.hole t i v)) :=
        List.perm_cons_erase hpc
      have h3 : List.Perm (e :: entries')
          (e :: (hs.erase (Piece.hole t i v)).map holeEntry) := by
        refine hperm.trans ?_
        rw [← hpce]
        exact h1.map holeEntry
      exact h3.cons_inv
    · intro t' j v' hm
      by_cases hji : j = i
      · subst hji
        simp only [if_pos rfl]
        constructor
        · intro h
          cases h
        · intro hmem'
          exfalso
          have hmemHs : Piece.hole t' j v' ∈ hs := List.mem_of_mem_erase hmem'
          have heq2 : Piece.hole t' j v' = Piece.hole t j v := by
            apply List.inj_on_of_nodup_map hnodupHs hmemHs hpc
            rfl
          rw [heq2] at hmem'
          exact ((List.Nodup.mem_erase_iff hnodupHsL).mp hmem').1 rfl
      · simp only [if_neg hji]
        rw [hf t' j v' hm]
        constructor
        · intro hmem'
          refine (List.Nodup.mem_erase_iff hnodupHsL).mpr ⟨?_, hmem'⟩
          intro hcc
          injection hcc with _ h2 _
          exact hji h2
        · intro hmem'
          exact List.mem_of_mem_erase hmem'

/-- Any traversal order of the hole entries restores the original text from
the redacted text. -/
theorem unscrub_restores (ps : List Piece)
    (hraw : ∀ cs, Piece.raw cs ∈ ps → ∀ c ∈ cs, c ≠ '[')
    (hhole : ∀ t j v, Piece.hole t j v ∈ ps → t ∈ TAGS ∧ ∀ c ∈ v, c ≠ '[' ∧ c ≠ ']')
    (hnodup : ((holes ps).map holeIdx).Nodup)
    (entries : List (Chars × Chars))
    (hperm : List.Perm entries ((holes ps).map holeEntry)) :
    unscrubWith entries (flattenPH ps) = flattenVal ps := by
  rw [← flattenSel_false ps]
  exact unscrub_fold_aux ps hraw hhole hnodup entries (holes ps) (fun _ => false)
    (List.Subperm.refl _) hperm (fun t j v hm => ⟨fun _ => hm, fun _ => rfl⟩)

/-! ### Containment: digit runs and occurrence decomposition -/

theorem digitRunAux_ge (cs : Chars) : ∀ cur best : ℕ,
    cur ≤ digitRunAux cs cur best ∧ best ≤ digitRunAux cs cur best := by
  induction cs with
  | nil => intro cur best; simp [digitRunAux]
  | cons c rest ih =>
    intro cur best
    by_cases hc : isDigitChar c = true
    · rw [show digitRunAux (c :: rest) cur best = digitRunAux rest (cur + 1) best from by
        simp [digitRunAux, hc]]
      obtain ⟨h1, h2⟩ := ih (cur + 1) best
      omega
    · rw [show digitRunAux (c :: rest) cur best = digitRunAux rest 0 (max cur best) from by
        simp only [digitRunAux]; rw [if_neg hc]]
      obtain ⟨h1, h2⟩ := ih 0 (max cur best)
      omega

theorem digitRunAux_digits : ∀ (s : Chars), (∀ c ∈ s, isDigitChar c = true) →
    ∀ (v : Chars) (cur best : ℕ),
    digitRunAux (s ++ v) cur best = digitRunAux v (cur + s.length) best := by
  intro s
  induction s with
  | nil => intro _ v cur best; simp
  | cons c rest ih =>
    intro hs v cur best
    rw [List.cons_append, show digitRunAux (c :: (rest ++ v)) cur best
        = digitRunAux (rest ++ v) (cur + 1) best from by
      simp [digitRunAux, hs c (List.mem_cons_self _ _)]]
    rw [ih (fun d hd => hs d (List.mem_cons_of_mem _ hd)) v (cur + 1) best]
    have harith : cur + 1 + rest.length = cur + (rest.length + 1) := by omega
    rw [harith]
    rfl

theorem digit_infix_le_run (s : Chars) (hs : ∀ c ∈ s, isDigitChar c = true) :
    ∀ (u v : Chars) (cur best : ℕ), s.length ≤ digitRunAux (u ++ (s ++ v)) cur best := by
  intro u
  induction u with
  | nil =>
    intro v cur best
    rw [List.nil_append, digitRunAux_digits s hs v cur best]
    have := (digitRunAux_ge v (cur + s.length) best).1
    omega
  | cons c u' ih =>
    intro v cur best
    rw [List.cons_append]
    by_cases hc : isDigitChar c = true
    · rw [show digitRunAux (c :: (u' ++ (s ++ v))) cur best
          = digitRunAux (u' ++ (s ++ v)) (cur + 1) best from by simp [digitRunAux, hc]]
      exact ih v (cur + 1) best
    · rw [show digitRunAux (c :: (u' ++ (s ++ v))) cur best
          = digitRunAux (u' ++ (s ++ v)) 0 (max cur best) from by
        simp only [digitRunAux]; rw [if_neg hc]]
      exact ih v 0 (max cur best)

theorem infix_le_longestDigitRun (s t : Chars) (hs : ∀ c ∈ s, isDigitChar c = true)
    (h : s <:+: t) : s.length ≤ longestDigitRun t := by
  obtain ⟨u, v, huv⟩ := h
  rw [longestDigitRun, ← huv, List.append_assoc]
  exact digit_infix_le_run s hs u v 0 0

/-- The longest digit run inside a placeholder is the counter (or the single
digit of the `S3` tag). -/
theorem ph_run_le (t : Chars) (ht : t ∈ TAGS) (n : ℕ) :
    longestDigitRun (placeholderChars t n) ≤ max (natChars n).length 1 := by
  have hstep : ∀ (c : Char) (cs : Chars) (cur best : ℕ), isDigitChar c = false →
      digitRunAux (c :: cs) cur best = digitRunAux cs 0 (max cur best) := by
    intro c cs cur best hc
    simp only [digitRunAux]
    rw [if_neg (by simp [hc])]
  have hdig : ∀ (c : Char) (cs : Chars) (cur best : ℕ), isDigitChar c = true →
      digitRunAux (c :: cs) cur best = digitRunAux cs (cur + 1) best := by
    intro c cs cur best hc
    simp [digitRunAux, hc]
  have htail : ∀ cur best : ℕ,
      digitRunAux (natChars n ++ [']', ']']) cur best
        = max 0 (max 0 (max (cur + (natChars n).length) best)) := by
    intro cur best
    rw [digitRunAux_digits (natChars n) (natChars_digits n) [']', ']'] cur best,
      hstep ']' [']'] _ _ (by decide), hstep ']' [] _ _ (by decide)]
    rfl
  simp only [TAGS, List.mem_cons, List.not_mem_nil, or_false] at ht
  rcases ht with rfl | rfl | rfl | rfl
  · rw [longestDigitRun,
      show placeholderChars "ARN".data n
        = '[' :: '[' :: 'A' :: 'R' :: 'N' :: '_' :: (natChars n ++ [']', ']']) from rfl,
      hstep _ _ _ _ (by decide), hstep _ _ _ _ (by decide), hstep _ _ _ _ (by decide),
      hstep _ _ _ _ (by decide), hstep _ _ _ _ (by decide), hstep _ _ _ _ (by decide),
      htail]
    omega
  · rw [longestDigitRun,
      show placeholderChars "ACCOUNT_ID".data n
        = '[' :: '[' :: 'A' :: 'C' :: 'C' :: 'O' :: 'U' :: 'N' :: 'T' :: '_' :: 'I' :: 'D'
            :: '_' :: (natChars n ++ [']', ']']) from rfl,
      hstep _ _ _ _ (by decide), hstep _ _ _ _ (by decide), hstep _ _ _ _ (by decide),
      hstep _ _ _ _ (by decide), hstep _ _ _ _ (by decide), hstep _ _ _ _ (by decide),
      hstep _ _ _ _ (by decide), hstep _ _ _ _ (by decide), hstep _ _ _ _ (by decide),
      hstep _ _ _ _ (by decide), hstep _ _ _ _ (by decide), hstep _ _ _ _ (by decide),
      hstep _ _ _ _ (by decide), htail]
    omega
  · rw [longestDigitRun,
      show placeholderChars "IP".data n
        = '[' :: '[' :: 'I' :: 'P' :: '_' :: (natChars n ++ [']', ']']) from rfl,
      hstep _ _ _ _ (by decide), hstep _ _ _ _ (by decide), hstep _ _ _ _ (by decide),
      hstep _ _ _ _ (by decide), hstep _ _ _ _ (by decide), htail]
    omega
  · rw [longestDigitRun,
      show placeholderChars "S3".data n
        = '[' :: '[' :: 'S' :: '3' :: '_' :: (natChars n ++ [']', ']']) from rfl,
      hstep _ _ _ _ (by decide), hstep _ _ _ _ (by decide), hstep _ _ _ _ (by decide),
      hdig _ _ _ _ (by decide), hstep _ _ _ _ (by decide), htail]
    omega

/-- A placeholder with counter below `10^11` contains no 12-digit run. -/
theorem ph_no_digit12 (t : Chars) (ht : t ∈ TAGS) (n : ℕ) (hn : n < 10 ^ 11)
    (s : Chars) (hs : ∀ c ∈ s, isDigitChar c = true) (h12 : s.length = 12) :
    ¬ s <:+: placeholderChars t n := by
  intro hinf
  have h1 := infix_le_longestDigitRun s (placeholderChars t n) hs hinf
  have h2 := ph_run_le t ht n
  have h3 : (natChars n).length ≤ max 11 1 := natChars_len_le n 11 hn
  omega

/-- Position of one list inside a two-part concatenation. -/
theorem append_eq_append_cases (u v x s y : Chars) (h : u ++ v = x ++ (s ++ y)) :
    (∃ y', u = x ++ (s ++ y') ∧ y = y' ++ v)
    ∨ (∃ x2, x = u ++ x2 ∧ v = x2 ++ (s ++ y))
    ∨ (∃ s1 s2, s = s1 ++ s2 ∧ s1 ≠ [] ∧ s2 ≠ [] ∧ u = x ++ s1 ∧ v = s2 ++ y) := by
  rcases List.append_eq_append_iff.mp h with ⟨w, hx, hv⟩ | ⟨w, hu, hd⟩
  · exact Or.inr (Or.inl ⟨w, hx, hv⟩)
  · rcases List.append_eq_append_iff.mp hd with ⟨w2, hw, hy⟩ | ⟨w2, hs2, hv2⟩
    · exact Or.inl ⟨w2, by rw [hu, hw], hy⟩
    · by_cases hw0 : w = []
      · subst hw0
        simp only [List.nil_append] at hs2
        refine Or.inr (Or.inl ⟨[], ?_, ?_⟩)
        · rw [hu]
          simp only [List.append_nil]
        · rw [List.nil_append, hv2, hs2]
      · by_cases hc0 : w2 = []
        · subst hc0
          simp only [List.append_nil] at hs2
          simp only [List.nil_append] at hv2
          refine Or.inl ⟨[], ?_, ?_⟩
          · rw [hu, hs2]
            simp only [List.append_nil]
          · rw [List.nil_append, hv2]
        · exact Or.inr (Or.inr ⟨w, w2, hs2, hw0, hc0, hu, hv2⟩)

theorem mem_of_getLast? : ∀ {l : Chars} {a : Char}, l.getLast? = some a → a ∈ l := by
  intro l
  induction l with
  | nil => intro a h; cases h
  | cons c rest ih =>
    intro a h
    cases rest with
    | nil =>
      injection h with h
      rw [← h]
      exact List.mem_cons_self _ _
    | cons d rest' =>
      rw [List.getLast?_cons_cons] at h
      exact List.mem_cons_of_mem _ (ih h)

theorem renderChunks_raw_cons (tag : Chars) (n : ℕ) (c : Char) (rest : List Chunk) :
    renderChunks tag n (Chunk.raw c :: rest) = c :: renderChunks tag n rest := rfl

theorem renderChunks_hit_cons (tag : Chars) (n : ℕ) (m : Chars) (rest : List Chunk) :
    renderChunks tag n (Chunk.hit m :: rest)
      = placeholderChars tag n ++ renderChunks tag (n + 1) rest := rfl

/-- A run of digits at the head of a rendered chunk list lies in raw chunks
(a placeholder starts with `'['`). -/
theorem render_digit_peel (tag : Chars) :
    ∀ (d : Chars), (∀ c ∈ d, isDigitChar c = true) →
    ∀ (chs : List Chunk) (n : ℕ) (z : Chars),
    renderChunks tag n chs = d ++ z →
    ∃ B, chs = d.map Chunk.raw ++ B ∧ z = renderChunks tag n B := by
  intro d
  induction d with
  | nil =>
    intro _ chs n z h
    exact ⟨chs, by simp, by rw [h, List.nil_append]⟩
  | cons c d' ih =>
    intro hd chs n z h
    cases chs with
    | nil => simp [renderChunks] at h
    | cons ch rest =>
      cases ch with
      | raw c0 =>
        rw [renderChunks_raw_cons, List.cons_append] at h
        injection h with h1 h2
        subst h1
        obtain ⟨B, hB, hz⟩ := ih (fun e he => hd e (List.mem_cons_of_mem _ he)) rest n z h2
        exact ⟨B, by rw [List.map_cons, List.cons_append, hB], hz⟩
      | hit m =>
        exfalso
        rw [renderChunks_hit_cons] at h
        have hph : placeholderChars tag n
            = '[' :: ('[' :: (tag ++ '_' :: (natChars n ++ [']', ']']))) := rfl
        rw [hph, List.cons_append, List.cons_append] at h
        injection h with h1 _
        have hc := hd c (List.mem_cons_self _ _)
        rw [← h1] at hc
        exact absurd hc (by decide)

/-- A 12-digit run inside the output of one pass lies entirely inside raw
chunks: it cannot touch a placeholder (counters stay below `10^11`). -/
theorem render_digit_infix (tag : Chars) (htag : tag ∈ TAGS) (s : Chars)
    (hs : ∀ c ∈ s, isDigitChar c = true) (h12 : s.length = 12) :
    ∀ (chs : List Chunk) (n : ℕ) (x y : Chars),
    n + (hitsOf chs).length ≤ 10 ^ 11 →
    renderChunks tag n chs = x ++ (s ++ y) →
    ∃ A B, chs = A ++ (s.map Chunk.raw ++ B)
      ∧ x = renderChunks tag n A
      ∧ y = renderChunks tag (n + (hitsOf A).length) B := by
  intro chs
  induction chs with
  | nil =>
    intro n x y _ h
    exfalso
    have hl := congrArg List.length h
    simp only [renderChunks, List.length_nil, List.length_append] at hl
    omega
  | cons ch rest ih =>
    intro n x y hcnt h
    cases ch with
    | raw c =>
      cases x with
      | nil =>
        rw [List.nil_append] at h
        obtain ⟨B, hB, hz⟩ := render_digit_peel tag s hs (Chunk.raw c :: rest) n y h
        exact ⟨[], B, by rw [List.nil_append, hB], rfl, by simpa [hitsOf] using hz⟩
      | cons x0 x' =>
        rw [renderChunks_raw_cons, List.cons_append] at h
        injection h with h1 h2
        subst h1
        obtain ⟨A', B, hB, hx', hy⟩ := ih n x' y (by simpa [hitsOf] using hcnt) h2
        refine ⟨Chunk.raw c :: A', B, ?_, ?_, ?_⟩
        · rw [hB, List.cons_append]
        · rw [renderChunks_raw_cons, hx']
        · rw [hy]
          congr 1
    | hit m =>
      rw [renderChunks_hit_cons] at h
      rcases append_eq_append_cases (placeholderChars tag n) (renderChunks tag (n + 1) rest)
          x s y h with
        ⟨y', hphy, hy⟩ | ⟨x2, hx2, hrest⟩ | ⟨s1, s2, hs12, hs1ne, hs2ne, hph1, hrest2⟩
      · exfalso
        have hn : n < 10 ^ 11 := by
          have hl : (hitsOf (Chunk.hit m :: rest)).length = (hitsOf rest).length + 1 := by
            simp [hitsOf]
          omega
        exact ph_no_digit12 tag htag n hn s hs h12
          ⟨x, y', by rw [hphy, List.append_assoc]⟩
      · obtain ⟨A', B, hB, hx', hy⟩ := ih (n + 1) x2 y
          (by simp only [hitsOf, List.length_cons] at hcnt ⊢; omega) hrest
        refine ⟨Chunk.hit m :: A', B, ?_, ?_, ?_⟩
        · rw [hB, List.cons_append]
        · rw [hx2, hx', renderChunks_hit_cons]
        · rw [hy]
          congr 1
          simp only [hitsOf, List.length_cons]
          omega
      · exfalso
        have hlast : lastOr (placeholderChars tag n) none = some ']' := by
          have hshape : placeholderChars tag n
              = ('[' :: '[' :: (tag ++ '_' :: natChars n ++ [']'])) ++ [']'] := by
            simp [placeholderChars]
          rw [hshape, lastOr_append]
          rfl
        rw [hph1, lastOr_append, lastOr_of_ne_nil s1 hs1ne _] at hlast
        have hmem : ']' ∈ s1 := mem_of_getLast? hlast
        have hdig : isDigitChar ']' = true := by
          apply hs
          rw [hs12]
          exact List.mem_append.mpr (Or.inl hmem)
        exact absurd hdig (by decide)

theorem renderChunks_getLast (tag : Chars) (n : ℕ) (A : List Chunk) :
    (renderChunks tag n A).getLast? = (joinOrig A).getLast?
    ∨ (renderChunks tag n A).getLast? = some ']' := by
  induction A using List.reverseRecOn with
  | nil => exact Or.inl rfl
  | append_singleton A' ch _ =>
    cases ch with
    | raw c =>
      left
      rw [renderChunks_append, joinOrig_append]
      rw [show renderChunks tag (n + (hitsOf A').length) [Chunk.raw c] = [c] from rfl,
        show joinOrig [Chunk.raw c] = [c] from rfl]
      rw [List.getLast?_concat, List.getLast?_concat]
    | hit m =>
      right
      rw [renderChunks_append]
      rw [show renderChunks tag (n + (hitsOf A').length) [Chunk.hit m]
          = placeholderChars tag (n + (hitsOf A').length) ++ [] from rfl]
      rw [List.append_nil]
      have hshape : placeholderChars tag (n + (hitsOf A').length)
          = ('[' :: '[' :: (tag ++ '_' :: natChars (n + (hitsOf A').length) ++ [']'])) ++ [']'] := by
        simp [placeholderChars]
      rw [hshape, ← List.append_assoc, List.getLast?_concat]

theorem renderChunks_head (tag : Chars) (n : ℕ) (B : List Chunk) :
    (renderChunks tag n B).head? = (joinOrig B).head?
    ∨ (renderChunks tag n B).head? = some '[' := by
  cases B with
  | nil => exact Or.inl rfl
  | cons ch B' =>
    cases ch with
    | raw c =>
      left
      rw [renderChunks_raw_cons]
      rfl
    | hit m =>
      right
      rw [renderChunks_hit_cons]
      rfl

theorem lastOr_none (l : Chars) : lastOr l none = l.getLast? := by
  unfold lastOr
  cases l.getLast? <;> rfl

/-- Every raw chunk of a scan marks a position where the matcher failed. -/
theorem scan_raw_tested (tm : Option Char → Chars → Option ℕ) (hok : MatcherOk tm) :
    ∀ (len : ℕ) (cs : Chars), cs.length ≤ len → ∀ (prev : Option Char)
    (A : List Chunk) (c : Char) (B : List Chunk),
    scanChunks tm prev cs = A ++ Chunk.raw c :: B →
    tm (lastOr (joinOrig A) prev) (c :: joinOrig B) = none := by
  intro len
  induction len with
  | zero =>
    intro cs hlen prev A c B h
    have hcs : cs = [] := List.length_eq_zero.mp (by omega)
    subst hcs
    rw [scanChunks_nil] at h
    exact absurd h.symm (by simp)
  | succ l ih =>
    intro cs hlen prev A c B h
    cases cs with
    | nil =>
      rw [scanChunks_nil] at h
      exact absurd h.symm (by simp)
    | cons c0 cs' =>
      rcases htm : tm prev (c0 :: cs') with _ | nn
      · rw [scanChunks_cons_none tm prev c0 cs' htm] at h
        cases A with
        | nil =>
          rw [List.nil_append] at h
          injection h with h1 h2
          injection h1 with h1
          subst h1
          rw [← h2, joinOrig_scanChunks]
          rw [show joinOrig ([] : List Chunk) = [] from rfl, lastOr_nil]
          exact htm
        | cons ch A' =>
          rw [List.cons_append] at h
          injection h with h1 h2
          subst h1
          have := ih cs' (by simp at hlen; omega) (some c0) A' c B h2
          rw [show joinOrig (Chunk.raw c0 :: A') = c0 :: joinOrig A' from rfl, lastOr_cons]
          exact this
      · by_cases hn : nn = 0
        · exfalso
          subst hn
          have := hok.pos _ _ _ htm
          omega
        · rw [scanChunks_cons_some tm prev c0 cs' nn htm hn] at h
          cases A with
          | nil =>
            rw [List.nil_append] at h
            injection h with h1 _
            cases h1
          | cons ch A' =>
            rw [List.cons_append] at h
            injection h with h1 h2
            subst h1
            have hrec := ih ((c0 :: cs').drop nn)
              (by simp only [List.length_drop, List.length_cons] at *; omega)
              (((c0 :: cs').take nn).getLast?) A' c B h2
            rw [show joinOrig (Chunk.hit ((c0 :: cs').take nn) :: A')
                = (c0 :: cs').take nn ++ joinOrig A' from rfl, lastOr_append,
              lastOr_of_ne_nil _ (take_ne_nil_of (c0 :: cs') nn (by omega) (by simp)) prev]
            exact hrec

/-- Minimal match lengths of the four matchers. -/
theorem tryArn_min (prev : Option Char) (cs : Chars) (n : ℕ)
    (h : tryArn prev cs = some n) : 5 ≤ n := by
  rcases tryArn_cases prev cs with hn | ⟨rest, _, hrun, hsome⟩
  · rw [hn] at h
    cases h
  · rw [hsome] at h
    injection h with h
    omega

theorem tryAcct_min (prev : Option Char) (cs : Chars) (n : ℕ)
    (h : tryAcct prev cs = some n) : 12 ≤ n := by
  have := (tryAcct_some prev cs n h).1
  omega

theorem tryS3_min (prev : Option Char) (cs : Chars) (n : ℕ)
    (h : tryS3 prev cs = some n) : 6 ≤ n := by
  rcases tryS3_cases prev cs with hn | ⟨rest, _, hrun, hsome⟩
  · rw [hn] at h
    cases h
  · rw [hsome] at h
    injection h with h
    omega

theorem ipGroups_min (g : ℕ) : ∀ (cs : Chars) (r : ℕ), ipGroups g cs = some r → 2 * g ≤ r := by
  induction g with
  | zero => intro cs r _; omega
  | succ g ih =>
    intro cs r h
    cases cs with
    | nil => simp [ipGroups] at h
    | cons c rest =>
      unfold ipGroups at h
      by_cases hc : c = '.'
      · rw [if_pos hc] at h
        obtain ⟨k, hkmem, hf⟩ := firstSome_some _ _ _ h
        obtain ⟨hk1, -, -⟩ := octLens_mem rest k hkmem
        rcases hrg : ipGroups g (rest.drop k) with _ | r'
        · rw [hrg] at hf
          cases hf
        · rw [hrg] at hf
          injection hf with hf
          have hr : r = 1 + k + r' := by simpa using hf.symm
          have hr2 := ih (rest.drop k) r' hrg
          omega
      · rw [if_neg hc] at h
        cases h

theorem tryIp_min (prev : Option Char) (cs : Chars) (n : ℕ)
    (h : tryIp prev cs = some n) : 7 ≤ n := by
  unfold tryIp at h
  by_cases hb : boundaryOk prev = true
  · rw [if_pos hb] at h
    obtain ⟨k, hkmem, hf⟩ := firstSome_some _ _ _ h
    obtain ⟨hk1, -, -⟩ := octLens_mem cs k hkmem
    rcases hrg : ipGroups 3 (cs.drop k) with _ | r'
    · rw [hrg] at hf
      cases hf
    · rw [hrg] at hf
      injection hf with hf
      have hr : n = k + r' := by simpa using hf.symm
      have hr2 := ipGroups_min 3 (cs.drop k) r' hrg
      omega
  · rw [if_neg hb] at h
    cases h

theorem hits_count_le (k : ℕ) : ∀ (chs : List Chunk), (∀ m ∈ hitsOf chs, k ≤ m.length) →
    (hitsOf chs).length * k ≤ (joinOrig chs).length := by
  intro chs
  induction chs with
  | nil => intro _; simp [hitsOf, joinOrig]
  | cons ch rest ih =>
    intro hm
    cases ch with
    | raw c =>
      have := ih (fun m hmem => hm m (by simpa [hitsOf] using hmem))
      rw [show hitsOf (Chunk.raw c :: rest) = hitsOf rest from rfl,
        show joinOrig (Chunk.raw c :: rest) = c :: joinOrig rest from rfl]
      simp only [List.length_cons]
      omega
    | hit m =>
      have h1 := ih (fun m' hmem => hm m' (by simp [hitsOf]; exact Or.inr hmem))
      have h2 := hm m (by simp [hitsOf])
      rw [show hitsOf (Chunk.hit m :: rest) = m :: hitsOf rest from rfl,
        show joinOrig (Chunk.hit m :: rest) = m ++ joinOrig rest from rfl]
      simp only [List.length_cons, List.length_append]
      have hmul : ((hitsOf rest).length + 1) * k = (hitsOf rest).length * k + k := by ring
      omega

theorem placeholderChars_length (t : Chars) (n : ℕ) :
    (placeholderChars t n).length = t.length + (natChars n).length + 5 := by
  simp [placeholderChars]
  omega

theorem render_len_le (tag : Chars) (htlen : tag.length ≤ 10) (D : ℕ) (hD : 1 ≤ D) :
    ∀ (chs : List Chunk) (n : ℕ), n + (hitsOf chs).length ≤ 10 ^ D →
    (renderChunks tag n chs).length
      ≤ (joinOrig chs).length + (hitsOf chs).length * (15 + D) := by
  intro chs
  induction chs with
  | nil => intro n _; simp [renderChunks, joinOrig, hitsOf]
  | cons ch rest ih =>
    intro n hcnt
    cases ch with
    | raw c =>
      have := ih n (by simpa [hitsOf] using hcnt)
      rw [renderChunks_raw_cons, show hitsOf (Chunk.raw c :: rest) = hitsOf rest from rfl,
        show joinOrig (Chunk.raw c :: rest) = c :: joinOrig rest from rfl]
      simp only [List.length_cons]
      omega
    | hit m =>
      have hcnt' : (hitsOf (Chunk.hit m :: rest)).length = (hitsOf rest).length + 1 := by
        simp [hitsOf]
      have hrec := ih (n + 1) (by omega)
      have hnD : n < 10 ^ D := by omega
      have hnat : (natChars n).length ≤ max D 1 := natChars_len_le n D hnD
      have hmax : max D 1 = D := by omega
      rw [renderChunks_hit_cons,
        show joinOrig (Chunk.hit m :: rest) = m ++ joinOrig rest from rfl]
      simp only [List.length_append, placeholderChars_length, hcnt']
      rw [hmax] at hnat
      have hgoal : tag.length + (natChars n).length + 5 ≤ 15 + D := by omega
      have hmul : ((hitsOf rest).length + 1) * (15 + D)
          = (hitsOf rest).length * (15 + D) + (15 + D) := by ring
      omega

/-- The executable boundary check implies the occurrence property. -/
theorem occWBcheck_spec (s t : Chars) (h : occWBcheck s t = true) : occWB s t := by
  intro x y hxy
  have hxy' : t = x ++ (s ++ y) := by rw [hxy, List.append_assoc]
  have hmem : x.length ∈ List.range (t.length + 1) := by
    rw [List.mem_range]
    have := congrArg List.length hxy'
    simp only [List.length_append] at this
    omega
  have hall := List.all_eq_true.mp h x.length hmem
  have hdrop : t.drop x.length = s ++ y := by
    rw [hxy', List.drop_left]
  have htake12 : (t.drop x.length).take s.length = s := by
    rw [hdrop, List.take_left]
  have hxeq : t.take x.length = x := by
    rw [hxy', List.take_left]
  have hyeq : t.drop (x.length + s.length) = y := by
    have hlen : x.length + s.length = (x ++ s).length := by simp
    rw [hxy, hlen, List.drop_left]
  rw [htake12, hxeq, hyeq] at hall
  simp only [beq_self_eq_true, Bool.not_true, Bool.false_or, Bool.and_eq_true] at hall
  exact hall

/-- The account-id matcher fires on every word-bounded run of exactly 12
digits. -/
theorem tryAcct_complete (prev : Option Char) (s rest : Chars)
    (hdig : ∀ c ∈ s, isDigitChar c = true) (hlen : s.length = 12)
    (hprev : nonWordOpt prev = true) (hafter : nonWordOpt rest.head? = true) :
    tryAcct prev (s ++ rest) = some 12 := by
  have h1 : boundaryOk prev = true := by
    cases prev with
    | none => rfl
    | some c => simpa [boundaryOk, nonWordOpt] using hprev
  have htake : (s ++ rest).take 12 = s := by
    rw [← hlen, List.take_left]
  have hdrop : (s ++ rest).drop 12 = rest := by
    rw [← hlen, List.drop_left]
  have h2 : ((s ++ rest).take 12).length = 12 := by rw [htake, hlen]
  have h3 : ((s ++ rest).take 12).all isDigitChar = true := by
    rw [htake]
    exact List.all_eq_true.mpr hdig
  have h4 : boundaryAfter ((s ++ rest).drop 12) = true := by
    rw [hdrop]
    cases rest with
    | nil => rfl
    | cons c r => simpa [boundaryAfter, nonWordOpt] using hafter
  unfold tryAcct
  rw [if_pos (by simp [h1, h2, h3, h4])]

/-- One pass keeps every occurrence of a word-bounded digit run word-bounded. -/
theorem occWB_render (tag : Chars) (htag : tag ∈ TAGS) (s : Chars)
    (hs : ∀ c ∈ s, isDigitChar c = true) (h12 : s.length = 12)
    (chs : List Chunk) (n : ℕ) (hcnt : n + (hitsOf chs).length ≤ 10 ^ 11)
    (hWB : occWB s (joinOrig chs)) : occWB s (renderChunks tag n chs) := by
  intro x y hxy
  obtain ⟨A, B, hAB, hx, hy⟩ := render_digit_infix tag htag s hs h12 chs n x y hcnt
    (by rw [← List.append_assoc]; exact hxy)
  have hjoin : joinOrig chs = joinOrig A ++ s ++ joinOrig B := by
    rw [hAB, joinOrig_append, joinOrig_append, joinOrig_map_raw, List.append_assoc]
  obtain ⟨hL, hR⟩ := hWB (joinOrig A) (joinOrig B) hjoin
  constructor
  · rw [hx]
    rcases renderChunks_getLast tag n A with heq | heq
    · rw [heq]
      exact hL
    · rw [heq]
      rfl
  · rw [hy]
    rcases renderChunks_head tag (n + (hitsOf A).length) B with heq | heq
    · rw [heq]
      exact hR
    · rw [heq]
      rfl

/-- One pass introduces no new occurrence of a 12-digit run. -/
theorem noocc_render (tag : Chars) (htag : tag ∈ TAGS) (s : Chars)
    (hs : ∀ c ∈ s, isDigitChar c = true) (h12 : s.length = 12)
    (chs : List Chunk) (n : ℕ) (hcnt : n + (hitsOf chs).length ≤ 10 ^ 11)
    (hno : ¬ s <:+: joinOrig chs) : ¬ s <:+: renderChunks tag n chs := by
  intro hinf
  obtain ⟨x, y, hxy⟩ := hinf
  obtain ⟨A, B, hAB, hx, hy⟩ := render_digit_infix tag htag s hs h12 chs n x y hcnt
    (by rw [← hxy, List.append_assoc])
  exact hno ⟨joinOrig A, joinOrig B,
    by rw [hAB, joinOrig_append, joinOrig_append, joinOrig_map_raw, List.append_assoc]⟩

/-- The account-id pass eliminates every word-bounded 12-digit run. -/
theorem acct_kills (s : Chars) (hs : ∀ c ∈ s, isDigitChar c = true) (h12 : s.length = 12)
    (t : Chars) (hWB : occWB s t) (n : ℕ)
    (hcnt : n + (hitsOf (scanChunks tryAcct none t)).length ≤ 10 ^ 11) :
    ¬ s <:+: renderChunks "ACCOUNT_ID".data n (scanChunks tryAcct none t) := by
  intro hinf
  obtain ⟨x, y, hxy⟩ := hinf
  obtain ⟨A, B, hAB, hx, hy⟩ := render_digit_infix "ACCOUNT_ID".data (by simp [TAGS]) s hs h12
    (scanChunks tryAcct none t) n x y hcnt (by rw [← hxy, List.append_assoc])
  cases hs0 : s with
  | nil =>
    rw [hs0] at h12
    simp at h12
  | cons c s' =>
    have hsplit : scanChunks tryAcct none t
        = A ++ Chunk.raw c :: (s'.map Chunk.raw ++ B) := by
      rw [hAB, hs0]
      rfl
    have htest := scan_raw_tested tryAcct tryAcct_ok t.length t le_rfl none A c
      (s'.map Chunk.raw ++ B) hsplit
    have hjoin : t = joinOrig A ++ s ++ joinOrig B := by
      rw [← joinOrig_scanChunks tryAcct none t, hAB, joinOrig_append, joinOrig_append,
        joinOrig_map_raw]
      rw [List.append_assoc]
    obtain ⟨hL, hR⟩ := hWB (joinOrig A) (joinOrig B) hjoin
    have htext : c :: joinOrig (s'.map Chunk.raw ++ B) = s ++ joinOrig B := by
      rw [joinOrig_append, joinOrig_map_raw, hs0]
      rfl
    rw [htext] at htest
    have hprev : nonWordOpt (lastOr (joinOrig A) none) = true := by
      rw [lastOr_none]
      exact hL
    have hcomp := tryAcct_complete (lastOr (joinOrig A) none) s (joinOrig B) hs h12 hprev hR
    rw [hcomp] at htest
    cases htest

theorem runPass_spec (p : DataProtector) (tag : Chars) (tm : Option Char → Chars → Option ℕ)
    (cs : Chars) :
    (runPass p tag tm cs).2 = renderChunks tag p.nextIndex (scanChunks tm none cs)
    ∧ (runPass p tag tm cs).1.nextIndex
        = p.nextIndex + (hitsOf (scanChunks tm none cs)).length := by
  obtain ⟨h1, h2, h3⟩ := runChunks_spec p tag (scanChunks tm none cs)
  exact ⟨h3, h2⟩

theorem scrubPasses_eq (p : DataProtector) (cs : Chars) :
    scrubPasses p cs
      = runPass (runPass (runPass (runPass p "ARN".data tryArn cs).1 "ACCOUNT_ID".data
          tryAcct (runPass p "ARN".data tryArn cs).2).1 "IP".data tryIp
          (runPass (runPass p "ARN".data tryArn cs).1 "ACCOUNT_ID".data tryAcct
            (runPass p "ARN".data tryArn cs).2).2).1 "S3".data tryS3
          (runPass (runPass (runPass p "ARN".data tryArn cs).1 "ACCOUNT_ID".data tryAcct
            (runPass p "ARN".data tryArn cs).2).1 "IP".data tryIp
            (runPass (runPass p "ARN".data tryArn cs).1 "ACCOUNT_ID".data tryAcct
              (runPass p "ARN".data tryArn cs).2).2).2 := rfl

theorem string_data_ext (a b : String) (h : a.data = b.data) : a = b := by
  cases a
  cases b
  exact congrArg String.mk h

theorem unscrubWith_nil_text : ∀ (es : List (Chars × Chars)),
    (∀ e ∈ es, e.1 ≠ []) → unscrubWith es [] = [] := by
  intro es
  induction es with
  | nil => intro _; rfl
  | cons e es' ih =>
    intro h
    rw [unscrubWith_cons]
    have he : e.1 ≠ [] := h e (List.mem_cons_self _ _)
    have hre : replaceAllList [] e.1 e.2 = [] := by
      rcases hp : e.1 with _ | ⟨p0, ptl⟩
      · exact absurd hp he
      · rfl
    rw [hre]
    exact ih (fun e' he' => h e' (List.mem_cons_of_mem _ he'))

/-- After the four passes on a fresh protector, a word-bounded 12-digit
sequence of the input is gone from the output. -/
theorem scrub_contains_core (t0 : Chars) (s : Chars)
    (hdig : ∀ c ∈ s, isDigitChar c = true) (h12 : s.length = 12)
    (hWB : occWB s t0) (hlen : t0.length ≤ 1000000000) :
    ¬ s <:+: (scrubPasses ⟨[], 1⟩ t0).2 := by
  have harn : ("ARN".data : Chars) ∈ TAGS := by simp [TAGS]
  have hip : ("IP".data : Chars) ∈ TAGS := by simp [TAGS]
  have hp9 : (10 : ℕ) ^ 9 = 1000000000 := by norm_num
  have hp10 : (10 : ℕ) ^ 10 = 10000000000 := by norm_num
  have hp11 : (10 : ℕ) ^ 11 = 100000000000 := by norm_num
  set c1 := scanChunks tryArn none t0 with hc1
  set t1 := renderChunks "ARN".data 1 c1 with ht1
  set c2 := scanChunks tryAcct none t1 with hc2
  set t2 := renderChunks "ACCOUNT_ID".data (1 + (hitsOf c1).length) c2 with ht2
  set c3 := scanChunks tryIp none t2 with hc3
  set t3 := renderChunks "IP".data (1 + (hitsOf c1).length + (hitsOf c2).length) c3 with ht3
  set c4 := scanChunks tryS3 none t3 with hc4
  set t4 := renderChunks "S3".data
    (1 + (hitsOf c1).length + (hitsOf c2).length + (hitsOf c3).length) c4 with ht4
  -- join facts
  have hj1 : joinOrig c1 = t0 := by rw [hc1, joinOrig_scanChunks]
  have hj2 : joinOrig c2 = t1 := by rw [hc2, joinOrig_scanChunks]
  have hj3 : joinOrig c3 = t2 := by rw [hc3, joinOrig_scanChunks]
  have hj4 : joinOrig c4 = t3 := by rw [hc4, joinOrig_scanChunks]
  -- hit-count lower bounds
  have hb1 : (hitsOf c1).length * 5 ≤ t0.length := by
    have h5 := scan_hits_len tryArn tryArn_ok 5 tryArn_min none t0
    rw [← hc1] at h5
    have := hits_count_le 5 c1 h5
    rwa [hj1] at this
  have hb2 : (hitsOf c2).length * 12 ≤ t1.length := by
    have h5 := scan_hits_len tryAcct tryAcct_ok 12 tryAcct_min none t1
    rw [← hc2] at h5
    have := hits_count_le 12 c2 h5
    rwa [hj2] at this
  have hb3 : (hitsOf c3).length * 7 ≤ t2.length := by
    have h5 := scan_hits_len tryIp tryIp_ok 7 tryIp_min none t2
    rw [← hc3] at h5
    have := hits_count_le 7 c3 h5
    rwa [hj3] at this
  have hb4 : (hitsOf c4).length * 6 ≤ t3.length := by
    have h5 := scan_hits_len tryS3 tryS3_ok 6 tryS3_min none t3
    rw [← hc4] at h5
    have := hits_count_le 6 c4 h5
    rwa [hj4] at this
  -- counter bounds and length growth, pass by pass
  have hcnt1 : 1 + (hitsOf c1).length ≤ 10 ^ 9 := by omega
  have hlen1 : t1.length ≤ t0.length + (hitsOf c1).length * 24 := by
    have h := render_len_le "ARN".data (by decide) 9 (by omega) c1 1 hcnt1
    rw [hj1, ← ht1] at h
    omega
  have hcnt2 : (1 + (hitsOf c1).length) + (hitsOf c2).length ≤ 10 ^ 10 := by omega
  have hlen2 : t2.length ≤ t1.length + (hitsOf c2).length * 25 := by
    have h := render_len_le "ACCOUNT_ID".data (by decide) 10 (by omega) c2
      (1 + (hitsOf c1).length) hcnt2
    rw [hj2, ← ht2] at h
    omega
  have hcnt3 : (1 + (hitsOf c1).length + (hitsOf c2).length) + (hitsOf c3).length
      ≤ 10 ^ 10 := by omega
  have hlen3 : t3.length ≤ t2.length + (hitsOf c3).length * 25 := by
    have h := render_len_le "IP".data (by decide) 10 (by omega) c3
      (1 + (hitsOf c1).length + (hitsOf c2).length) hcnt3
    rw [hj3, ← ht3] at h
    omega
  have hcnt4 : (1 + (hitsOf c1).length + (hitsOf c2).length + (hitsOf c3).length)
      + (hitsOf c4).length ≤ 10 ^ 11 := by omega
  -- the occurrence chain
  have hWB1 : occWB s t1 := by
    rw [ht1]
    exact occWB_render "ARN".data harn s hdig h12 c1 1 (by omega)
      (by rw [hj1]; exact hWB)
  have hdead2 : ¬ s <:+: t2 := by
    rw [ht2, hc2]
    exact acct_kills s hdig h12 t1 hWB1 (1 + (hitsOf c1).length)
      (by rw [← hc2]; omega)
  have hdead3 : ¬ s <:+: t3 := by
    rw [ht3]
    exact noocc_render "IP".data hip s hdig h12 c3
      (1 + (hitsOf c1).length + (hitsOf c2).length) (by omega)
      (by rw [hj3]; exact hdead2)
  have hdead4 : ¬ s <:+: t4 := by
    rw [ht4]
    exact noocc_render "S3".data (by simp [TAGS]) s hdig h12 c4
      (1 + (hitsOf c1).length + (hitsOf c2).length + (hitsOf c3).length) (by omega)
      (by rw [hj4]; exact hdead3)
  -- connect to the pass pipeline
  set r1 := runPass ⟨[], 1⟩ "ARN".data tryArn t0 with hr1
  set r2 := runPass r1.1 "ACCOUNT_ID".data tryAcct r1.2 with hr2
  set r3 := runPass r2.1 "IP".data tryIp r2.2 with hr3
  set r4 := runPass r3.1 "S3".data tryS3 r3.2 with hr4
  have hsp : scrubPasses ⟨[], 1⟩ t0 = r4 := by
    rw [hr4, hr3, hr2, hr1]
    exact scrubPasses_eq ⟨[], 1⟩ t0
  obtain ⟨o1, n1⟩ := runPass_spec ⟨[], 1⟩ "ARN".data tryArn t0
  rw [← hr1] at o1 n1
  simp only [show ((⟨[], 1⟩ : DataProtector)).nextIndex = 1 from rfl] at o1 n1
  rw [← hc1] at o1 n1
  rw [← ht1] at o1
  obtain ⟨o2, n2⟩ := runPass_spec r1.1 "ACCOUNT_ID".data tryAcct r1.2
  rw [← hr2] at o2 n2
  rw [o1, n1, ← hc2] at o2 n2
  rw [← ht2] at o2
  obtain ⟨o3, n3⟩ := runPass_spec r2.1 "IP".data tryIp r2.2
  rw [← hr3] at o3 n3
  rw [o2, n2, ← hc3] at o3 n3
  rw [← ht3] at o3
  obtain ⟨o4, _⟩ := runPass_spec r3.1 "S3".data tryS3 r3.2
  rw [← hr4] at o4
  rw [o3, n3, ← hc4, ← ht4] at o4
  rw [hsp, o4]
  exact hdead4

/-- C1 (amended): on a fresh `DataProtector`, for an input that contains a
12-digit sequence whose every occurrence is word-boundary-delimited, whose
length is at most `10^9`, and that contains no `'['`: the scrubbed output does
not contain the 12-digit sequence literally, and unscrubbing the output on the
same instance — in the insertion order `Unscrub` uses and under every
traversal order of the replacement map — restores the input exactly. -/
theorem C1_amended (text : String) (s : Chars)
    (h12 : s.length = 12)
    (hdig : ∀ c ∈ s, isDigitChar c = true)
    (hinf : s <:+: text.data)
    (hWB : occWBcheck s text.data = true)
    (hlen : text.data.length ≤ 1000000000)
    (hbr : ∀ c ∈ text.data, c ≠ '[') :
    ¬ s <:+: (NewDataProtector.Scrub text).2.data
    ∧ (NewDataProtector.Scrub text).1.Unscrub (NewDataProtector.Scrub text).2 = text
    ∧ ∀ entries, List.Perm entries (NewDataProtector.Scrub text).1.replacements →
        unscrubWith entries (NewDataProtector.Scrub text).2.data = text.data := by
  have hne : text ≠ "" := by
    intro h
    have hl := hinf.length_le
    rw [h, show ("" : String).data.length = 0 from rfl] at hl
    omega
  obtain ⟨qs, hout, hsi, hval⟩ := scrub_flatten text hbr
  obtain ⟨hidx1, hpermP, hnodup, hholeP, hrawP⟩ := hsi
  have hround : ∀ entries,
      List.Perm entries (NewDataProtector.Scrub text).1.replacements →
      unscrubWith entries (NewDataProtector.Scrub text).2.data = text.data := by
    intro entries hperm
    rw [hout, ← hval]
    exact unscrub_restores qs hrawP
      (fun t j v hm => ⟨(hholeP t j v hm).1, (hholeP t j v hm).2.2.2⟩)
      hnodup entries (hperm.trans hpermP)
  have hU : (NewDataProtector.Scrub text).1.Unscrub (NewDataProtector.Scrub text).2
      = text := by
    have hmain := hround (NewDataProtector.Scrub text).1.replacements (List.Perm.refl _)
    by_cases hrepl : (NewDataProtector.Scrub text).1.replacements.length = 0
    · have hr0 : (NewDataProtector.Scrub text).1.replacements = [] :=
        List.length_eq_zero.mp hrepl
      rw [hr0, unscrubWith_nil] at hmain
      rw [show (NewDataProtector.Scrub text).1.Unscrub (NewDataProtector.Scrub text).2
          = (NewDataProtector.Scrub text).2 from by
        simp [DataProtector.Unscrub, hrepl]]
      exact string_data_ext _ _ hmain
    · by_cases hout2 : (NewDataProtector.Scrub text).2 = ""
      · exfalso
        have hdata : (NewDataProtector.Scrub text).2.data = [] := by
          rw [hout2]
        rw [hdata] at hmain
        have hshapes : ∀ e ∈ (NewDataProtector.Scrub text).1.replacements, e.1 ≠ [] := by
          intro e he
          have he2 : e ∈ (holes qs).map holeEntry := hpermP.subset he
          obtain ⟨pc, hpc, hpce⟩ := List.mem_map.mp he2
          obtain ⟨t, i, v, rfl, -⟩ := holes_shape qs pc hpc
          rw [← hpce]
          simp [holeEntry, placeholderChars]
        have hnil := unscrubWith_nil_text _ hshapes
        rw [hnil] at hmain
        have hl := hinf.length_le
        rw [← hmain, h12] at hl
        exact absurd hl (by decide)
      · rw [show (NewDataProtector.Scrub text).1.Unscrub (NewDataProtector.Scrub text).2
            = String.mk (unscrubWith (NewDataProtector.Scrub text).1.replacements
                (NewDataProtector.Scrub text).2.data) from by
          simp [DataProtector.Unscrub, hrepl, hout2]]
        rw [hmain]
  refine ⟨?_, hU, hround⟩
  have hdat : (NewDataProtector.Scrub text).2.data = (scrubPasses ⟨[], 1⟩ text.data).2 := by
    rw [show NewDataProtector.Scrub text
        = ((scrubPasses ⟨[], 1⟩ text.data).1, String.mk (scrubPasses ⟨[], 1⟩ text.data).2)
        from by rw [DataProtector.Scrub, if_neg hne]; rfl]
  rw [hdat]
  exact scrub_contains_core text.data s hdig h12 (occWBcheck_spec s text.data hWB) hlen

/-- Witness for the amended C1 at a concrete input. -/
theorem C1_amended_witness :
    (("123456789012".data : Chars).length = 12
      ∧ (∀ c ∈ ("123456789012".data : Chars), isDigitChar c = true)
      ∧ ("123456789012".data : Chars) <:+: ("id 123456789012 ok" : String).data
      ∧ occWBcheck "123456789012".data ("id 123456789012 ok" : String).data = true
      ∧ ("id 123456789012 ok" : String).data.length ≤ 1000000000
      ∧ (∀ c ∈ ("id 123456789012 ok" : String).data, c ≠ '['))
    ∧ (¬ ("123456789012".data : Chars)
          <:+: (NewDataProtector.Scrub "id 123456789012 ok").2.data
      ∧ (NewDataProtector.Scrub "id 123456789012 ok").1.Unscrub
          (NewDataProtector.Scrub "id 123456789012 ok").2 = "id 123456789012 ok"
      ∧ ∀ entries,
          List.Perm entries (NewDataProtector.Scrub "id 123456789012 ok").1.replacements →
          unscrubWith entries (NewDataProtector.Scrub "id 123456789012 ok").2.data
            = ("id 123456789012 ok" : String).data) :=
  ⟨⟨by decide, by decide, ⟨"id ".data, " ok".data, by decide⟩, by decide, by decide,
      by decide⟩,
    C1_amended "id 123456789012 ok" "123456789012".data (by decide) (by decide)
      ⟨"id ".data, " ok".data, by decide⟩ (by decide) (by decide) (by decide)⟩

end CloudAI
